import Mathlib

/-!
Shallow embedding of the `pauling` resonance-perception library
(Rust sources under `src/`), together with theorems settling the
specification claims about it.

Conventions of the embedding:
* Rust `usize`/`u32`/`u8` values are modelled as `Nat`; wrapping or
  saturating arithmetic is made explicit (`% 4294967296`, `min 255 _`).
* `HashMap` values built by repeated `insert` are modelled as association
  lists where the *last* binding wins (`mapLookup`).
* `HashSet` iteration order is modelled as first-insertion order; every
  place the library consumes such a set is order-insensitive (sums,
  `all`-style screens, or results that are sorted afterwards).
* Imperative loops become folds or fuel-indexed structural recursion; the
  fuel is always chosen at call sites to dominate the loop's step count.
-/

namespace Pauling

abbrev AtomId := Nat
abbrev BondId := Nat

/-- Chemical elements are identified by atomic number (the Rust enum
`Element` is `#[repr(u8)]` with the atomic number as discriminant). -/
abbrev Element := Nat

/-- `Element::valence_electrons` from `src/core/atom.rs`: main-group
valence electron count, `none` outside groups 1-2 and 13-18. -/
def valence_electrons (e : Element) : Option Nat :=
  match e with
  | 1 => some 1 | 2 => some 2
  | 3 | 11 | 19 | 37 | 55 | 87 => some 1
  | 4 | 12 | 20 | 38 | 56 | 88 => some 2
  | 5 | 13 | 31 | 49 | 81 => some 3
  | 6 | 14 | 32 | 50 | 82 => some 4
  | 7 | 15 | 33 | 51 | 83 => some 5
  | 8 | 16 | 34 | 52 | 84 => some 6
  | 9 | 17 | 35 | 53 | 85 => some 7
  | 10 | 18 | 36 | 54 | 86 | 118 => some 8
  | _ => none

/-- `Element::is_common_conjugation_element` from `src/core/atom.rs`:
B, C, N, O, P, S, Si, As, Se, Ge, F, Cl, Br, I. -/
def is_common_conjugation_element (e : Element) : Bool :=
  match e with
  | 5 | 6 | 7 | 8 | 15 | 16 | 14 | 33 | 34 | 32 | 9 | 17 | 35 | 53 => true
  | _ => false

/-- Atomic numbers of the elements named in the sources. -/
def elemH : Element := 1
def elemB : Element := 5
def elemC : Element := 6
def elemN : Element := 7
def elemO : Element := 8
def elemP : Element := 15
def elemS : Element := 16

/-- `BondOrder` from `src/core/bond.rs`. -/
inductive BondOrder where
  | Single
  | Double
  | Triple
  | Aromatic
deriving DecidableEq, Repr, Inhabited

/-- `BondOrder::multiplicity`. -/
def BondOrder.multiplicity : BondOrder → Nat
  | .Single => 1
  | .Double => 2
  | .Triple => 3
  | .Aromatic => 1

/-- `Hybridization` from `src/perception/state.rs`. -/
inductive Hybridization where
  | SP
  | SP2
  | SP3
  | Unknown
deriving DecidableEq, Repr, Inhabited

/-- `PerceivedAtom` from `src/perception/mod.rs`; `conjugation_roles` is
the `u8` bitset of `ConjugationRole`. -/
structure PerceivedAtom where
  id : AtomId
  element : Element
  formal_charge : Int
  total_degree : Nat
  total_valence : Nat
  is_in_ring : Bool
  is_aromatic : Bool
  hybridization : Hybridization
  is_conjugation_candidate : Bool
  lone_pairs : Nat
  conjugation_roles : Nat
deriving DecidableEq, Repr, Inhabited

/-- `PerceivedAtom::new`. -/
def PerceivedAtom.mk0 (id : AtomId) (element : Element) (formal_charge : Int)
    (total_degree : Nat) : PerceivedAtom :=
  { id := id, element := element, formal_charge := formal_charge
    total_degree := total_degree, total_valence := 0
    is_in_ring := false, is_aromatic := false
    hybridization := .Unknown, is_conjugation_candidate := false
    lone_pairs := 0, conjugation_roles := 0 }

/-- `PerceivedBond` from `src/perception/mod.rs`. -/
structure PerceivedBond where
  id : BondId
  order : BondOrder
  start_atom_id : AtomId
  end_atom_id : AtomId
  is_in_ring : Bool
  is_aromatic : Bool
  kekule_order : Option BondOrder
deriving DecidableEq, Repr, Inhabited

/-- `PerceivedBond::new`. -/
def PerceivedBond.mk0 (id : BondId) (order : BondOrder)
    (start_atom_id end_atom_id : AtomId) : PerceivedBond :=
  { id := id, order := order, start_atom_id := start_atom_id
    end_atom_id := end_atom_id, is_in_ring := false
    is_aromatic := false, kekule_order := none }

/-- `PerceivedBond::other_end`. -/
def PerceivedBond.other_end (b : PerceivedBond) (atom_id : AtomId) : AtomId :=
  if b.start_atom_id = atom_id then b.end_atom_id else b.start_atom_id

/-- `Ring` from `src/perception/ring.rs`. -/
structure Ring where
  atom_ids : List AtomId
  bond_ids : List BondId
deriving DecidableEq, Repr, Inhabited

/-- `RingInfo` from `src/perception/ring.rs`. -/
structure RingInfo where
  rings : List Ring
deriving DecidableEq, Repr, Inhabited

/-- `PerceptionError` from `src/errors.rs`. -/
inductive PerceptionError where
  | InconsistentGraph (id : AtomId)
  | DuplicateBond (start_atom end_atom : AtomId)
  | KekulizationFailed (attempts : Nat)
  | RingPerceptionFailed (reason : String)
deriving DecidableEq, Repr, Inhabited

/-- `ChemicalPerception` from `src/perception/mod.rs`.  The two hash maps
are association lists whose *last* binding for a key wins, matching
`HashMap::insert` overwrite semantics. -/
structure ChemicalPerception where
  atoms : List PerceivedAtom
  bonds : List PerceivedBond
  adjacency : List (List (Nat × BondId))
  atom_id_to_index : List (Nat × Nat)
  bond_id_to_index : List (Nat × Nat)
  ring_info : RingInfo
deriving DecidableEq, Repr, Inhabited

/-- `HashMap::get`: the last inserted binding for the key wins. -/
def mapLookup (m : List (Nat × Nat)) (k : Nat) : Option Nat :=
  m.foldl (fun acc pr => if pr.1 = k then some pr.2 else acc) none

/-- Read an atom by internal index (Rust slice indexing; call sites keep
the index in bounds). -/
def atomGet (p : ChemicalPerception) (i : Nat) : PerceivedAtom :=
  p.atoms.getD i default

/-- Read a bond by internal index. -/
def bondGet (p : ChemicalPerception) (i : Nat) : PerceivedBond :=
  p.bonds.getD i default

/-- Read an adjacency row by internal atom index. -/
def adjGet (p : ChemicalPerception) (i : Nat) : List (Nat × BondId) :=
  p.adjacency.getD i []

/-- Apply `f` to the element at index `i`, when it exists. -/
def updateNth {α : Type} (l : List α) (i : Nat) (f : α → α) : List α :=
  match l.get? i with
  | some x => l.set i (f x)
  | none => l

/-- `u8::saturating_add` for values kept as `Nat`. -/
def satAdd255 (a b : Nat) : Nat := min 255 (a + b)

/-- Stable insertion of `x` after every element `y` with `le y x`. -/
def insertLe {α : Type} (le : α → α → Bool) (x : α) : List α → List α
  | [] => [x]
  | y :: ys => if le y x then y :: insertLe le x ys else x :: y :: ys

/-- Stable insertion sort (models both Rust `sort_by_key` on equal keys
and `sort_unstable` on totally ordered keys). -/
def sortBy {α : Type} (le : α → α → Bool) (l : List α) : List α :=
  l.foldr (insertLe le) []

/-- `Vec::dedup`: remove consecutive duplicates. -/
def dedupAdj : List Nat → List Nat
  | [] => []
  | [x] => [x]
  | x :: y :: rest => if x = y then dedupAdj (y :: rest) else x :: dedupAdj (y :: rest)

/-- `v.sort_unstable(); v.dedup();` on a list of identifiers. -/
def sortDedup (l : List Nat) : List Nat :=
  dedupAdj (sortBy (fun a b => a ≤ b) l)

/-- `Ring::new`: canonicalise atom and bond identifier lists. -/
def Ring.new (atom_ids bond_ids : List Nat) : Ring :=
  { atom_ids := sortDedup atom_ids, bond_ids := sortDedup bond_ids }

/-- Pair every list element with its index, starting at `n`. -/
def enumFrom {α : Type} (n : Nat) : List α → List (Nat × α)
  | [] => []
  | x :: xs => (n, x) :: enumFrom (n + 1) xs

/-- Pair every list element with its index (models `iter().enumerate()`). -/
def enumIdx {α : Type} (l : List α) : List (Nat × α) :=
  enumFrom 0 l

/-! ### The input graph interface (`src/graph/traits.rs`)

An input graph is the data the `atoms()` / `bonds()` iterators yield, in
iteration order. -/

/-- The `AtomView` data of one input atom. -/
structure InputAtom where
  id : AtomId
  element : Element
  formal_charge : Int
deriving DecidableEq, Repr, Inhabited

/-- The `BondView` data of one input bond. -/
structure InputBond where
  id : BondId
  order : BondOrder
  start_atom_id : AtomId
  end_atom_id : AtomId
deriving DecidableEq, Repr, Inhabited

/-- A `MoleculeGraph`, reduced to its two iterators. -/
structure InputGraph where
  atoms : List InputAtom
  bonds : List InputBond
deriving DecidableEq, Repr, Inhabited

/-! ### GraphBuilder (`ChemicalPerception::from_graph`, topology part) -/

/-- The canonical unordered endpoint pair of an input bond
(`(start.min(end), start.max(end))`). -/
def canonicalPair (b : InputBond) : Nat × Nat :=
  (min b.start_atom_id b.end_atom_id, max b.start_atom_id b.end_atom_id)

/-- Intermediate state of the bond loop in `from_graph`. -/
structure BuildState where
  seen_bonds : List (Nat × Nat)
  adjacency : List (List (Nat × BondId))
  bonds : List PerceivedBond
  bond_id_to_index : List (Nat × Nat)
deriving Repr

/-- One iteration of the bond loop of `from_graph`: canonical-pair
duplicate check, endpoint resolution, adjacency insertion. -/
def buildBondStep (atom_map : List (Nat × Nat)) (st : BuildState)
    (bv : InputBond) : Except PerceptionError BuildState :=
  if st.seen_bonds.contains (canonicalPair bv) then
    .error (.DuplicateBond bv.start_atom_id bv.end_atom_id)
  else
    match mapLookup atom_map bv.start_atom_id with
    | none => .error (.InconsistentGraph bv.start_atom_id)
    | some start_idx =>
      match mapLookup atom_map bv.end_atom_id with
      | none => .error (.InconsistentGraph bv.end_atom_id)
      | some end_idx =>
        let adjacency := updateNth st.adjacency start_idx
          (fun row => row ++ [(end_idx, bv.id)])
        let adjacency := updateNth adjacency end_idx
          (fun row => row ++ [(start_idx, bv.id)])
        .ok { seen_bonds := st.seen_bonds ++ [canonicalPair bv]
              adjacency := adjacency
              bonds := st.bonds ++
                [PerceivedBond.mk0 bv.id bv.order bv.start_atom_id bv.end_atom_id]
              bond_id_to_index := st.bond_id_to_index ++ [(bv.id, st.bonds.length)] }

/-- The bond loop of `from_graph`. -/
def buildBonds (atom_map : List (Nat × Nat)) :
    List InputBond → BuildState → Except PerceptionError BuildState
  | [], st => .ok st
  | bv :: rest, st =>
    match buildBondStep atom_map st bv with
    | .error e => .error e
    | .ok st' => buildBonds atom_map rest st'

/-- The `atom_id_to_index` map built by the atom loop of `from_graph`
(insertion order; a repeated id overwrites, as `HashMap::insert` does). -/
def atomIndexMap (g : InputGraph) : List (Nat × Nat) :=
  (enumIdx g.atoms).map (fun pr => (pr.2.id, pr.1))

/-- The GraphBuilder stage of `ChemicalPerception::from_graph`
(`src/perception/mod.rs` lines 211-278): index maps, duplicate/endpoint
validation, adjacency, and the freshly defaulted atom and bond arrays.
The `as u8` cast of the adjacency length is the `% 256` truncation. -/
def buildPerception (g : InputGraph) : Except PerceptionError ChemicalPerception :=
  let atom_map := atomIndexMap g
  let num_atoms := g.atoms.length
  let st0 : BuildState :=
    { seen_bonds := [], adjacency := List.replicate num_atoms []
      bonds := [], bond_id_to_index := [] }
  match buildBonds atom_map g.bonds st0 with
  | .error e => .error e
  | .ok st =>
    let perceived_atoms := g.atoms.map (fun av =>
      let idx := (mapLookup atom_map av.id).getD 0
      PerceivedAtom.mk0 av.id av.element av.formal_charge
        ((st.adjacency.getD idx []).length % 256))
    .ok { atoms := perceived_atoms
          bonds := st.bonds
          adjacency := st.adjacency
          atom_id_to_index := atom_map
          bond_id_to_index := st.bond_id_to_index
          ring_info := { rings := [] } }

/-! ### RingFinder (`src/perception/ring.rs`) -/

/-- Inner stack loop of `count_components`; one fuel unit per pop. -/
def dfsMark (adj : List (List (Nat × BondId))) :
    Nat → List Nat → List Bool → List Bool
  | 0, _, visited => visited
  | fuel + 1, stack, visited =>
    match stack with
    | [] => visited
    | current :: rest =>
      let step := (adj.getD current []).foldl
        (fun (pr : List Nat × List Bool) entry =>
          if pr.2.getD entry.1 false then pr
          else (entry.1 :: pr.1, pr.2.set entry.1 true))
        (rest, visited)
      dfsMark adj fuel step.1 step.2

/-- `count_components`: DFS over the adjacency lists. -/
def count_components (p : ChemicalPerception) : Nat :=
  let n := p.atoms.length
  let res := (List.range n).foldl
    (fun (pr : Nat × List Bool) i =>
      if pr.2.getD i false then pr
      else (pr.1 + 1, dfsMark p.adjacency (n + 1) [i] (pr.2.set i true)))
    (0, List.replicate n false)
  res.1

/-- The `isize` cyclomatic number `|E| - |V| + C` computed in `find_sssr`. -/
def cyclomaticOf (p : ChemicalPerception) : Int :=
  (p.bonds.length : Int) - (p.atoms.length : Int) + (count_components p : Int)

/-- `PathData` from `src/perception/ring.rs`. -/
structure PathData where
  atom_ids : List AtomId
  bond_ids : List BondId
deriving DecidableEq, Repr, Inhabited

/-- BFS loop of `shortest_path_excluding_bond`; one fuel unit per pop. -/
def bfsPath (p : ChemicalPerception) (end_idx : Nat) (forbidden : BondId) :
    Nat → List Nat → List Bool → List (Option (Nat × BondId)) →
    List Bool × List (Option (Nat × BondId))
  | 0, _, visited, parent => (visited, parent)
  | fuel + 1, queue, visited, parent =>
    match queue with
    | [] => (visited, parent)
    | current :: rest =>
      if current = end_idx then (visited, parent)
      else
        let step := (adjGet p current).foldl
          (fun (acc : List Nat × List Bool × List (Option (Nat × BondId))) entry =>
            if entry.2 = forbidden then acc
            else if acc.2.1.getD entry.1 false then acc
            else (acc.1 ++ [entry.1], acc.2.1.set entry.1 true,
                  acc.2.2.set entry.1 (some (current, entry.2))))
          (rest, visited, parent)
        bfsPath p end_idx forbidden fuel step.1 step.2.1 step.2.2

/-- Parent-pointer walk at the end of `shortest_path_excluding_bond`. -/
def tracePath (p : ChemicalPerception) (parent : List (Option (Nat × BondId))) :
    Nat → Nat → List AtomId → List BondId → List AtomId × List BondId × Nat
  | 0, cursor, atoms, bonds => (atoms, bonds, cursor)
  | fuel + 1, cursor, atoms, bonds =>
    match parent.getD cursor none with
    | none => (atoms, bonds, cursor)
    | some pr =>
      tracePath p parent fuel pr.1
        (atoms ++ [(atomGet p cursor).id]) (bonds ++ [pr.2])

/-- `shortest_path_excluding_bond`. -/
def shortest_path_excluding_bond (p : ChemicalPerception)
    (start_atom_id end_atom_id : AtomId) (forbidden_bond_id : BondId) :
    Option PathData :=
  match mapLookup p.atom_id_to_index start_atom_id,
        mapLookup p.atom_id_to_index end_atom_id with
  | some start_idx, some end_idx =>
    let n := p.atoms.length
    let visited0 := (List.replicate n false).set start_idx true
    let res := bfsPath p end_idx forbidden_bond_id (n + 1) [start_idx]
      visited0 (List.replicate n none)
    if res.1.getD end_idx false then
      let traced := tracePath p res.2 (n + 1) end_idx [] []
      let atom_ids := traced.1 ++ [(atomGet p traced.2.2).id]
      some { atom_ids := atom_ids.reverse, bond_ids := traced.2.1.reverse }
    else none
  | _, _ => none

/-- `enumerate_cycle_candidates`: one shortest cycle per bond,
deduplicated by the sorted tuple of bond ids. -/
def enumerate_cycle_candidates (p : ChemicalPerception) : List Ring :=
  let res := p.bonds.foldl
    (fun (acc : List (List BondId) × List Ring) bond =>
      match shortest_path_excluding_bond p bond.start_atom_id
          bond.end_atom_id bond.id with
      | none => acc
      | some path =>
        let all_bond_ids := sortBy (fun a b => a ≤ b)
          (path.bond_ids ++ [bond.id])
        if acc.1.contains all_bond_ids then acc
        else (acc.1 ++ [all_bond_ids],
              acc.2 ++ [Ring.new path.atom_ids all_bond_ids]))
    ([], [])
  res.2

/-- Number of distinct keys of a map (Rust `HashMap::len`). -/
def mapKeyCount (m : List (Nat × Nat)) : Nat :=
  (sortDedup (m.map (fun pr => pr.1))).length

/-- `BitVec::new` word count for a given bit width (`size.div_ceil(64)`). -/
def bitvecWords (size : Nat) : Nat := (size + 63) / 64

/-- `BitVec::from_bond_ids`: the GF(2) incidence vector of a bond set,
as a natural number whose bit `i` is the bond with internal index `i`.
The `word < data.len()` guard of the source is kept. -/
def bitvecFromBondIds (bond_ids : List BondId) (bmap : List (Nat × Nat)) : Nat :=
  let words := bitvecWords (mapKeyCount bmap)
  bond_ids.foldl
    (fun bv bid =>
      match mapLookup bmap bid with
      | some idx => if idx / 64 < words then bv ||| (1 <<< idx) else bv
      | none => bv)
    0

/-- Modelled from the spec: `BitVec::test` is called by
`select_minimal_cycle_basis` but its body is absent from `src/`; §9 of the
spec fixes the representation as bits indexed by internal bond id, so the
test of bit `i` is `Nat.testBit`. -/
def bitvecTest (bv : Nat) (i : Nat) : Bool := bv.testBit i

/-- Fuel-driven base-2 logarithm (the fuel is always sufficient when it
is at least the argument, since halving reaches `0` or `1` within that
many steps). -/
def log2fuel : Nat → Nat → Nat
  | 0, _ => 0
  | fuel + 1, m => if 2 ≤ m then log2fuel fuel (m / 2) + 1 else 0

/-- Modelled from the spec: `BitVec::leading_one` is called by
`select_minimal_cycle_basis` but its body is absent from `src/`; §9 of the
spec says "leading-one is the highest set bit", which for a non-zero
value is its base-2 logarithm. -/
def bitvecLeadingOne (bv : Nat) : Option Nat :=
  if bv = 0 then none else some (log2fuel bv bv)

/-- The reduction loop of `select_minimal_cycle_basis`: XOR in every
basis vector whose pivot bit is set, in ascending pivot order. -/
def reduceVec (basis : List (Nat × Nat)) (bv : Nat) : Nat :=
  basis.foldl (fun v pr => if bitvecTest v pr.2 then v ^^^ pr.1 else v) bv

/-- Greedy basis-selection loop of `select_minimal_cycle_basis`. -/
def selectLoop (bmap : List (Nat × Nat)) :
    List Ring → List (Nat × Nat) → List Ring → Nat → List Ring
  | [], _, sel, _ => sel
  | ring :: rest, basis, sel, target =>
    let bv := reduceVec basis (bitvecFromBondIds ring.bond_ids bmap)
    if bv ≠ 0 then
      let pivot := (bitvecLeadingOne bv).getD 0
      let basis' := sortBy (fun a b => a.2 ≤ b.2) (basis ++ [(bv, pivot)])
      let sel' := sel ++ [ring]
      if sel'.length = target then sel'
      else selectLoop bmap rest basis' sel' target
    else selectLoop bmap rest basis sel target

/-- `select_minimal_cycle_basis`. -/
def select_minimal_cycle_basis (p : ChemicalPerception)
    (candidates : List Ring) (cyclomatic_number : Nat) : List Ring :=
  let sorted := sortBy (fun a b => a.bond_ids.length ≤ b.bond_ids.length)
    candidates
  selectLoop p.bond_id_to_index sorted [] [] cyclomatic_number

/-- `find_sssr`. -/
def find_sssr (p : ChemicalPerception) : RingInfo :=
  let cyclo := cyclomaticOf p
  if cyclo ≤ 0 then { rings := [] }
  else
    { rings := select_minimal_cycle_basis p
        (enumerate_cycle_candidates p) cyclo.toNat }

/-- The `is_in_ring` marking loop of `from_graph`, followed by storing
the ring info. -/
def markRings (p : ChemicalPerception) (ri : RingInfo) : ChemicalPerception :=
  let p := ri.rings.foldl
    (fun p ring =>
      let p := ring.atom_ids.foldl
        (fun p aid =>
          match mapLookup p.atom_id_to_index aid with
          | some idx =>
            { p with atoms :=
                updateNth p.atoms idx (fun a => { a with is_in_ring := true }) }
          | none => p) p
      ring.bond_ids.foldl
        (fun p bid =>
          match mapLookup p.bond_id_to_index bid with
          | some idx =>
            { p with bonds :=
                updateNth p.bonds idx (fun b => { b with is_in_ring := true }) }
          | none => p) p)
    p
  { p with ring_info := ri }

/-! ### AromaticityPerceiver (`src/perception/aromaticity.rs`) -/

/-- Phase 1: `apply_explicit_aromaticity`. -/
def apply_explicit_aromaticity (p : ChemicalPerception) : ChemicalPerception :=
  let aromatic_bonds :=
    ((enumIdx p.bonds).filter (fun pr => pr.2.order == .Aromatic)).map
      (fun pr => pr.1)
  aromatic_bonds.foldl
    (fun p bond_idx =>
      let bond := bondGet p bond_idx
      if bond.is_aromatic then p
      else
        let bs := updateNth p.bonds bond_idx (fun b => { b with is_aromatic := true })
        let p := { p with bonds := bs }
        let p :=
          match mapLookup p.atom_id_to_index bond.start_atom_id with
          | some i =>
            let as1 := updateNth p.atoms i (fun a => { a with is_aromatic := true })
            { p with atoms := as1 }
          | none => p
        match mapLookup p.atom_id_to_index bond.end_atom_id with
        | some i =>
          let as2 := updateNth p.atoms i (fun a => { a with is_aromatic := true })
          { p with atoms := as2 }
        | none => p)
    p

/-- Append, unless already present (`HashSet::insert`, iterated in
first-insertion order). -/
def insertAbsent (l : List Nat) (x : Nat) : List Nat :=
  if l.contains x then l else l ++ [x]

/-- The `bond_to_rings` grouping of `find_fused_ring_systems`, as an
association list in first-insertion key order. -/
def bondToRings (p : ChemicalPerception) : List (Nat × List Nat) :=
  (enumIdx p.ring_info.rings).foldl
    (fun groups pr =>
      pr.2.bond_ids.foldl
        (fun g bid =>
          if g.any (fun e => e.1 == bid) then
            g.map (fun e => if e.1 == bid then (e.1, e.2 ++ [pr.1]) else e)
          else g ++ [(bid, [pr.1])])
        groups)
    []

/-- All ordered pairs `(l[i], l[j])` with `i < j`, in nested-loop order. -/
def allPairs {α : Type} : List α → List (α × α)
  | [] => []
  | x :: xs => xs.map (fun y => (x, y)) ++ allPairs xs

/-- The ring-adjacency graph of `find_fused_ring_systems`. -/
def ringAdjacency (p : ChemicalPerception) : List (List Nat) :=
  (bondToRings p).foldl
    (fun adj g =>
      (allPairs g.2).foldl
        (fun adj pr =>
          updateNth (updateNth adj pr.1 (fun row => row ++ [pr.2])) pr.2
            (fun row => row ++ [pr.1]))
        adj)
    (List.replicate p.ring_info.rings.length [])

/-- Stack DFS collecting one connected component, in pop order. -/
def dfsCollect (adj : List (List Nat)) :
    Nat → List Nat → List Bool → List Nat × List Bool
  | 0, _, visited => ([], visited)
  | fuel + 1, stack, visited =>
    match stack with
    | [] => ([], visited)
    | current :: rest =>
      let step := (adj.getD current []).foldl
        (fun (pr : List Nat × List Bool) n =>
          if pr.2.getD n false then pr
          else (n :: pr.1, pr.2.set n true))
        (rest, visited)
      let res := dfsCollect adj fuel step.1 step.2
      (current :: res.1, res.2)

/-- `find_fused_ring_systems`: connected components of the
ring-adjacency graph, each a list of ring indices. -/
def find_fused_ring_systems (p : ChemicalPerception) : List (List Nat) :=
  let num_rings := p.ring_info.rings.length
  if num_rings = 0 then []
  else
    let adjR := ringAdjacency p
    let res := (List.range num_rings).foldl
      (fun (acc : List (List Nat) × List Bool) i =>
        if acc.2.getD i false then acc
        else
          let r := dfsCollect adjR (num_rings + 1) [i] (acc.2.set i true)
          (acc.1 ++ [r.1], r.2))
      ([], List.replicate num_rings false)
    res.1

/-- Atom index set of a fused system as collected (with panicking map
indexing, modelled by `getD 0`) inside `is_system_aromatic`. -/
def systemAtomIndices (p : ChemicalPerception)
    (system_ring_indices : List Nat) : List Nat :=
  system_ring_indices.foldl
    (fun acc ridx =>
      (p.ring_info.rings.getD ridx default).atom_ids.foldl
        (fun acc aid =>
          insertAbsent acc ((mapLookup p.atom_id_to_index aid).getD 0))
        acc)
    []

/-- Bond index set of a fused system inside `is_system_aromatic`. -/
def systemBondIndices (p : ChemicalPerception)
    (system_ring_indices : List Nat) : List Nat :=
  system_ring_indices.foldl
    (fun acc ridx =>
      (p.ring_info.rings.getD ridx default).bond_ids.foldl
        (fun acc bid =>
          insertAbsent acc ((mapLookup p.bond_id_to_index bid).getD 0))
        acc)
    []

/-- `is_potential_sp2_hybrid`: the degree-and-element screen. -/
def is_potential_sp2_hybrid (p : ChemicalPerception) (atom_idx : Nat) : Bool :=
  let a := atomGet p atom_idx
  decide (a.total_degree ≤ 3) && is_common_conjugation_element a.element

/-- `pi_electrons_for_atom`. -/
def pi_electrons_for_atom (p : ChemicalPerception) (atom_idx : Nat)
    (system_bond_indices : List Nat) : Nat :=
  let a := atomGet p atom_idx
  let is_in_multiple_bond_in_system := (adjGet p atom_idx).any
    (fun entry =>
      match mapLookup p.bond_id_to_index entry.2 with
      | some bond_idx =>
        if system_bond_indices.contains bond_idx then
          let bond := bondGet p bond_idx
          bond.order == .Double || bond.order == .Triple
        else false
      | none => false)
  if is_in_multiple_bond_in_system then 1
  else if a.element = elemN then
    (if a.total_degree = 3 then (if a.formal_charge = 1 then 0 else 2) else 0)
  else if a.element = elemO ∨ a.element = elemS then
    (if a.total_degree = 2 then 2 else 0)
  else if a.element = elemC then
    (if a.total_degree = 3 then
      (if a.formal_charge = -1 then 2 else 0)
     else 0)
  else 0

/-- The `u32` modulus. -/
def u32Mod : Nat := 4294967296

/-- The wrapping `u32` accumulation of π electrons over the system's
atoms. -/
def systemPiCountU32 (p : ChemicalPerception)
    (atomsIdx bondsIdx : List Nat) : Nat :=
  atomsIdx.foldl
    (fun acc i => (acc + pi_electrons_for_atom p i bondsIdx) % u32Mod) 0

/-- `is_system_aromatic`: screen, π count, Hückel test.  The source's
`pi_electron_count - 2` is `u32` arithmetic, so it is modelled as the
wrapping subtraction `(t + 2^32 - 2) % 2^32`. -/
def is_system_aromatic (p : ChemicalPerception)
    (system_ring_indices : List Nat) : Bool :=
  let atomsIdx := systemAtomIndices p system_ring_indices
  let bondsIdx := systemBondIndices p system_ring_indices
  if atomsIdx.all (fun i => is_potential_sp2_hybrid p i) then
    let t := systemPiCountU32 p atomsIdx bondsIdx
    decide (0 < t) && decide ((t + (u32Mod - 2)) % u32Mod % 4 = 0)
  else false

/-- Atom index set of a fused system as collected (with non-panicking
`get`) by the marking loop of `apply_topological_aromaticity`. -/
def systemAtomIndicesOpt (p : ChemicalPerception) (sys : List Nat) : List Nat :=
  sys.foldl
    (fun acc ridx =>
      (p.ring_info.rings.getD ridx default).atom_ids.foldl
        (fun acc aid =>
          match mapLookup p.atom_id_to_index aid with
          | some idx => insertAbsent acc idx
          | none => acc)
        acc)
    []

/-- Bond index set counterpart of `systemAtomIndicesOpt`. -/
def systemBondIndicesOpt (p : ChemicalPerception) (sys : List Nat) : List Nat :=
  sys.foldl
    (fun acc ridx =>
      (p.ring_info.rings.getD ridx default).bond_ids.foldl
        (fun acc bid =>
          match mapLookup p.bond_id_to_index bid with
          | some idx => insertAbsent acc idx
          | none => acc)
        acc)
    []

/-- Phase 2: `apply_topological_aromaticity`. -/
def apply_topological_aromaticity (p : ChemicalPerception) : ChemicalPerception :=
  if p.ring_info.rings.isEmpty then p
  else
    (find_fused_ring_systems p).foldl
      (fun p system =>
        if is_system_aromatic p system then
          let atomsIdx := systemAtomIndicesOpt p system
          let bondsIdx := systemBondIndicesOpt p system
          let p := atomsIdx.foldl
            (fun p i =>
              let as1 := updateNth p.atoms i (fun a => { a with is_aromatic := true })
              { p with atoms := as1 })
            p
          bondsIdx.foldl
            (fun p i =>
              let bs1 := updateNth p.bonds i (fun b => { b with is_aromatic := true })
              { p with bonds := bs1 })
            p
        else p)
      p

/-- `aromaticity::perceive`. -/
def aromaticity_perceive (p : ChemicalPerception) : ChemicalPerception :=
  apply_topological_aromaticity (apply_explicit_aromaticity p)

/-! ### Kekulizer (`src/perception/kekulize.rs`) -/

/-- `KEKULIZATION_ATTEMPT_LIMIT`. -/
def KEKULIZATION_ATTEMPT_LIMIT : Nat := 1000

/-- BFS loop of `collect_aromatic_component`; one fuel unit per pop. -/
def collectAromComp (p : ChemicalPerception) :
    Nat → List Nat → List Bool → List Nat → List Nat × List Bool
  | 0, _, visited, acc => (acc, visited)
  | fuel + 1, queue, visited, acc =>
    match queue with
    | [] => (acc, visited)
    | bond_idx :: rest =>
      let bond := bondGet p bond_idx
      let step := [bond.start_atom_id, bond.end_atom_id].foldl
        (fun (st : List Nat × List Bool) atom_id =>
          match mapLookup p.atom_id_to_index atom_id with
          | none => st
          | some atom_idx =>
            (adjGet p atom_idx).foldl
              (fun (st : List Nat × List Bool) entry =>
                match mapLookup p.bond_id_to_index entry.2 with
                | none => st
                | some nb_idx =>
                  if !(bondGet p nb_idx).is_aromatic || st.2.getD nb_idx false
                  then st
                  else (st.1 ++ [nb_idx], st.2.set nb_idx true))
              st)
        (rest, visited)
      collectAromComp p fuel step.1 step.2 (acc ++ [bond_idx])

/-- `collect_aromatic_component`. -/
def collect_aromatic_component (p : ChemicalPerception)
    (start_bond_idx : Nat) (visited : List Bool) : List Nat × List Bool :=
  collectAromComp p (p.bonds.length + 1) [start_bond_idx]
    (visited.set start_bond_idx true) []

/-- Write a `kekule_order`. -/
def setKekule (bonds : List PerceivedBond) (idx : Nat) (v : Option BondOrder) :
    List PerceivedBond :=
  updateNth bonds idx (fun b => { b with kekule_order := v })

/-- Increment a per-atom double-bond counter (`entry().or_insert(0) += 1`). -/
def bumpCount (c : AtomId → Nat) (a : AtomId) : AtomId → Nat :=
  fun x => if x = a then c x + 1 else c x

/-- Decrement a per-atom double-bond counter. -/
def decrCount (c : AtomId → Nat) (a : AtomId) : AtomId → Nat :=
  fun x => if x = a then c x - 1 else c x

/-- `kekule_backtrack`: the remaining `unassigned_bonds` suffix replaces
the `position` index.  The result carries the success flag, the bonds,
the counter map, and the attempt counter. -/
def kekule_backtrack (bonds : List PerceivedBond) :
    List Nat → (AtomId → Nat) → Nat →
    Bool × List PerceivedBond × (AtomId → Nat) × Nat
  | [], counts, attempts => (true, bonds, counts, attempts)
  | bond_idx :: rest, counts, attempts =>
    if KEKULIZATION_ATTEMPT_LIMIT ≤ attempts then
      (false, bonds, counts, attempts)
    else
      let attempts1 := attempts + 1
      let b := bonds.getD bond_idx default
      let sId := b.start_atom_id
      let eId := b.end_atom_id
      if counts sId = 0 ∧ counts eId = 0 then
        let rD := kekule_backtrack (setKekule bonds bond_idx (some .Double))
          rest (bumpCount (bumpCount counts sId) eId) attempts1
        if rD.1 then rD
        else
          let bondsU := setKekule rD.2.1 bond_idx none
          let countsU := decrCount (decrCount rD.2.2.1 sId) eId
          let rS := kekule_backtrack (setKekule bondsU bond_idx (some .Single))
            rest countsU rD.2.2.2
          if rS.1 then rS
          else (false, setKekule rS.2.1 bond_idx none, rS.2.2.1, rS.2.2.2)
      else
        let rS := kekule_backtrack (setKekule bonds bond_idx (some .Single))
          rest counts attempts1
        if rS.1 then rS
        else (false, setKekule rS.2.1 bond_idx none, rS.2.2.1, rS.2.2.2)

/-- `assign_kekule_orders` for one component; `Except` carries
`KekulizationFailed` with the mutated attempt counter. -/
def assign_kekule_orders (bonds : List PerceivedBond)
    (component_bond_indices : List Nat) (total_attempts : Nat) :
    Except PerceptionError (List PerceivedBond × Nat) :=
  let unassigned := component_bond_indices.filter
    (fun idx => (bonds.getD idx default).kekule_order == none)
  if unassigned.isEmpty then .ok (bonds, total_attempts)
  else
    let r := kekule_backtrack bonds unassigned (fun _ => 0) total_attempts
    if r.1 then
      let bonds2 := component_bond_indices.foldl
        (fun bs idx =>
          if (bs.getD idx default).kekule_order == none then
            setKekule bs idx (some .Single)
          else bs)
        r.2.1
      .ok (bonds2, r.2.2.2)
    else .error (.KekulizationFailed r.2.2.2)

/-- `kekulize`: component discovery and per-component assignment. -/
def kekulize (p : ChemicalPerception) :
    Except PerceptionError ChemicalPerception :=
  let n := p.bonds.length
  let res := (List.range n).foldl
    (fun (acc : Except PerceptionError (List PerceivedBond × List Bool × Nat))
        bond_idx =>
      match acc with
      | .error e => .error e
      | .ok st =>
        let bonds := st.1
        let visited := st.2.1
        let total := st.2.2
        if (bonds.getD bond_idx default).is_aromatic &&
            !(visited.getD bond_idx false) then
          let c := collect_aromatic_component { p with bonds := bonds }
            bond_idx visited
          match assign_kekule_orders bonds c.1 total with
          | .error e => .error e
          | .ok pr => .ok (pr.1, c.2, pr.2)
        else acc)
    (.ok (p.bonds, List.replicate n false, 0))
  match res with
  | .error e => .error e
  | .ok st => .ok { p with bonds := st.1 }

/-! ### StatePerceiver (`src/perception/state.rs`) -/

/-- The effective order of a bond (`kekule_order.unwrap_or(order)`)
converted to its multiplicity. -/
def effectiveMultiplicity (b : PerceivedBond) : Nat :=
  (b.kekule_order.getD b.order).multiplicity

/-- One optional endpoint update of the valence loop: when the endpoint
resolved to an index, add `m` to that atom's valence, saturating. -/
def applyValence (acc : List PerceivedAtom) (j : Option Nat) (m : Nat) :
    List PerceivedAtom :=
  match j with
  | some k =>
    updateNth acc k
      (fun a => { a with total_valence := satAdd255 a.total_valence m })
  | none => acc

/-- The body of the bond loop of `compute_valence`: add the effective
multiplicity to both resolved endpoints, saturating at 255. -/
def valenceStep (amap : List (Nat × Nat)) (acc : List PerceivedAtom)
    (bond : PerceivedBond) : List PerceivedAtom :=
  let m := effectiveMultiplicity bond
  applyValence (applyValence acc (mapLookup amap bond.start_atom_id) m)
    (mapLookup amap bond.end_atom_id) m

/-- `compute_valence`: zero all valences, then fold over the bonds
adding the effective multiplicity to both endpoints with `u8`
saturating addition. -/
def compute_valence (p : ChemicalPerception) : ChemicalPerception :=
  let atoms0 := p.atoms.map (fun a => { a with total_valence := 0 })
  { p with atoms := p.bonds.foldl (valenceStep p.atom_id_to_index) atoms0 }

/-- `estimate_lone_pairs`: signed bookkeeping clamped at zero. -/
def estimate_lone_pairs (a : PerceivedAtom) : Nat :=
  match valence_electrons a.element with
  | none => 0
  | some v =>
    let non_bonding : Int := (v : Int) - a.formal_charge - (a.total_valence : Int)
    ((max non_bonding 0) / 2).toNat

/-- Steric-number mapping of the initial hybridization pass. -/
def stericHybrid (steric : Nat) : Hybridization :=
  if steric = 2 then .SP
  else if steric = 3 then .SP2
  else if steric = 4 then .SP3
  else .Unknown

/-- The first pass of `perceive_hybridization`: store lone pairs and the
initial hybridization of every atom. -/
def initialHybridPass (atoms : List PerceivedAtom) : List PerceivedAtom :=
  let lone_pairs := atoms.map estimate_lone_pairs
  (enumIdx atoms).map
    (fun pr =>
      let a := { pr.2 with lone_pairs := lone_pairs.getD pr.1 0 }
      if a.is_aromatic then { a with hybridization := .SP2 }
      else
        let steric := satAdd255 a.total_degree a.lone_pairs
        { a with hybridization := stericHybrid steric })

/-- The second pass of `perceive_hybridization`: the one-step conjugation
correction, consulting only the frozen `snapshot`. -/
def hybridCorrection (adjacency : List (List (Nat × BondId)))
    (snapshot : List Hybridization) (atoms1 : List PerceivedAtom) :
    List PerceivedAtom :=
  (enumIdx atoms1).map
    (fun pr =>
      let a := pr.2
      if a.hybridization == .SP3 && decide (0 < a.lone_pairs) &&
          (adjacency.getD pr.1 []).any
            (fun entry =>
              let s := snapshot.getD entry.1 .Unknown
              s == .SP || s == .SP2)
      then { a with hybridization := .SP2 }
      else a)

/-- `perceive_hybridization`. -/
def perceive_hybridization (p : ChemicalPerception) : ChemicalPerception :=
  let atoms1 := initialHybridPass p.atoms
  let snapshot := atoms1.map (fun a => a.hybridization)
  { p with atoms := hybridCorrection p.adjacency snapshot atoms1 }

/-- `state::perceive`. -/
def state_perceive (p : ChemicalPerception) : ChemicalPerception :=
  perceive_hybridization (compute_valence p)

/-! ### CandidateMarker (`src/resonance/candidate.rs`) -/

/-- `ConjugationRole` bit values. -/
def ROLE_PI_CARRIER : Nat := 1
def ROLE_LONE_PAIR_DONOR : Nat := 2
def ROLE_CHARGE_MEDIATOR : Nat := 4
def ROLE_HYPERVALENT_BRIDGE : Nat := 8

/-- `ConjugationRole::contains` for single-bit role sets. -/
def roleContains (roles other : Nat) : Bool :=
  roles.land other == other

/-- `reset_conjugation_state`. -/
def reset_conjugation_state (p : ChemicalPerception) : ChemicalPerception :=
  let as1 := p.atoms.map
    (fun a => { a with is_conjugation_candidate := false, conjugation_roles := 0 })
  { p with atoms := as1 }

/-- `is_hypervalent_bridge`. -/
def is_hypervalent_bridge (p : ChemicalPerception) (atom_idx : Nat) : Bool :=
  let a := atomGet p atom_idx
  if !(a.element = 15 ∨ a.element = 16 ∨ a.element = 17 ∨
       a.element = 35 ∨ a.element = 53 : Bool) then false
  else if a.total_valence ≤ 4 then false
  else
    let scan := (adjGet p atom_idx).foldl
      (fun (st : Bool × Bool) entry =>
        let bond_idx := (mapLookup p.bond_id_to_index entry.2).getD 0
        let bond := bondGet p bond_idx
        let effective_order := bond.kekule_order.getD bond.order
        if effective_order == .Double || effective_order == .Triple then
          if is_common_conjugation_element (atomGet p entry.1).element then
            (true, st.2)
          else st
        else
          let nb := atomGet p entry.1
          if decide (0 < nb.lone_pairs) || decide (nb.formal_charge < 0) ||
              is_common_conjugation_element nb.element then
            (st.1, true)
          else st)
      (false, false)
    scan.1 && scan.2

/-- `mark_hypervalent_bridges`. -/
def mark_hypervalent_bridges (p : ChemicalPerception) : ChemicalPerception :=
  (List.range p.atoms.length).foldl
    (fun p atom_idx =>
      if is_hypervalent_bridge p atom_idx then
        let as1 := updateNth p.atoms atom_idx
          (fun a => { a with conjugation_roles :=
                        a.conjugation_roles ||| ROLE_HYPERVALENT_BRIDGE })
        { p with atoms := as1 }
      else p)
    p

/-- `should_skip_intrinsic_pi`. -/
def should_skip_intrinsic_pi (p : ChemicalPerception) (atom_idx : Nat) : Bool :=
  let a := atomGet p atom_idx
  if a.element = elemO ∧ a.formal_charge = 0 ∧ 1 < a.total_degree then
    (adjGet p atom_idx).any
      (fun entry =>
        roleContains (atomGet p entry.1).conjugation_roles
          ROLE_HYPERVALENT_BRIDGE)
  else false

/-- `mark_intrinsic_pi_carriers`. -/
def mark_intrinsic_pi_carriers (p : ChemicalPerception) : ChemicalPerception :=
  (List.range p.atoms.length).foldl
    (fun p atom_idx =>
      if should_skip_intrinsic_pi p atom_idx then p
      else
        let a := atomGet p atom_idx
        if a.is_aromatic || a.hybridization == .SP || a.hybridization == .SP2
        then
          let as1 := updateNth p.atoms atom_idx
            (fun a => { a with conjugation_roles :=
                          a.conjugation_roles ||| ROLE_PI_CARRIER })
          { p with atoms := as1 }
        else p)
    p

/-- The neighbour scan of `promote_lone_pair_donors`, with early exit on
the first promoting neighbour (`break`). -/
def lonePairPromote (p : ChemicalPerception) (a : PerceivedAtom) :
    List (Nat × BondId) → Bool
  | [] => false
  | entry :: rest =>
    let nb := atomGet p entry.1
    if nb.conjugation_roles == 0 then lonePairPromote p a rest
    else if roleContains nb.conjugation_roles ROLE_HYPERVALENT_BRIDGE then
      if a.formal_charge < 0 then true else lonePairPromote p a rest
    else true

/-- `promote_lone_pair_donors`. -/
def promote_lone_pair_donors (p : ChemicalPerception) : ChemicalPerception :=
  (List.range p.atoms.length).foldl
    (fun p atom_idx =>
      let a := atomGet p atom_idx
      if a.lone_pairs = 0 then p
      else if !lonePairPromote p a (adjGet p atom_idx) then p
      else if a.element = elemO ∧ a.formal_charge = 0 ∧ 1 < a.total_degree
      then p
      else
        let as1 := updateNth p.atoms atom_idx
          (fun a => { a with conjugation_roles :=
                        a.conjugation_roles ||| ROLE_LONE_PAIR_DONOR })
        { p with atoms := as1 })
    p

/-- `promote_charged_carbons`. -/
def promote_charged_carbons (p : ChemicalPerception) : ChemicalPerception :=
  let as1 := p.atoms.map
    (fun a =>
      if a.element ≠ elemC then a
      else if (a.formal_charge = 1 ∧ a.total_degree = 3) ∨
          a.formal_charge = -1 then
        { a with conjugation_roles := a.conjugation_roles ||| ROLE_CHARGE_MEDIATOR }
      else a)
  { p with atoms := as1 }

/-- `finalize_candidate_flags`. -/
def finalize_candidate_flags (p : ChemicalPerception) : ChemicalPerception :=
  let as1 := p.atoms.map
    (fun a => { a with is_conjugation_candidate := a.conjugation_roles ≠ 0 })
  { p with atoms := as1 }

/-- `candidate::determine`. -/
def candidate_determine (p : ChemicalPerception) : ChemicalPerception :=
  finalize_candidate_flags
    (promote_charged_carbons
      (promote_lone_pair_donors
        (mark_intrinsic_pi_carriers
          (mark_hypervalent_bridges
            (reset_conjugation_state p)))))

/-! ### ResonanceGrouper (`src/resonance/system.rs`, `src/resonance/find.rs`) -/

/-- `ResonanceSystem` from `src/resonance/system.rs`. -/
structure ResonanceSystem where
  atoms : List AtomId
  bonds : List BondId
deriving DecidableEq, Repr, Inhabited

/-- `ResonanceSystem::new`: sort and de-duplicate both id lists. -/
def ResonanceSystem.new (atoms bonds : List Nat) : ResonanceSystem :=
  { atoms := sortDedup atoms, bonds := sortDedup bonds }

/-- Expansion loop of `find_and_expand_conjugated_bonds`; the state is
the BFS frontier and the conjugated set in insertion order. -/
def expandLoop (p : ChemicalPerception) :
    Nat → List Nat → List Nat → List Nat
  | 0, _, conjugated => conjugated
  | fuel + 1, frontier, conjugated =>
    match frontier with
    | [] => conjugated
    | bond_idx :: rest =>
      let bond := bondGet p bond_idx
      let step := [bond.start_atom_id, bond.end_atom_id].foldl
        (fun (st : List Nat × List Nat) atom_id =>
          let atom_idx := (mapLookup p.atom_id_to_index atom_id).getD 0
          let atom := atomGet p atom_idx
          if !atom.is_conjugation_candidate then st
          else
            (adjGet p atom_idx).foldl
              (fun (st : List Nat × List Nat) entry =>
                let nb_idx := (mapLookup p.bond_id_to_index entry.2).getD 0
                if st.2.contains nb_idx then st
                else
                  let nb := bondGet p nb_idx
                  let other_id := nb.other_end atom.id
                  let other_idx := (mapLookup p.atom_id_to_index other_id).getD 0
                  if (atomGet p other_idx).is_conjugation_candidate then
                    (st.1 ++ [nb_idx], st.2 ++ [nb_idx])
                  else st)
              st)
        (rest, conjugated)
      expandLoop p fuel step.1 step.2

/-- `find_and_expand_conjugated_bonds`: seed from aromatic and effective
Double/Triple bonds, then expand through candidate atoms. -/
def find_and_expand_conjugated_bonds (p : ChemicalPerception) : List Nat :=
  let seeds := (enumIdx p.bonds).foldl
    (fun (st : List Nat × List Nat) pr =>
      let bond := pr.2
      let eff := bond.kekule_order.getD bond.order
      if bond.is_aromatic || eff == .Double || eff == .Triple then
        if st.2.contains pr.1 then st
        else (st.1 ++ [pr.1], st.2 ++ [pr.1])
      else st)
    ([], [])
  expandLoop p (p.bonds.length + p.bond_id_to_index.length + 1) seeds.1 seeds.2

/-- BFS loop of `group_systems`, collecting one connected component of
the conjugated bond set; one fuel unit per pop. -/
def groupBFS (p : ChemicalPerception) (conjugated : List Nat) :
    Nat → List Nat → List Bool → List Nat → List Nat →
    List Nat × List Nat × List Bool
  | 0, _, visited, bondIds, atomIds => (bondIds, atomIds, visited)
  | fuel + 1, queue, visited, bondIds, atomIds =>
    match queue with
    | [] => (bondIds, atomIds, visited)
    | bond_idx :: rest =>
      let bond := bondGet p bond_idx
      let bondIds1 := bondIds ++ [bond.id]
      let atomIds1 := atomIds ++ [bond.start_atom_id, bond.end_atom_id]
      let step := [bond.start_atom_id, bond.end_atom_id].foldl
        (fun (st : List Nat × List Bool) atom_id =>
          let atom_idx := (mapLookup p.atom_id_to_index atom_id).getD 0
          (adjGet p atom_idx).foldl
            (fun (st : List Nat × List Bool) entry =>
              let nb_idx := (mapLookup p.bond_id_to_index entry.2).getD 0
              if conjugated.contains nb_idx && !(st.2.getD nb_idx false) then
                (st.1 ++ [nb_idx], st.2.set nb_idx true)
              else st)
            st)
        (rest, visited)
      groupBFS p conjugated fuel step.1 step.2 bondIds1 atomIds1

/-- Lexicographic comparison of bond-id tuples
(Rust `Vec::cmp`, as used by `systems.sort_by`). -/
def lexLe : List Nat → List Nat → Bool
  | [], _ => true
  | _ :: _, [] => false
  | a :: as1, b :: bs1 =>
    if a < b then true else if b < a then false else lexLe as1 bs1

/-- `group_systems`: connected components of the conjugated bond set,
then the deterministic lexicographic sort. -/
def group_systems (p : ChemicalPerception) (conjugated : List Nat) :
    List ResonanceSystem :=
  let res := conjugated.foldl
    (fun (st : List ResonanceSystem × List Bool) start_idx =>
      if st.2.getD start_idx false then st
      else
        let r := groupBFS p conjugated
          (p.bonds.length + p.bond_id_to_index.length + 1)
          [start_idx] (st.2.set start_idx true) [] []
        if r.1.isEmpty then st
        else (st.1 ++ [ResonanceSystem.new r.2.1 r.1], r.2.2))
    ([], List.replicate p.bonds.length false)
  sortBy (fun a b => lexLe a.bonds b.bonds) res.1

/-- `find_systems`. -/
def find_systems (p : ChemicalPerception) : List ResonanceSystem :=
  if p.bonds.isEmpty then []
  else group_systems p (find_and_expand_conjugated_bonds p)

/-! ### The assembled pipeline (`ChemicalPerception::from_graph`,
`find_resonance_systems`) -/

/-- `ChemicalPerception::from_graph`: GraphBuilder, RingFinder,
AromaticityPerceiver, Kekulizer, StatePerceiver, CandidateMarker. -/
def from_graph (g : InputGraph) : Except PerceptionError ChemicalPerception :=
  match buildPerception g with
  | .error e => .error e
  | .ok p0 =>
    let ri := find_sssr p0
    let p1 := markRings p0 ri
    let p2 := aromaticity_perceive p1
    match kekulize p2 with
    | .error e => .error e
    | .ok p3 => .ok (candidate_determine (state_perceive p3))

/-- `find_resonance_systems` from `src/lib.rs`. -/
def find_resonance_systems (g : InputGraph) :
    Except PerceptionError (List ResonanceSystem) :=
  match from_graph g with
  | .error e => .error e
  | .ok p => .ok (find_systems p)

/-- Whether an `Except` value is `ok`. -/
def exceptIsOk {ε α : Type} : Except ε α → Bool
  | .ok _ => true
  | .error _ => false

/-! ## General lemmas about the list helpers -/

@[simp] theorem updateNth_nil {α : Type} (i : Nat) (f : α → α) :
    updateNth ([] : List α) i f = [] := rfl

@[simp] theorem updateNth_cons_zero {α : Type} (x : α) (xs : List α) (f : α → α) :
    updateNth (x :: xs) 0 f = f x :: xs := rfl

@[simp] theorem updateNth_cons_succ {α : Type} (x : α) (xs : List α) (i : Nat)
    (f : α → α) : updateNth (x :: xs) (i + 1) f = x :: updateNth xs i f := by
  unfold updateNth
  simp only [List.get?_cons_succ, List.get?_eq_getElem?]
  cases h : xs[i]? <;> simp [h]

theorem updateNth_length {α : Type} (l : List α) (i : Nat) (f : α → α) :
    (updateNth l i f).length = l.length := by
  unfold updateNth
  cases h : l.get? i <;> simp

theorem getD_updateNth_ne {α : Type} :
    ∀ (l : List α) (j i : Nat) (f : α → α) (d : α), j ≠ i →
      (updateNth l j f).getD i d = l.getD i d
  | [], _, _, _, _, _ => by simp
  | _ :: _, 0, 0, _, _, h => absurd rfl h
  | _ :: _, 0, _ + 1, _, _, _ => by simp
  | _ :: _, _ + 1, 0, _, _, _ => by simp
  | x :: xs, j + 1, i + 1, f, d, h => by
    simp only [updateNth_cons_succ, List.getD_cons_succ]
    exact getD_updateNth_ne xs j i f d (by omega)

theorem getD_updateNth_self {α : Type} :
    ∀ (l : List α) (i : Nat) (f : α → α) (d : α), i < l.length →
      (updateNth l i f).getD i d = f (l.getD i d)
  | [], i, _, _, h => absurd h (by simp)
  | _ :: _, 0, _, _, _ => by simp
  | x :: xs, i + 1, f, d, h => by
    simp only [updateNth_cons_succ, List.getD_cons_succ]
    exact getD_updateNth_self xs i f d (by simpa using h)

theorem getD_map_of_lt {α β : Type} (f : α → β) :
    ∀ (l : List α) (i : Nat) (d : β) (d2 : α), i < l.length →
      (l.map f).getD i d = f (l.getD i d2)
  | [], i, _, _, h => absurd h (by simp)
  | _ :: _, 0, _, _, _ => by simp
  | x :: xs, i + 1, d, d2, h => by
    simp only [List.map_cons, List.getD_cons_succ]
    exact getD_map_of_lt f xs i d d2 (by simpa using h)

@[simp] theorem enumFrom_length {α : Type} :
    ∀ (n : Nat) (l : List α), (enumFrom n l).length = l.length
  | _, [] => rfl
  | n, _ :: xs => by simp [enumFrom, enumFrom_length (n + 1) xs]

theorem getD_enumFrom_map {α β : Type} (g : Nat × α → β) :
    ∀ (n : Nat) (l : List α) (i : Nat) (d : β) (d2 : α), i < l.length →
      ((enumFrom n l).map g).getD i d = g (n + i, l.getD i d2)
  | _, [], i, _, _, h => absurd h (by simp)
  | n, x :: xs, 0, d, d2, _ => by simp [enumFrom]
  | n, x :: xs, i + 1, d, d2, h => by
    simp only [enumFrom, List.map_cons, List.getD_cons_succ]
    have := getD_enumFrom_map g (n + 1) xs i d d2 (by simpa using h)
    rw [this]
    have hn : n + 1 + i = n + (i + 1) := by omega
    rw [hn]

theorem getD_enumIdx_map {α β : Type} (g : Nat × α → β) (l : List α) (i : Nat)
    (d : β) (d2 : α) (h : i < l.length) :
    ((enumIdx l).map g).getD i d = g (i, l.getD i d2) := by
  have := getD_enumFrom_map g 0 l i d d2 h
  simpa [enumIdx] using this

theorem mapLookup_mem {m : List (Nat × Nat)} {k v : Nat}
    (h : mapLookup m k = some v) : (k, v) ∈ m := by
  induction m using List.reverseRecOn with
  | nil => simp [mapLookup] at h
  | append_singleton xs x ih =>
    rw [mapLookup, List.foldl_append] at h
    simp only [List.foldl_cons, List.foldl_nil] at h
    by_cases hx : x.1 = k
    · simp only [hx, if_pos rfl] at h
      cases h
      simp [List.mem_append, ← hx]
    · rw [if_neg hx] at h
      exact List.mem_append_left _ (ih (by rwa [mapLookup]))

theorem foldl_add_mod {α : Type} (M : Nat) (f : α → Nat) :
    ∀ (l : List α) (a : Nat),
      l.foldl (fun acc x => (acc + f x) % M) (a % M) = (a + (l.map f).sum) % M
  | [], a => by simp
  | x :: xs, a => by
    simp only [List.foldl_cons, List.map_cons, List.sum_cons]
    rw [Nat.mod_add_mod]
    rw [foldl_add_mod M f xs (a + f x)]
    congr 1
    omega

/-! ## Claim C1: the fused-system Hückel test -/

/-- The exact (unwrapped) total of per-atom π-electron contributions of
a system, the quantity the specification calls `T`. -/
def systemPiTotal (p : ChemicalPerception) (atomsIdx bondsIdx : List Nat) : Nat :=
  (atomsIdx.map (fun i => pi_electrons_for_atom p i bondsIdx)).sum

theorem systemPiCountU32_eq (p : ChemicalPerception) (atomsIdx bondsIdx : List Nat) :
    systemPiCountU32 p atomsIdx bondsIdx = systemPiTotal p atomsIdx bondsIdx % u32Mod := by
  unfold systemPiCountU32 systemPiTotal
  have := foldl_add_mod u32Mod (fun i => pi_electrons_for_atom p i bondsIdx) atomsIdx 0
  simpa using this

theorem huckel_u32_iff (T : Nat) :
    ((decide (0 < T % u32Mod) &&
      decide ((T % u32Mod + (u32Mod - 2)) % u32Mod % 4 = 0)) = true) ↔
    (0 < T ∧ T % 4 = 2) := by
  simp only [Bool.and_eq_true, decide_eq_true_eq]
  unfold u32Mod
  omega

/-- C1. For every fused ring system whose atoms all pass the
degree-and-element screen, `is_system_aromatic` returns `true` iff the
total `T` of per-atom π-electron contributions satisfies `T > 0` and
`T ≡ 2 (mod 4)`.  (The wrapping `u32` subtraction preserves residues
modulo 4, so the equivalence needs no extra size hypothesis.) -/
theorem is_system_aromatic_iff_huckel (p : ChemicalPerception)
    (sys : List Nat)
    (hscreen : (systemAtomIndices p sys).all
      (fun i => is_potential_sp2_hybrid p i) = true) :
    (is_system_aromatic p sys = true ↔
      0 < systemPiTotal p (systemAtomIndices p sys) (systemBondIndices p sys) ∧
      systemPiTotal p (systemAtomIndices p sys) (systemBondIndices p sys) % 4 = 2) := by
  unfold is_system_aromatic
  rw [if_pos hscreen, systemPiCountU32_eq]
  exact huckel_u32_iff _

/-- A hand-built benzene-ring perception used as a concrete input for
witnesses: six ring carbons, bonds 0-5 alternating Double/Single. -/
def benzRing : ChemicalPerception :=
  let mkAtom := fun (i : Nat) =>
    { id := i, element := 6, formal_charge := 0, total_degree := 2
      total_valence := 0, is_in_ring := true, is_aromatic := false
      hybridization := .Unknown, is_conjugation_candidate := false
      lone_pairs := 0, conjugation_roles := 0 : PerceivedAtom }
  let mkB := fun (i : Nat) (o : BondOrder) =>
    PerceivedBond.mk0 i o i ((i + 1) % 6)
  { atoms := [mkAtom 0, mkAtom 1, mkAtom 2, mkAtom 3, mkAtom 4, mkAtom 5]
    bonds := [mkB 0 .Double, mkB 1 .Single, mkB 2 .Double,
              mkB 3 .Single, mkB 4 .Double, mkB 5 .Single]
    adjacency := [[(1, 0), (5, 5)], [(0, 0), (2, 1)], [(1, 1), (3, 2)],
                  [(2, 2), (4, 3)], [(3, 3), (5, 4)], [(4, 4), (0, 5)]]
    atom_id_to_index := [(0, 0), (1, 1), (2, 2), (3, 3), (4, 4), (5, 5)]
    bond_id_to_index := [(0, 0), (1, 1), (2, 2), (3, 3), (4, 4), (5, 5)]
    ring_info := { rings := [{ atom_ids := [0, 1, 2, 3, 4, 5]
                               bond_ids := [0, 1, 2, 3, 4, 5] }] } }

/-- Witness for C1 at the benzene ring: the screen passes, `T = 6`, and
the system is judged aromatic. -/
theorem is_system_aromatic_iff_huckel_witness :
    is_system_aromatic benzRing [0] = true ∧
    systemPiTotal benzRing (systemAtomIndices benzRing [0])
      (systemBondIndices benzRing [0]) = 6 := by
  refine ⟨?_, by decide⟩
  exact (is_system_aromatic_iff_huckel benzRing [0] (by decide)).mpr (by decide)

/-! ## Claims C3 and C7: ring count versus the cyclomatic number -/

theorem selectLoop_length_le (bmap : List (Nat × Nat)) :
    ∀ (cands : List Ring) (basis : List (Nat × Nat)) (sel : List Ring)
      (target : Nat), sel.length < target →
      (selectLoop bmap cands basis sel target).length ≤ target
  | [], _, sel, target, h => by
    unfold selectLoop
    omega
  | r :: rest, basis, sel, target, h => by
    unfold selectLoop
    by_cases h1 : reduceVec basis (bitvecFromBondIds r.bond_ids bmap) ≠ 0
    · rw [if_pos h1]
      by_cases h2 : (sel ++ [r]).length = target
      · rw [if_pos h2]
        omega
      · rw [if_neg h2]
        refine selectLoop_length_le bmap rest _ _ target ?_
        simp only [List.length_append, List.length_singleton] at h2 ⊢
        omega
    · rw [if_neg h1]
      exact selectLoop_length_le bmap rest basis sel target h

/-- C3 (amended): `find_sssr` never returns more rings than the
cyclomatic number; in particular the ring set is empty whenever
`|E| - |V| + C ≤ 0` (then `toNat` is `0`). -/
theorem find_sssr_ring_count_le (p : ChemicalPerception) :
    (find_sssr p).rings.length ≤ (cyclomaticOf p).toNat := by
  unfold find_sssr
  by_cases h : cyclomaticOf p ≤ 0
  · rw [if_pos h]
    simp
  · rw [if_neg h]
    refine selectLoop_length_le _ _ _ _ _ ?_
    simp only [List.length_nil]
    omega

/-- A carbon atom input. -/
def mkAtomC (id : Nat) : InputAtom := { id := id, element := 6, formal_charge := 0 }

/-- A bond input. -/
def mkBondI (id s e : Nat) (o : BondOrder) : InputBond :=
  { id := id, order := o, start_atom_id := s, end_atom_id := e }

/-- A simple 6-atom, 9-bond graph (all Single bonds between distinct
carbon pairs) on which candidate enumeration spans only 4 of the 5
cyclomatic dimensions. -/
def gcex : InputGraph :=
  { atoms := [mkAtomC 0, mkAtomC 1, mkAtomC 2, mkAtomC 3, mkAtomC 4, mkAtomC 5]
    bonds := [mkBondI 0 0 1 .Single, mkBondI 1 3 4 .Single, mkBondI 2 1 4 .Single,
              mkBondI 3 0 4 .Single, mkBondI 4 4 5 .Single, mkBondI 5 1 5 .Single,
              mkBondI 6 3 5 .Single, mkBondI 7 1 3 .Single, mkBondI 8 0 5 .Single] }

/-- The perception built by GraphBuilder, defaulting on rejection. -/
def perceptionOfD (g : InputGraph) : ChemicalPerception :=
  match buildPerception g with
  | .ok p => p
  | .error _ => default

/-- Counterexample to C3 as stated: `gcex` is accepted by GraphBuilder,
its cyclomatic number is `5`, yet `find_sssr` returns only `4` rings. -/
theorem find_sssr_count_counterexample :
    exceptIsOk (buildPerception gcex) = true ∧
    cyclomaticOf (perceptionOfD gcex) = 5 ∧
    (find_sssr (perceptionOfD gcex)).rings.length = 4 := by
  refine ⟨by decide, by decide, by decide⟩

/-- C7: on `gcex` the candidate enumeration yields fewer independent
rings than the cyclomatic number, and the pipeline still succeeds:
`find_sssr` silently returns the short ring set and `from_graph`
returns `Ok` (the `RingPerceptionFailed` variant is never produced —
`find_sssr`'s result type has no error channel at all). -/
theorem ring_perception_shortfall_is_silent :
    (find_sssr (perceptionOfD gcex)).rings.length <
      (cyclomaticOf (perceptionOfD gcex)).toNat ∧
    exceptIsOk (from_graph gcex) = true := by
  refine ⟨by decide, by decide⟩

/-! ## Claim C4: total valence after the StatePerceiver -/

/-- The contribution of one bond to the valence of the atom at internal
index `i`, as resolved through the id map (a self-loop contributes on
both endpoint branches, exactly as the source adds twice). -/
def bondContributionAt (amap : List (Nat × Nat)) (i : Nat)
    (b : PerceivedBond) : Nat :=
  (if mapLookup amap b.start_atom_id = some i then effectiveMultiplicity b else 0) +
  (if mapLookup amap b.end_atom_id = some i then effectiveMultiplicity b else 0)

/-- The specification's per-atom quantity: the sum over all bonds of the
effective multiplicity, counted once per endpoint equal to `aid`. -/
def incidentMultiplicitySum (p : ChemicalPerception) (aid : AtomId) : Nat :=
  (p.bonds.map (fun b =>
    (if b.start_atom_id = aid then effectiveMultiplicity b else 0) +
    (if b.end_atom_id = aid then effectiveMultiplicity b else 0))).sum

theorem applyValence_length (acc : List PerceivedAtom) (j : Option Nat)
    (m : Nat) : (applyValence acc j m).length = acc.length := by
  cases j <;> simp [applyValence, updateNth_length]

theorem applyValence_getD (acc : List PerceivedAtom) (j : Option Nat) (m i : Nat)
    (hi : i < acc.length) (hv : (acc.getD i default).total_valence <= 255) :
    ((applyValence acc j m).getD i default).total_valence =
      min 255 ((acc.getD i default).total_valence +
        (if j = some i then m else 0)) := by
  cases j with
  | none =>
    simp only [applyValence, if_neg (by simp : ¬ (none : Option Nat) = some i)]
    omega
  | some k =>
    by_cases hk : k = i
    · subst hk
      simp only [applyValence, if_pos rfl]
      rw [getD_updateNth_self acc k _ _ hi]
      simp [satAdd255]
    · simp only [applyValence,
        if_neg (fun h => hk (Option.some.inj h))]
      rw [getD_updateNth_ne acc k i _ _ hk]
      omega

theorem valenceStep_length (amap : List (Nat × Nat)) (acc : List PerceivedAtom)
    (b : PerceivedBond) : (valenceStep amap acc b).length = acc.length := by
  unfold valenceStep
  rw [applyValence_length, applyValence_length]

theorem valenceStep_getD (amap : List (Nat × Nat)) (acc : List PerceivedAtom)
    (b : PerceivedBond) (i : Nat) (hi : i < acc.length)
    (hv : (acc.getD i default).total_valence <= 255) :
    ((valenceStep amap acc b).getD i default).total_valence =
      min 255 ((acc.getD i default).total_valence + bondContributionAt amap i b) := by
  unfold valenceStep bondContributionAt
  rw [applyValence_getD _ _ _ _
    (by rw [applyValence_length]; exact hi)
    (by rw [applyValence_getD acc _ _ _ hi hv]; omega)]
  rw [applyValence_getD acc _ _ _ hi hv]
  omega

theorem valence_foldl (amap : List (Nat × Nat)) :
    ∀ (bonds : List PerceivedBond) (acc : List PerceivedAtom) (i : Nat),
      i < acc.length → (acc.getD i default).total_valence <= 255 →
      ((bonds.foldl (valenceStep amap) acc).getD i default).total_valence =
        min 255 ((acc.getD i default).total_valence +
          (bonds.map (bondContributionAt amap i)).sum)
  | [], acc, i, _, hv => by
    simp only [List.foldl_nil, List.map_nil, List.sum_nil, Nat.add_zero]
    omega
  | b :: bs, acc, i, hi, hv => by
    simp only [List.foldl_cons, List.map_cons, List.sum_cons]
    rw [valence_foldl amap bs (valenceStep amap acc b) i
      (by rw [valenceStep_length]; exact hi)
      (by rw [valenceStep_getD amap acc b i hi hv]; omega)]
    rw [valenceStep_getD amap acc b i hi hv]
    omega


/-- Decidable consistency of the atom id map: every atom's id looks up
to its own index, and every map entry points at an atom carrying its
key as id. -/
def atomMapConsistent (p : ChemicalPerception) : Bool :=
  ((List.range p.atoms.length).all fun i =>
    mapLookup p.atom_id_to_index ((p.atoms.getD i default).id) == some i) &&
  (p.atom_id_to_index.all fun pr => ((p.atoms.getD pr.2 default).id == pr.1))

theorem mapLookup_iff_id {p : ChemicalPerception}
    (hmap : atomMapConsistent p = true) {i : Nat} (hi : i < p.atoms.length)
    (aid : Nat) :
    mapLookup p.atom_id_to_index aid = some i ↔
      aid = (p.atoms.getD i default).id := by
  unfold atomMapConsistent at hmap
  rw [Bool.and_eq_true] at hmap
  obtain ⟨h1, h2⟩ := hmap
  rw [List.all_eq_true] at h1 h2
  constructor
  · intro h
    have hm := mapLookup_mem h
    have := h2 _ hm
    rw [beq_iff_eq] at this
    exact this.symm
  · intro h
    subst h
    have := h1 i (List.mem_range.mpr hi)
    rwa [beq_iff_eq] at this

theorem getD_enumIdx_map_d {α β : Type} [Inhabited α] [Inhabited β]
    (g : Nat × α → β) (l : List α) (i : Nat) (h : i < l.length) :
    ((enumIdx l).map g).getD i default = g (i, l.getD i default) :=
  getD_enumIdx_map g l i default default h

theorem compute_valence_atoms_length (p : ChemicalPerception) :
    (compute_valence p).atoms.length = p.atoms.length := by
  unfold compute_valence
  simp only
  have h : ∀ (bs : List PerceivedBond) (acc : List PerceivedAtom),
      (List.foldl (valenceStep p.atom_id_to_index) acc bs).length = acc.length := by
    intro bs
    induction bs with
    | nil => intro acc; rfl
    | cons b bs ih =>
      intro acc
      rw [List.foldl_cons, ih, valenceStep_length]
  rw [h]
  simp

theorem compute_valence_spec (p : ChemicalPerception) (i : Nat)
    (hi : i < p.atoms.length) (hmap : atomMapConsistent p = true) :
    ((compute_valence p).atoms.getD i default).total_valence =
      min 255 (incidentMultiplicitySum p ((p.atoms.getD i default).id)) := by
  unfold compute_valence
  simp only
  have hlen0 : (p.atoms.map
      (fun a : PerceivedAtom => { a with total_valence := 0 })).length
      = p.atoms.length := by
    simp
  have h0 : ((p.atoms.map
      (fun a : PerceivedAtom => { a with total_valence := 0 })).getD i
      default).total_valence = 0 := by
    rw [getD_map_of_lt _ p.atoms i default default hi]
  rw [valence_foldl p.atom_id_to_index p.bonds _ i (by rw [hlen0]; exact hi)
    (by rw [h0]; omega), h0]
  unfold incidentMultiplicitySum
  rw [Nat.zero_add]
  congr 1
  refine congrArg List.sum (List.map_congr_left (fun b _ => ?_))
  unfold bondContributionAt
  have h1 := mapLookup_iff_id hmap hi b.start_atom_id
  have h2 := mapLookup_iff_id hmap hi b.end_atom_id
  simp only [h1, h2]

theorem initialHybridPass_length (atoms : List PerceivedAtom) :
    (initialHybridPass atoms).length = atoms.length := by
  unfold initialHybridPass
  simp [enumIdx]

/-- The per-atom form of the first hybridization pass. -/
def initialHybridOf (a : PerceivedAtom) : PerceivedAtom :=
  let a1 := { a with lone_pairs := estimate_lone_pairs a }
  if a1.is_aromatic then { a1 with hybridization := .SP2 }
  else
    let h2 := stericHybrid (satAdd255 a1.total_degree a1.lone_pairs)
    { a1 with hybridization := h2 }

theorem initialHybridPass_getD (atoms : List PerceivedAtom) (i : Nat)
    (hi : i < atoms.length) :
    (initialHybridPass atoms).getD i default =
      initialHybridOf (atoms.getD i default) := by
  unfold initialHybridPass
  rw [getD_enumIdx_map_d _ atoms i hi]
  simp only
  rw [getD_map_of_lt estimate_lone_pairs atoms i 0 default hi]
  unfold initialHybridOf
  rfl

theorem hybridCorrection_length (adj : List (List (Nat × BondId)))
    (snap : List Hybridization) (atoms1 : List PerceivedAtom) :
    (hybridCorrection adj snap atoms1).length = atoms1.length := by
  unfold hybridCorrection
  simp [enumIdx]

/-- The correction condition of the second hybridization pass at
index `i`, in terms of the frozen snapshot. -/
def correctionCondition (adj : List (List (Nat × BondId)))
    (snap : List Hybridization) (a : PerceivedAtom) (i : Nat) : Bool :=
  a.hybridization == .SP3 && decide (0 < a.lone_pairs) &&
    (adj.getD i []).any
      (fun entry =>
        let s := snap.getD entry.1 .Unknown
        s == .SP || s == .SP2)

theorem hybridCorrection_getD (adj : List (List (Nat × BondId)))
    (snap : List Hybridization) (atoms1 : List PerceivedAtom) (i : Nat)
    (hi : i < atoms1.length) :
    (hybridCorrection adj snap atoms1).getD i default =
      (if correctionCondition adj snap (atoms1.getD i default) i then
        { atoms1.getD i default with hybridization := .SP2 }
      else atoms1.getD i default) := by
  unfold hybridCorrection correctionCondition
  rw [getD_enumIdx_map_d _ atoms1 i hi]

theorem perceive_hybridization_atoms (p : ChemicalPerception) :
    (perceive_hybridization p).atoms =
      hybridCorrection p.adjacency
        ((initialHybridPass p.atoms).map (fun a => a.hybridization))
        (initialHybridPass p.atoms) := rfl

theorem if_setHyb_total_valence (c : Prop) [Decidable c] (a : PerceivedAtom) :
    (if c then { a with hybridization := .SP2 } else a).total_valence =
      a.total_valence := by
  split <;> rfl

theorem initialHybridOf_total_valence (a : PerceivedAtom) :
    (initialHybridOf a).total_valence = a.total_valence := by
  unfold initialHybridOf
  by_cases h : a.is_aromatic = true <;> simp [h]

theorem state_preserves_total_valence (p : ChemicalPerception) (i : Nat)
    (hi : i < p.atoms.length) :
    ((perceive_hybridization p).atoms.getD i default).total_valence =
      (p.atoms.getD i default).total_valence := by
  rw [perceive_hybridization_atoms]
  rw [hybridCorrection_getD _ _ _ i (by rw [initialHybridPass_length]; exact hi)]
  rw [initialHybridPass_getD p.atoms i hi]
  rw [if_setHyb_total_valence]
  exact initialHybridOf_total_valence _

/-- C4. After the StatePerceiver, every atom's `total_valence` is the
sum over incident bonds of the multiplicity of the effective order
(kekulé order when present, input order otherwise), saturated at 255. -/
theorem state_perceive_total_valence (p : ChemicalPerception) (i : Nat)
    (hi : i < p.atoms.length) (hmap : atomMapConsistent p = true) :
    ((state_perceive p).atoms.getD i default).total_valence =
      min 255 (incidentMultiplicitySum p ((p.atoms.getD i default).id)) := by
  unfold state_perceive
  rw [state_preserves_total_valence (compute_valence p) i
    (by rw [compute_valence_atoms_length]; exact hi)]
  exact compute_valence_spec p i hi hmap

/-- Witness for C4 at the benzene ring at atom index 0: the saturated
incident sum is `2 + 1 = 3`, and the pipeline value agrees. -/
theorem state_perceive_total_valence_witness :
    0 < benzRing.atoms.length ∧ atomMapConsistent benzRing = true ∧
    ((state_perceive benzRing).atoms.getD 0 default).total_valence =
      min 255 (incidentMultiplicitySum benzRing
        ((benzRing.atoms.getD 0 default).id)) ∧
    ((state_perceive benzRing).atoms.getD 0 default).total_valence = 3 := by
  refine ⟨by decide, by decide, ?_, by decide⟩
  exact state_perceive_total_valence benzRing 0 (by decide) (by decide)

/-! ## Claim C8: the one-step conjugation correction -/

/-- C8. In the StatePerceiver's final pass, atom `i` ends with
hybridization `SP2` in place of its pre-correction assignment exactly
when that assignment was `SP3`, its lone-pair count is positive, and
some neighbour's hybridization *in the frozen snapshot taken before any
correction* is `SP` or `SP2`; every other atom keeps its pre-correction
assignment.  Because only the snapshot is consulted, atoms promoted in
the same pass cannot trigger further promotions. -/
theorem perceive_hybridization_correction (p : ChemicalPerception) (i : Nat)
    (hi : i < p.atoms.length) :
    ((perceive_hybridization p).atoms.getD i default).hybridization =
      (if ((initialHybridPass p.atoms).getD i default).hybridization = .SP3 ∧
          0 < ((initialHybridPass p.atoms).getD i default).lone_pairs ∧
          ((p.adjacency.getD i []).any
            (fun entry =>
              let s := ((initialHybridPass p.atoms).map
                (fun a => a.hybridization)).getD entry.1 .Unknown
              s == .SP || s == .SP2)) = true
       then .SP2
       else ((initialHybridPass p.atoms).getD i default).hybridization) := by
  rw [perceive_hybridization_atoms]
  rw [hybridCorrection_getD _ _ _ i (by rw [initialHybridPass_length]; exact hi)]
  have hiff : correctionCondition p.adjacency
      ((initialHybridPass p.atoms).map (fun a => a.hybridization))
      ((initialHybridPass p.atoms).getD i default) i = true ↔
      (((initialHybridPass p.atoms).getD i default).hybridization = .SP3 ∧
        0 < ((initialHybridPass p.atoms).getD i default).lone_pairs ∧
        ((p.adjacency.getD i []).any
          (fun entry =>
            let s := ((initialHybridPass p.atoms).map
              (fun a => a.hybridization)).getD entry.1 .Unknown
            s == .SP || s == .SP2)) = true) := by
    unfold correctionCondition
    simp [Bool.and_eq_true, and_assoc]
  by_cases hc : (((initialHybridPass p.atoms).getD i default).hybridization = .SP3 ∧
      0 < ((initialHybridPass p.atoms).getD i default).lone_pairs ∧
      ((p.adjacency.getD i []).any
        (fun entry =>
          let s := ((initialHybridPass p.atoms).map
            (fun a => a.hybridization)).getD entry.1 .Unknown
          s == .SP || s == .SP2)) = true)
  · rw [if_pos (hiff.mpr hc), if_pos hc]
  · rw [if_neg (fun h => hc (hiff.mp h)), if_neg hc]

/-- Witness for C8 at the benzene ring, atom 0 (not promoted: its
pre-correction assignment is not `SP3`). -/
theorem perceive_hybridization_correction_witness :
    0 < benzRing.atoms.length ∧
    ((perceive_hybridization benzRing).atoms.getD 0 default).hybridization =
      (if ((initialHybridPass benzRing.atoms).getD 0 default).hybridization = .SP3 ∧
          0 < ((initialHybridPass benzRing.atoms).getD 0 default).lone_pairs ∧
          ((benzRing.adjacency.getD 0 []).any
            (fun entry =>
              let s := ((initialHybridPass benzRing.atoms).map
                (fun a => a.hybridization)).getD entry.1 .Unknown
              s == .SP || s == .SP2)) = true
       then .SP2
       else ((initialHybridPass benzRing.atoms).getD 0 default).hybridization) :=
  ⟨by decide, perceive_hybridization_correction benzRing 0 (by decide)⟩

/-! ## Claim C6: self-loops and the duplicate-bond check -/

/-- Whether the list contains a pair already seen (continuing from the
accumulated `seen` list), mirroring the builder's `seen_bonds` check. -/
def hasDupFrom : List (Nat × Nat) → List (Nat × Nat) → Bool
  | [], _ => false
  | x :: xs, seen => if seen.contains x then true else hasDupFrom xs (seen ++ [x])

/-- Whether every bond endpoint id resolves in the atom index map. -/
def endpointsResolve (g : InputGraph) : Bool :=
  g.bonds.all (fun b =>
    (mapLookup (atomIndexMap g) b.start_atom_id).isSome &&
    (mapLookup (atomIndexMap g) b.end_atom_id).isSome)

/-- A graph whose single bond is a self-loop on its only atom. -/
def selfLoopSingle : InputGraph :=
  { atoms := [mkAtomC 0], bonds := [mkBondI 0 0 0 .Single] }

/-- Counterexample to C6 as stated: `selfLoopSingle` contains a
self-loop, yet `from_graph` and `find_resonance_systems` succeed — the
canonical-pair check only rejects the *second* occurrence of a pair, so
a single self-loop sails through. -/
theorem self_loop_accepted :
    (selfLoopSingle.bonds.any
      (fun b => b.start_atom_id == b.end_atom_id)) = true ∧
    exceptIsOk (from_graph selfLoopSingle) = true ∧
    exceptIsOk (find_resonance_systems selfLoopSingle) = true := by
  refine ⟨by decide, by decide, by decide⟩

theorem buildBonds_duplicate (amap : List (Nat × Nat)) :
    ∀ (bonds : List InputBond) (st : BuildState),
      (∀ b ∈ bonds, (mapLookup amap b.start_atom_id).isSome = true ∧
        (mapLookup amap b.end_atom_id).isSome = true) →
      hasDupFrom (bonds.map canonicalPair) st.seen_bonds = true →
      ∃ s e, buildBonds amap bonds st = .error (.DuplicateBond s e)
  | [], st, _, hdup => by simp [hasDupFrom] at hdup
  | b :: rest, st, hres, hdup => by
    rw [List.map_cons] at hdup
    unfold hasDupFrom at hdup
    by_cases hc : st.seen_bonds.contains (canonicalPair b) = true
    · refine ⟨b.start_atom_id, b.end_atom_id, ?_⟩
      simp only [buildBonds, buildBondStep]
      rw [if_pos hc]
    · rw [if_neg hc] at hdup
      obtain ⟨hs, he⟩ := hres b (List.mem_cons_self b rest)
      obtain ⟨js, hjs⟩ := Option.isSome_iff_exists.mp hs
      obtain ⟨je, hje⟩ := Option.isSome_iff_exists.mp he
      have hrest : ∀ b2 ∈ rest, (mapLookup amap b2.start_atom_id).isSome = true ∧
          (mapLookup amap b2.end_atom_id).isSome = true :=
        fun b2 hb2 => hres b2 (List.mem_cons_of_mem b hb2)
      simp only [buildBonds, buildBondStep]
      rw [if_neg hc, hjs, hje]
      exact buildBonds_duplicate amap rest _ hrest hdup

/-- C6 (amended): the builder rejects a bond with `DuplicateBond`
exactly on a *repeated* canonical endpoint pair.  In particular a graph
in which the same unordered pair — for instance the degenerate pair of
a second self-loop on the same atom — occurs twice is rejected, while a
single self-loop is not (see the counterexample). -/
theorem duplicate_canonical_pair_rejected (g : InputGraph)
    (hres : endpointsResolve g = true)
    (hdup : hasDupFrom (g.bonds.map canonicalPair) [] = true) :
    ∃ s e, from_graph g = .error (.DuplicateBond s e) := by
  unfold endpointsResolve at hres
  rw [List.all_eq_true] at hres
  have hres2 : ∀ b ∈ g.bonds, (mapLookup (atomIndexMap g) b.start_atom_id).isSome = true ∧
      (mapLookup (atomIndexMap g) b.end_atom_id).isSome = true := by
    intro b hb
    have := hres b hb
    rw [Bool.and_eq_true] at this
    exact this
  obtain ⟨s, e, hbb⟩ := buildBonds_duplicate (atomIndexMap g) g.bonds
    { seen_bonds := [], adjacency := List.replicate g.atoms.length []
      bonds := [], bond_id_to_index := [] } hres2 hdup
  refine ⟨s, e, ?_⟩
  simp only [from_graph, buildPerception, hbb]

/-- A graph with two self-loop bonds on the same atom. -/
def doubleLoopGraph : InputGraph :=
  { atoms := [mkAtomC 0], bonds := [mkBondI 0 0 0 .Single, mkBondI 1 0 0 .Single] }

/-- Witness for the amended C6: two self-loops on one atom form a
repeated degenerate pair and are rejected as `DuplicateBond`. -/
theorem duplicate_canonical_pair_rejected_witness :
    endpointsResolve doubleLoopGraph = true ∧
    hasDupFrom (doubleLoopGraph.bonds.map canonicalPair) [] = true ∧
    ∃ s e, from_graph doubleLoopGraph = .error (.DuplicateBond s e) :=
  ⟨by decide, by decide,
    duplicate_canonical_pair_rejected doubleLoopGraph (by decide) (by decide)⟩

/-! ## Claim C9: positive π counts and the `u32` subtraction -/

/-- Decidable closure property of a system: every system bond index
denotes a bond whose two endpoints resolve to *distinct* atom indices
(no self-loop), both of which belong to the system's atom set and carry
an adjacency entry for the bond, with the bond id resolving back to the
index.  `from_graph`-built perceptions satisfy this for every ring
system without self-loop bonds. -/
def systemBondsClosed (p : ChemicalPerception)
    (sysAtoms sysBonds : List Nat) : Bool :=
  sysBonds.all (fun bidx =>
    let b := bondGet p bidx
    let os := mapLookup p.atom_id_to_index b.start_atom_id
    let oe := mapLookup p.atom_id_to_index b.end_atom_id
    os.isSome && oe.isSome && decide (os ≠ oe) &&
    sysAtoms.contains (os.getD 0) && sysAtoms.contains (oe.getD 0) &&
    (adjGet p (os.getD 0)).any (fun entry => entry.2 == b.id) &&
    (adjGet p (oe.getD 0)).any (fun entry => entry.2 == b.id) &&
    (mapLookup p.bond_id_to_index b.id == some bidx))

theorem contains_mem {l : List Nat} {a : Nat} (h : l.contains a = true) :
    a ∈ l := by
  simpa using h

theorem single_le_map_sum {α : Type} (f : α → Nat) :
    ∀ (l : List α) (a : α), a ∈ l → f a ≤ (l.map f).sum
  | [], a, ha => absurd ha (by simp)
  | x :: xs, a, ha => by
    simp only [List.map_cons, List.sum_cons]
    rcases List.mem_cons.mp ha with h | h
    · subst h
      omega
    · have := single_le_map_sum f xs a h
      omega

theorem pair_le_map_sum {α : Type} [DecidableEq α] (f : α → Nat) :
    ∀ (l : List α) (a b : α), a ∈ l → b ∈ l → a ≠ b →
      f a + f b ≤ (l.map f).sum
  | [], a, _, ha, _, _ => absurd ha (by simp)
  | x :: xs, a, b, ha, hb, hab => by
    simp only [List.map_cons, List.sum_cons]
    rcases List.mem_cons.mp ha with h1 | h1
    · subst h1
      have hbx : b ∈ xs := by
        rcases List.mem_cons.mp hb with h2 | h2
        · exact absurd h2.symm hab
        · exact h2
      have := single_le_map_sum f xs b hbx
      omega
    · rcases List.mem_cons.mp hb with h2 | h2
      · subst h2
        have := single_le_map_sum f xs a h1
        omega
      · have := pair_le_map_sum f xs a b h1 h2 hab
        omega

theorem map_sum_pos_exists {α : Type} (f : α → Nat) :
    ∀ (l : List α), 0 < (l.map f).sum → ∃ a ∈ l, 0 < f a
  | [], h => absurd h (by simp)
  | x :: xs, h => by
    simp only [List.map_cons, List.sum_cons] at h
    by_cases hx : 0 < f x
    · exact ⟨x, List.mem_cons_self x xs, hx⟩
    · have : 0 < (xs.map f).sum := by omega
      obtain ⟨a, ha, hfa⟩ := map_sum_pos_exists f xs this
      exact ⟨a, List.mem_cons_of_mem x ha, hfa⟩

/-- An atom whose adjacency carries an entry for a Double/Triple bond
of the system contributes exactly one π electron. -/
theorem pi_eq_one_of_multiple (p : ChemicalPerception) (sysBonds : List Nat)
    (j : Nat) (bid bidx : Nat)
    (hmem : (adjGet p j).any (fun entry => entry.2 == bid) = true)
    (hlk : mapLookup p.bond_id_to_index bid = some bidx)
    (hin : sysBonds.contains bidx = true)
    (hord : (bondGet p bidx).order = .Double ∨ (bondGet p bidx).order = .Triple) :
    pi_electrons_for_atom p j sysBonds = 1 := by
  unfold pi_electrons_for_atom
  have hany : ((adjGet p j).any (fun entry =>
      match mapLookup p.bond_id_to_index entry.2 with
      | some bond_idx =>
        if sysBonds.contains bond_idx then
          let bond := bondGet p bond_idx
          bond.order == .Double || bond.order == .Triple
        else false
      | none => false)) = true := by
    rw [List.any_eq_true] at hmem ⊢
    obtain ⟨entry, hentry, hbeq⟩ := hmem
    refine ⟨entry, hentry, ?_⟩
    rw [beq_iff_eq] at hbeq
    rw [hbeq, hlk]
    simp only [hin, if_pos]
    rcases hord with h | h <;> simp [h]
  rw [if_pos hany]

/-- Every π-electron contribution is 0, 1, or 2. -/
theorem pi_electrons_le_two (p : ChemicalPerception) (sysBonds : List Nat)
    (j : Nat) : pi_electrons_for_atom p j sysBonds ≤ 2 := by
  simp only [pi_electrons_for_atom]
  repeat' split
  all_goals omega

/-- A contribution of exactly 1 can only come from the multiple-bond
branch. -/
theorem pi_eq_one_multiple (p : ChemicalPerception) (sysBonds : List Nat)
    (j : Nat) (h : pi_electrons_for_atom p j sysBonds = 1) :
    ((adjGet p j).any (fun entry =>
      match mapLookup p.bond_id_to_index entry.2 with
      | some bond_idx =>
        if sysBonds.contains bond_idx then
          let bond := bondGet p bond_idx
          bond.order == .Double || bond.order == .Triple
        else false
      | none => false)) = true := by
  by_contra hfalse
  simp only [pi_electrons_for_atom] at h
  rw [if_neg hfalse] at h
  revert h
  repeat' split
  all_goals omega

/-- The multiple-bond scan, when true, produces a Double or Triple
system bond index. -/
theorem multiple_scan_exists (p : ChemicalPerception) (sysBonds : List Nat)
    (j : Nat)
    (h : ((adjGet p j).any (fun entry =>
      match mapLookup p.bond_id_to_index entry.2 with
      | some bond_idx =>
        if sysBonds.contains bond_idx then
          let bond := bondGet p bond_idx
          bond.order == .Double || bond.order == .Triple
        else false
      | none => false)) = true) :
    ∃ bidx, sysBonds.contains bidx = true ∧
      ((bondGet p bidx).order = .Double ∨ (bondGet p bidx).order = .Triple) := by
  rw [List.any_eq_true] at h
  obtain ⟨entry, _, hcond⟩ := h
  split at hcond
  · rename_i bidx hlk
    split at hcond
    · rename_i hin
      rw [Bool.or_eq_true, beq_iff_eq, beq_iff_eq] at hcond
      exact ⟨bidx, hin, hcond⟩
    · exact absurd hcond (by simp)
  · exact absurd hcond (by simp)

/-- C9 (amended): when no system bond is a self-loop (each bond's two
endpoints are distinct atoms of the system, connected through the
adjacency), a positive π-electron total is at least 2, so the `u32`
computation `pi_electron_count - 2` cannot underflow. -/
theorem systemPiTotal_ge_two (p : ChemicalPerception)
    (sysAtoms sysBonds : List Nat)
    (hclosed : systemBondsClosed p sysAtoms sysBonds = true)
    (hpos : 0 < systemPiTotal p sysAtoms sysBonds) :
    2 ≤ systemPiTotal p sysAtoms sysBonds := by
  unfold systemPiTotal at hpos ⊢
  by_cases h2 : ∃ i ∈ sysAtoms, 2 ≤ pi_electrons_for_atom p i sysBonds
  · obtain ⟨i, hi, h2i⟩ := h2
    exact le_trans h2i
      (single_le_map_sum (fun i => pi_electrons_for_atom p i sysBonds)
        sysAtoms i hi)
  · push_neg at h2
    obtain ⟨i, hi, hpi⟩ := map_sum_pos_exists
      (fun i => pi_electrons_for_atom p i sysBonds) sysAtoms hpos
    have hone : pi_electrons_for_atom p i sysBonds = 1 := by
      have h2i := h2 i hi
      have hpi2 : 0 < pi_electrons_for_atom p i sysBonds := hpi
      omega
    obtain ⟨bidx, hin, hord⟩ := multiple_scan_exists p sysBonds i
      (pi_eq_one_multiple p sysBonds i hone)
    unfold systemBondsClosed at hclosed
    rw [List.all_eq_true] at hclosed
    have hb := hclosed bidx (contains_mem hin)
    simp only [Bool.and_eq_true, decide_eq_true_eq, beq_iff_eq,
      Option.isSome_iff_exists] at hb
    obtain ⟨⟨⟨⟨⟨⟨⟨⟨sIdx, hs⟩, eIdx, he⟩, hne⟩, hsc⟩, hec⟩, hadjs⟩, hadje⟩, hbid⟩ := hb
    rw [hs, he] at hne
    simp only [ne_eq, Option.some.injEq] at hne
    rw [hs] at hsc hadjs
    rw [he] at hec hadje
    simp only [Option.getD_some] at hsc hec hadjs hadje
    have hpis := pi_eq_one_of_multiple p sysBonds sIdx
      (bondGet p bidx).id bidx hadjs hbid hin hord
    have hpie := pi_eq_one_of_multiple p sysBonds eIdx
      (bondGet p bidx).id bidx hadje hbid hin hord
    have hpair : pi_electrons_for_atom p sIdx sysBonds +
        pi_electrons_for_atom p eIdx sysBonds ≤
        (List.map (fun i => pi_electrons_for_atom p i sysBonds) sysAtoms).sum :=
      pair_le_map_sum (fun i => pi_electrons_for_atom p i sysBonds) sysAtoms
        sIdx eIdx (contains_mem hsc) (contains_mem hec) hne
    rw [hpis, hpie] at hpair
    omega

/-- Witness for the amended C9 at the benzene ring: the closure check
holds, the π total is positive, and the bound applies. -/
theorem systemPiTotal_ge_two_witness :
    systemBondsClosed benzRing [0, 1, 2, 3, 4, 5] [0, 1, 2, 3, 4, 5] = true ∧
    0 < systemPiTotal benzRing [0, 1, 2, 3, 4, 5] [0, 1, 2, 3, 4, 5] ∧
    2 ≤ systemPiTotal benzRing [0, 1, 2, 3, 4, 5] [0, 1, 2, 3, 4, 5] :=
  ⟨by decide, by decide,
    systemPiTotal_ge_two benzRing _ _ (by decide) (by decide)⟩

/-- A graph whose single bond is a Double self-loop on its only atom. -/
def selfLoopDouble : InputGraph :=
  { atoms := [mkAtomC 0], bonds := [mkBondI 0 0 0 .Double] }

/-- The perception state on which `apply_topological_aromaticity`
evaluates `is_system_aromatic`: GraphBuilder output plus ring marking
plus the explicit-aromaticity pass. -/
def perceptionAtAromaticity (g : InputGraph) : ChemicalPerception :=
  let p0 := perceptionOfD g
  apply_explicit_aromaticity (markRings p0 (find_sssr p0))

/-- Counterexample to C9 as stated: on the accepted `selfLoopDouble`
input the fused system examined by the perceiver is the one-atom ring
of the self-loop Double bond, its single atom passes the screen, and
the accumulated π-electron count is exactly `1` — positive but smaller
than 2, so the claim's `T > 0 → T ≥ 2` justification fails and the
`u32` subtraction `1 - 2` underflows. -/
theorem systemPiTotal_one_counterexample :
    exceptIsOk (buildPerception selfLoopDouble) = true ∧
    find_fused_ring_systems (perceptionAtAromaticity selfLoopDouble) = [[0]] ∧
    ((systemAtomIndices (perceptionAtAromaticity selfLoopDouble) [0]).all
      (fun i => is_potential_sp2_hybrid (perceptionAtAromaticity selfLoopDouble) i))
      = true ∧
    systemPiTotal (perceptionAtAromaticity selfLoopDouble)
      (systemAtomIndices (perceptionAtAromaticity selfLoopDouble) [0])
      (systemBondIndices (perceptionAtAromaticity selfLoopDouble) [0]) = 1 := by
  refine ⟨by decide, by decide, by decide, by decide⟩

/-! ## Claim C10: Kekulizer failures exhaust the attempt budget -/

theorem kekule_backtrack_attempts :
    ∀ (rest : List Nat) (bonds : List PerceivedBond) (counts : AtomId → Nat)
      (att : Nat), att ≤ KEKULIZATION_ATTEMPT_LIMIT →
      (kekule_backtrack bonds rest counts att).2.2.2 ≤ KEKULIZATION_ATTEMPT_LIMIT ∧
      ((kekule_backtrack bonds rest counts att).1 = false →
        (kekule_backtrack bonds rest counts att).2.2.2 = KEKULIZATION_ATTEMPT_LIMIT)
  | [], bonds, counts, att, hatt => by
    simp only [kekule_backtrack]
    exact ⟨hatt, fun hf => absurd hf (by simp)⟩
  | idx :: rest, bonds, counts, att, hatt => by
    simp only [kekule_backtrack]
    by_cases hlim : KEKULIZATION_ATTEMPT_LIMIT ≤ att
    · rw [if_pos hlim]
      have heq : att = KEKULIZATION_ATTEMPT_LIMIT := le_antisymm hatt hlim
      exact ⟨hatt, fun _ => heq⟩
    · rw [if_neg hlim]
      have hatt1 : att + 1 ≤ KEKULIZATION_ATTEMPT_LIMIT := by omega
      by_cases hd : (counts (bonds.getD idx default).start_atom_id = 0 ∧
          counts (bonds.getD idx default).end_atom_id = 0)
      · rw [if_pos hd]
        have ihD := kekule_backtrack_attempts rest
          (setKekule bonds idx (some .Double))
          (bumpCount (bumpCount counts (bonds.getD idx default).start_atom_id)
            (bonds.getD idx default).end_atom_id) (att + 1) hatt1
        by_cases hrD : (kekule_backtrack (setKekule bonds idx (some .Double))
            rest (bumpCount (bumpCount counts
              (bonds.getD idx default).start_atom_id)
              (bonds.getD idx default).end_atom_id) (att + 1)).1 = true
        · rw [if_pos hrD]
          exact ⟨ihD.1, fun hf => absurd hrD (by rw [hf]; simp)⟩
        · rw [if_neg hrD]
          have ihS := kekule_backtrack_attempts rest
            (setKekule (setKekule (kekule_backtrack
              (setKekule bonds idx (some .Double)) rest
              (bumpCount (bumpCount counts
                (bonds.getD idx default).start_atom_id)
                (bonds.getD idx default).end_atom_id) (att + 1)).2.1
              idx none) idx (some .Single))
            (decrCount (decrCount (kekule_backtrack
              (setKekule bonds idx (some .Double)) rest
              (bumpCount (bumpCount counts
                (bonds.getD idx default).start_atom_id)
                (bonds.getD idx default).end_atom_id) (att + 1)).2.2.1
              (bonds.getD idx default).start_atom_id)
              (bonds.getD idx default).end_atom_id)
            ((kekule_backtrack (setKekule bonds idx (some .Double)) rest
              (bumpCount (bumpCount counts
                (bonds.getD idx default).start_atom_id)
                (bonds.getD idx default).end_atom_id) (att + 1)).2.2.2)
            ihD.1
          by_cases hrS : (kekule_backtrack (setKekule (setKekule
              (kekule_backtrack (setKekule bonds idx (some .Double)) rest
                (bumpCount (bumpCount counts
                  (bonds.getD idx default).start_atom_id)
                  (bonds.getD idx default).end_atom_id) (att + 1)).2.1
              idx none) idx (some .Single)) rest
              (decrCount (decrCount (kekule_backtrack
                (setKekule bonds idx (some .Double)) rest
                (bumpCount (bumpCount counts
                  (bonds.getD idx default).start_atom_id)
                  (bonds.getD idx default).end_atom_id) (att + 1)).2.2.1
                (bonds.getD idx default).start_atom_id)
                (bonds.getD idx default).end_atom_id)
              ((kekule_backtrack (setKekule bonds idx (some .Double)) rest
                (bumpCount (bumpCount counts
                  (bonds.getD idx default).start_atom_id)
                  (bonds.getD idx default).end_atom_id) (att + 1)).2.2.2)).1
              = true
          · rw [if_pos hrS]
            exact ⟨ihS.1, fun hf => absurd hrS (by rw [hf]; simp)⟩
          · rw [if_neg hrS]
            refine ⟨ihS.1, fun _ => ?_⟩
            exact ihS.2 (Bool.eq_false_iff.mpr hrS)
      · rw [if_neg hd]
        have ihS := kekule_backtrack_attempts rest
          (setKekule bonds idx (some .Single)) counts (att + 1) hatt1
        by_cases hrS : (kekule_backtrack (setKekule bonds idx (some .Single))
            rest counts (att + 1)).1 = true
        · rw [if_pos hrS]
          exact ⟨ihS.1, fun hf => absurd hrS (by rw [hf]; simp)⟩
        · rw [if_neg hrS]
          refine ⟨ihS.1, fun _ => ?_⟩
          exact ihS.2 (Bool.eq_false_iff.mpr hrS)

theorem assign_kekule_orders_error (bonds : List PerceivedBond)
    (comp : List Nat) (total : Nat) (e : PerceptionError)
    (htot : total ≤ KEKULIZATION_ATTEMPT_LIMIT)
    (h : assign_kekule_orders bonds comp total = .error e) :
    e = .KekulizationFailed KEKULIZATION_ATTEMPT_LIMIT := by
  unfold assign_kekule_orders at h
  by_cases hemp : (comp.filter
      (fun idx => (bonds.getD idx default).kekule_order == none)).isEmpty = true
  · rw [if_pos hemp] at h
    exact absurd h (by simp)
  · rw [if_neg hemp] at h
    have hbt := kekule_backtrack_attempts
      (comp.filter (fun idx => (bonds.getD idx default).kekule_order == none))
      bonds (fun _ => 0) total htot
    by_cases hr : (kekule_backtrack bonds
        (comp.filter (fun idx => (bonds.getD idx default).kekule_order == none))
        (fun _ => 0) total).1 = true
    · rw [if_pos hr] at h
      exact absurd h (by simp)
    · rw [if_neg hr] at h
      have := hbt.2 (Bool.eq_false_iff.mpr hr)
      simp only [Except.error.injEq] at h
      rw [← h, this]

theorem assign_kekule_orders_ok_bound (bonds : List PerceivedBond)
    (comp : List Nat) (total : Nat)
    (res : List PerceivedBond × Nat)
    (htot : total ≤ KEKULIZATION_ATTEMPT_LIMIT)
    (h : assign_kekule_orders bonds comp total = .ok res) :
    res.2 ≤ KEKULIZATION_ATTEMPT_LIMIT := by
  unfold assign_kekule_orders at h
  by_cases hemp : (comp.filter
      (fun idx => (bonds.getD idx default).kekule_order == none)).isEmpty = true
  · rw [if_pos hemp] at h
    simp only [Except.ok.injEq] at h
    rw [← h]
    exact htot
  · rw [if_neg hemp] at h
    have hbt := kekule_backtrack_attempts
      (comp.filter (fun idx => (bonds.getD idx default).kekule_order == none))
      bonds (fun _ => 0) total htot
    by_cases hr : (kekule_backtrack bonds
        (comp.filter (fun idx => (bonds.getD idx default).kekule_order == none))
        (fun _ => 0) total).1 = true
    · rw [if_pos hr] at h
      simp only [Except.ok.injEq] at h
      rw [← h]
      exact hbt.1
    · rw [if_neg hr] at h
      exact absurd h (by simp)

theorem foldl_invariant {α β : Type} (P : β → Prop) (f : β → α → β) :
    ∀ (l : List α) (init : β), P init → (∀ b a, P b → P (f b a)) →
      P (l.foldl f init)
  | [], init, hinit, _ => hinit
  | a :: l, init, hinit, hstep =>
    foldl_invariant P f l (f init a) (hstep init a hinit) hstep

/-- C10. The Kekulizer can fail only by exhausting the global attempt
budget: whenever `kekulize` returns an error at all, that error is
`KekulizationFailed` carrying exactly the 1000-attempt limit (assigning
`Single` is always accepted, so the search never runs out of candidate
assignments — only out of attempts). -/
theorem kekulize_error_is_budget_exhaustion (p : ChemicalPerception) :
    (match kekulize p with
      | .error e => e = .KekulizationFailed KEKULIZATION_ATTEMPT_LIMIT
      | .ok _ => True) := by
  unfold kekulize
  simp only
  have hinv := foldl_invariant
    (fun acc : Except PerceptionError (List PerceivedBond × List Bool × Nat) =>
      match acc with
      | .error e => e = .KekulizationFailed KEKULIZATION_ATTEMPT_LIMIT
      | .ok st => st.2.2 ≤ KEKULIZATION_ATTEMPT_LIMIT)
    (fun acc bond_idx =>
      match acc with
      | .error e => .error e
      | .ok st =>
        if (st.1.getD bond_idx default).is_aromatic &&
            !(st.2.1.getD bond_idx false) then
          match assign_kekule_orders st.1
              (collect_aromatic_component { p with bonds := st.1 }
                bond_idx st.2.1).1 st.2.2 with
          | .error e => .error e
          | .ok pr => .ok (pr.1, (collect_aromatic_component
              { p with bonds := st.1 } bond_idx st.2.1).2, pr.2)
        else acc)
    (List.range p.bonds.length)
    (.ok (p.bonds, List.replicate p.bonds.length false, 0))
    (by simp [KEKULIZATION_ATTEMPT_LIMIT])
    ?_
  · revert hinv
    cases hres : List.foldl _ _ _ with
    | error e => intro hinv; exact hinv
    | ok st => intro _; trivial
  · intro acc bond_idx hP
    cases acc with
    | error e => exact hP
    | ok st =>
      simp only
      by_cases hc : ((st.1.getD bond_idx default).is_aromatic &&
          !(st.2.1.getD bond_idx false)) = true
      · rw [if_pos hc]
        cases hasg : assign_kekule_orders st.1
            (collect_aromatic_component { p with bonds := st.1 }
              bond_idx st.2.1).1 st.2.2 with
        | error e =>
          exact assign_kekule_orders_error _ _ _ _ hP hasg
        | ok pr =>
          exact assign_kekule_orders_ok_bound _ _ _ _ hP hasg
      · rw [if_neg hc]
        exact hP

/-! ## Claim C5: ordering and disjointness lemmas for the sorters -/

theorem mem_insertLe {α : Type} (le : α → α → Bool) (x : α) :
    ∀ (l : List α) (a : α), a ∈ insertLe le x l ↔ a = x ∨ a ∈ l
  | [], a => by simp [insertLe]
  | y :: ys, a => by
    unfold insertLe
    by_cases h : le y x = true
    · rw [if_pos h]
      rw [List.mem_cons, mem_insertLe le x ys a, List.mem_cons]
      tauto
    · rw [if_neg h]
      rw [List.mem_cons, List.mem_cons]

theorem pairwise_insertLe {α : Type} (le : α → α → Bool)
    (htrans : ∀ a b c, le a b = true → le b c = true → le a c = true)
    (htot : ∀ a b, le a b = true ∨ le b a = true) (x : α) :
    ∀ (l : List α), l.Pairwise (fun a b => le a b = true) →
      (insertLe le x l).Pairwise (fun a b => le a b = true)
  | [], _ => by simp [insertLe]
  | y :: ys, h => by
    rw [List.pairwise_cons] at h
    obtain ⟨hy, hys⟩ := h
    unfold insertLe
    by_cases hle : le y x = true
    · rw [if_pos hle]
      rw [List.pairwise_cons]
      refine ⟨?_, pairwise_insertLe le htrans htot x ys hys⟩
      intro a ha
      rcases (mem_insertLe le x ys a).mp ha with h1 | h1
      · subst h1; exact hle
      · exact hy a h1
    · rw [if_neg hle]
      rw [List.pairwise_cons]
      have hxy : le x y = true := by
        rcases htot x y with h1 | h1
        · exact h1
        · exact absurd h1 hle
      refine ⟨?_, by rw [List.pairwise_cons]; exact ⟨hy, hys⟩⟩
      intro a ha
      rcases List.mem_cons.mp ha with h1 | h1
      · subst h1; exact hxy
      · exact htrans x y a hxy (hy a h1)

theorem sortBy_pairwise {α : Type} (le : α → α → Bool)
    (htrans : ∀ a b c, le a b = true → le b c = true → le a c = true)
    (htot : ∀ a b, le a b = true ∨ le b a = true) :
    ∀ (l : List α), (sortBy le l).Pairwise (fun a b => le a b = true)
  | [] => by simp [sortBy]
  | x :: xs => by
    unfold sortBy
    rw [List.foldr_cons]
    exact pairwise_insertLe le htrans htot x _ (sortBy_pairwise le htrans htot xs)

theorem insertLe_perm {α : Type} (le : α → α → Bool) (x : α) :
    ∀ (l : List α), (insertLe le x l).Perm (x :: l)
  | [] => by simp [insertLe]
  | y :: ys => by
    unfold insertLe
    by_cases h : le y x = true
    · rw [if_pos h]
      exact ((insertLe_perm le x ys).cons y).trans (List.Perm.swap x y ys)
    · rw [if_neg h]

theorem sortBy_perm {α : Type} (le : α → α → Bool) :
    ∀ (l : List α), (sortBy le l).Perm l
  | [] => by simp [sortBy]
  | x :: xs => by
    unfold sortBy
    rw [List.foldr_cons]
    exact (insertLe_perm le x _).trans ((sortBy_perm le xs).cons x)

theorem mem_sortBy {α : Type} (le : α → α → Bool) (l : List α) (a : α) :
    a ∈ sortBy le l ↔ a ∈ l :=
  (sortBy_perm le l).mem_iff

theorem mem_dedupAdj : ∀ (l : List Nat) (a : Nat), a ∈ dedupAdj l → a ∈ l
  | [], _, h => h
  | [x], _, h => h
  | x :: y :: rest, a, h => by
    unfold dedupAdj at h
    by_cases hxy : x = y
    · rw [if_pos hxy] at h
      exact List.mem_cons_of_mem x (mem_dedupAdj (y :: rest) a h)
    · rw [if_neg hxy] at h
      rcases List.mem_cons.mp h with h1 | h1
      · subst h1
        exact List.mem_cons_self _ _
      · exact List.mem_cons_of_mem x (mem_dedupAdj (y :: rest) a h1)

theorem dedupAdj_ne_nil : ∀ (l : List Nat), l ≠ [] → dedupAdj l ≠ []
  | [], h, _ => h rfl
  | [x], _, h => by simp [dedupAdj] at h
  | x :: y :: rest, _, h => by
    unfold dedupAdj at h
    by_cases hxy : x = y
    · rw [if_pos hxy] at h
      exact dedupAdj_ne_nil (y :: rest) (by simp) h
    · rw [if_neg hxy] at h
      simp at h

theorem dedupAdj_strict :
    ∀ (l : List Nat), l.Pairwise (fun a b => a ≤ b) →
      (dedupAdj l).Pairwise (fun a b => a < b)
  | [], _ => by simp [dedupAdj]
  | [x], _ => by simp [dedupAdj]
  | x :: y :: rest, h => by
    rw [List.pairwise_cons] at h
    obtain ⟨hx, hyr⟩ := h
    unfold dedupAdj
    by_cases hxy : x = y
    · rw [if_pos hxy]
      exact dedupAdj_strict (y :: rest) hyr
    · rw [if_neg hxy]
      rw [List.pairwise_cons]
      refine ⟨?_, dedupAdj_strict (y :: rest) hyr⟩
      intro a ha
      have hmem := mem_dedupAdj (y :: rest) a ha
      rcases List.mem_cons.mp hmem with h1 | h1
      · subst h1
        exact lt_of_le_of_ne (hx _ (List.mem_cons_self _ _)) hxy
      · have h2 : y ≤ a := by
          rw [List.pairwise_cons] at hyr
          exact hyr.1 a h1
        have h3 : x ≤ y := hx y (List.mem_cons_self y rest)
        have h4 : x ≠ y := hxy
        omega

theorem sortDedup_strict (l : List Nat) :
    (sortDedup l).Pairwise (fun a b => a < b) := by
  unfold sortDedup
  refine dedupAdj_strict _ ?_
  have h := sortBy_pairwise (fun a b : Nat => a ≤ b)
    (fun a b c h1 h2 => by
      rw [decide_eq_true_eq] at h1 h2 ⊢
      omega)
    (fun a b => by
      rcases Nat.le_total a b with h | h
      · exact Or.inl (by rw [decide_eq_true_eq]; exact h)
      · exact Or.inr (by rw [decide_eq_true_eq]; exact h))
    l
  exact h.imp (fun hab => by rwa [decide_eq_true_eq] at hab)

theorem sortDedup_ne_nil (l : List Nat) (h : l ≠ []) : sortDedup l ≠ [] := by
  unfold sortDedup
  refine dedupAdj_ne_nil _ ?_
  intro hs
  have hlen := (sortBy_perm (fun a b : Nat => a ≤ b) l).length_eq
  rw [hs] at hlen
  simp only [List.length_nil] at hlen
  exact h (List.length_eq_zero.mp hlen.symm)

theorem mem_sortDedup (l : List Nat) (a : Nat) (h : a ∈ sortDedup l) :
    a ∈ l := by
  unfold sortDedup at h
  exact (mem_sortBy _ l a).mp (mem_dedupAdj _ a h)

theorem lexLe_trans : ∀ (a b c : List Nat),
    lexLe a b = true → lexLe b c = true → lexLe a c = true
  | [], _, _, _, _ => by simp [lexLe]
  | _ :: _, [], _, h, _ => by simp [lexLe] at h
  | _ :: _, _ :: _, [], _, h => by simp [lexLe] at h
  | a :: as1, b :: bs1, c :: cs1, h1, h2 => by
    unfold lexLe at h1 h2 ⊢
    by_cases hab : a < b
    · by_cases hbc : b < c
      · rw [if_pos (show a < c by omega)]
      · rw [if_neg hbc] at h2
        by_cases hcb : c < b
        · rw [if_pos hcb] at h2
          exact absurd h2 (by simp)
        · rw [if_pos (show a < c by omega)]
    · rw [if_neg hab] at h1
      by_cases hba : b < a
      · rw [if_pos hba] at h1
        exact absurd h1 (by simp)
      · rw [if_neg hba] at h1
        have heq : a = b := by omega
        subst heq
        by_cases hac : a < c
        · rw [if_pos hac]
        · rw [if_neg hac] at h2 ⊢
          by_cases hca : c < a
          · rw [if_pos hca] at h2
            exact absurd h2 (by simp)
          · rw [if_neg hca] at h2 ⊢
            exact lexLe_trans as1 bs1 cs1 h1 h2

theorem lexLe_total : ∀ (a b : List Nat),
    lexLe a b = true ∨ lexLe b a = true
  | [], _ => Or.inl (by simp [lexLe])
  | _ :: _, [] => Or.inr (by simp [lexLe])
  | a :: as1, b :: bs1 => by
    unfold lexLe
    by_cases hab : a < b
    · exact Or.inl (by rw [if_pos hab])
    · by_cases hba : b < a
      · exact Or.inr (by rw [if_pos hba])
      · rw [if_neg hab, if_neg hba, if_neg (by omega : ¬ b < a),
          if_neg (by omega : ¬ a < b)]
        exact lexLe_total as1 bs1

theorem getD_set_self : ∀ (l : List Bool) (i : Nat) (b d : Bool),
    i < l.length → (l.set i b).getD i d = b
  | [], i, _, _, h => absurd h (by simp)
  | _ :: _, 0, _, _, _ => rfl
  | x :: xs, i + 1, b, d, h => by
    simp only [List.set_cons_succ, List.getD_cons_succ]
    exact getD_set_self xs i b d (by simpa using h)

theorem getD_set_ne : ∀ (l : List Bool) (i j : Nat) (b d : Bool), i ≠ j →
    (l.set i b).getD j d = l.getD j d
  | [], _, _, _, _, _ => by simp
  | _ :: _, 0, 0, _, _, h => absurd rfl h
  | _ :: _, 0, _ + 1, _, _, _ => by simp
  | _ :: _, _ + 1, 0, _, _, _ => by simp
  | x :: xs, i + 1, j + 1, b, d, h => by
    simp only [List.set_cons_succ, List.getD_cons_succ]
    exact getD_set_ne xs i j b d (by omega)

theorem foldl_invariant_mem {α β : Type} (P : β → Prop) (f : β → α → β) :
    ∀ (l : List α) (init : β), P init →
      (∀ b a, a ∈ l → P b → P (f b a)) → P (l.foldl f init)
  | [], _, hinit, _ => hinit
  | a :: l, init, hinit, hstep =>
    foldl_invariant_mem P f l (f init a)
      (hstep init a (List.mem_cons_self a l) hinit)
      (fun b x hx hP => hstep b x (List.mem_cons_of_mem a hx) hP)

theorem mem_enumFrom_lt {α : Type} :
    ∀ (n : Nat) (l : List α) (pr : Nat × α),
      pr ∈ enumFrom n l → pr.1 < n + l.length
  | _, [], _, h => absurd h (by simp [enumFrom])
  | n, x :: xs, pr, h => by
    unfold enumFrom at h
    rcases List.mem_cons.mp h with h1 | h1
    · subst h1
      simp
    · have := mem_enumFrom_lt (n + 1) xs pr h1
      simp only [List.length_cons]
      omega

/-- The invariant of the mark-and-push folds inside `groupBFS`:
relative to the base marking `visited0` and the BFS-entry marking
`visitedPre`, the queue grows by freshly marked in-bounds conjugated
indices and the marking grows monotonically. -/
def PushInv (len : Nat) (visited0 visitedPre : List Bool)
    (restPart : List Nat) (st : List Nat × List Bool) : Prop :=
  st.2.length = len ∧
  (∀ k, visitedPre.getD k false = true → st.2.getD k false = true) ∧
  (∀ k, st.2.getD k false = true →
    visitedPre.getD k false = true ∨
      (k < len ∧ visited0.getD k false = false)) ∧
  (∃ t, st.1 = restPart ++ t ∧
    ∀ k ∈ t, k < len ∧ st.2.getD k false = true ∧
      visited0.getD k false = false)

theorem pushInv_step (len : Nat) (visited0 visitedPre : List Bool)
    (restPart : List Nat) (st : List Nat × List Bool) (nb : Nat)
    (hnb : nb < len)
    (hmono0 : ∀ k, visited0.getD k false = true →
      visitedPre.getD k false = true)
    (hP : PushInv len visited0 visitedPre restPart st) :
    PushInv len visited0 visitedPre restPart
      (if h : st.2.getD nb false = false then (st.1 ++ [nb], st.2.set nb true)
       else st) := by
  obtain ⟨hlen, hmono, hfresh, t, ht, hmem⟩ := hP
  by_cases hv : st.2.getD nb false = false
  · rw [dif_pos hv]
    refine ⟨by simp [hlen], ?_, ?_, t ++ [nb], ?_, ?_⟩
    · intro k hk
      by_cases hknb : nb = k
      · subst hknb
        exact getD_set_self _ _ _ _ (by rw [hlen]; exact hnb)
      · rw [getD_set_ne _ _ _ _ _ hknb]
        exact hmono k hk
    · intro k hk
      by_cases hknb : nb = k
      · subst hknb
        right
        refine ⟨hnb, ?_⟩
        by_contra hvk
        have hvk2 : visited0.getD nb false = true := by
          cases h : visited0.getD nb false with
          | true => rfl
          | false => exact absurd h hvk
        have := hmono nb (hmono0 nb hvk2)
        rw [this] at hv
        exact absurd hv (by simp)
      · rw [getD_set_ne _ _ _ _ _ hknb] at hk
        exact hfresh k hk
    · rw [ht, List.append_assoc]
    · intro k hk
      rcases List.mem_append.mp hk with h1 | h1
      · obtain ⟨h2, h3, h4⟩ := hmem k h1
        refine ⟨h2, ?_, h4⟩
        by_cases hknb : nb = k
        · subst hknb
          exact getD_set_self _ _ _ _ (by rw [hlen]; exact hnb)
        · rw [getD_set_ne _ _ _ _ _ hknb]
          exact h3
      · have hknb : k = nb := by simpa using h1
        subst hknb
        refine ⟨hnb, getD_set_self _ _ _ _ (by rw [hlen]; exact hnb), ?_⟩
        by_contra hvk
        have hvk2 : visited0.getD k false = true := by
          cases h : visited0.getD k false with
          | true => rfl
          | false => exact absurd h hvk
        have := hmono k (hmono0 k hvk2)
        rw [this] at hv
        exact absurd hv (by simp)
  · rw [dif_neg hv]
    exact ⟨hlen, hmono, hfresh, t, ht, hmem⟩

/-- The BFS-step fold of `groupBFS` satisfies `PushInv`. -/
theorem groupBFS_step_inv (p : ChemicalPerception) (conjugated : List Nat)
    (hbound : ∀ k, conjugated.contains k = true → k < p.bonds.length)
    (visited0 : List Bool) (rest : List Nat) (visited : List Bool)
    (hlen : visited.length = p.bonds.length)
    (hmono0 : ∀ k, visited0.getD k false = true → visited.getD k false = true)
    (endpoints : List Nat) :
    PushInv p.bonds.length visited0 visited rest
      (endpoints.foldl
        (fun (st : List Nat × List Bool) atom_id =>
          let atom_idx := (mapLookup p.atom_id_to_index atom_id).getD 0
          (adjGet p atom_idx).foldl
            (fun (st : List Nat × List Bool) entry =>
              let nb_idx := (mapLookup p.bond_id_to_index entry.2).getD 0
              if conjugated.contains nb_idx && !(st.2.getD nb_idx false) then
                (st.1 ++ [nb_idx], st.2.set nb_idx true)
              else st)
            st)
        (rest, visited)) := by
  refine foldl_invariant _ _ endpoints (rest, visited)
    ⟨hlen, fun k hk => hk, fun k hk => Or.inl hk, [], by simp, by simp⟩ ?_
  intro st aid hP
  refine foldl_invariant _ _ _ st hP ?_
  intro st2 entry hP2
  simp only
  by_cases hc : (conjugated.contains
      ((mapLookup p.bond_id_to_index entry.2).getD 0) &&
      !(st2.2.getD ((mapLookup p.bond_id_to_index entry.2).getD 0) false)) = true
  · rw [if_pos hc]
    rw [Bool.and_eq_true, Bool.not_eq_true'] at hc
    have := pushInv_step p.bonds.length visited0 visited rest st2
      ((mapLookup p.bond_id_to_index entry.2).getD 0)
      (hbound _ hc.1) hmono0 hP2
    rwa [dif_pos hc.2] at this
  · rw [if_neg hc]
    exact hP2

/-- Full behavioural specification of `groupBFS` needed for the grouping
invariants: the visited marking grows monotonically, only in-bounds indices
fresh with respect to the base marking `visited0` become newly marked,
every collected bond id beyond the accumulator comes from such an index,
and both accumulators strictly grow whenever fuel and queue are nonempty. -/
theorem groupBFS_spec (p : ChemicalPerception) (conjugated : List Nat)
    (hbound : ∀ k, conjugated.contains k = true → k < p.bonds.length)
    (visited0 : List Bool) :
    ∀ (fuel : Nat) (queue : List Nat) (visited : List Bool)
      (accB accA : List Nat),
      visited.length = p.bonds.length →
      (∀ k, visited0.getD k false = true → visited.getD k false = true) →
      (∀ k ∈ queue, k < p.bonds.length ∧ visited.getD k false = true ∧
        visited0.getD k false = false) →
      (groupBFS p conjugated fuel queue visited accB accA).2.2.length =
          p.bonds.length ∧
      (∀ k, visited.getD k false = true →
        (groupBFS p conjugated fuel queue visited accB accA).2.2.getD k false
          = true) ∧
      (∀ k,
        (groupBFS p conjugated fuel queue visited accB accA).2.2.getD k false
          = true →
        visited.getD k false = true ∨
          (k < p.bonds.length ∧ visited0.getD k false = false)) ∧
      (∀ x ∈ (groupBFS p conjugated fuel queue visited accB accA).1,
        x ∈ accB ∨ ∃ k, k < p.bonds.length ∧
          visited0.getD k false = false ∧
          (groupBFS p conjugated fuel queue visited accB accA).2.2.getD k false
            = true ∧
          x = (bondGet p k).id) ∧
      (∃ tB, (groupBFS p conjugated fuel queue visited accB accA).1 =
        accB ++ tB ∧ (queue ≠ [] → 0 < fuel → tB ≠ [])) ∧
      (∃ tA, (groupBFS p conjugated fuel queue visited accB accA).2.1 =
        accA ++ tA ∧ (queue ≠ [] → 0 < fuel → tA ≠ [])) := by
  intro fuel
  induction fuel with
  | zero =>
    intro queue visited accB accA hlen hmono0 hq
    have heq : groupBFS p conjugated 0 queue visited accB accA =
        (accB, accA, visited) := rfl
    rw [heq]
    refine ⟨hlen, fun k hk => hk, fun k hk => Or.inl hk,
      fun x hx => Or.inl hx,
      ⟨[], by simp, fun _ h => absurd h (by omega)⟩,
      ⟨[], by simp, fun _ h => absurd h (by omega)⟩⟩
  | succ fuel ih =>
    intro queue visited accB accA hlen hmono0 hq
    match queue with
    | [] =>
      have heq : groupBFS p conjugated (fuel + 1) [] visited accB accA =
          (accB, accA, visited) := rfl
      rw [heq]
      refine ⟨hlen, fun k hk => hk, fun k hk => Or.inl hk,
        fun x hx => Or.inl hx,
        ⟨[], by simp, fun h _ => absurd rfl h⟩,
        ⟨[], by simp, fun h _ => absurd rfl h⟩⟩
    | bond_idx :: rest =>
      obtain ⟨hbi_lt, hbi_mark, hbi_fresh⟩ :=
        hq bond_idx (List.mem_cons_self _ _)
      have hstep := groupBFS_step_inv p conjugated hbound visited0 rest
        visited hlen hmono0
        [(bondGet p bond_idx).start_atom_id, (bondGet p bond_idx).end_atom_id]
      set step := [(bondGet p bond_idx).start_atom_id,
        (bondGet p bond_idx).end_atom_id].foldl
        (fun (st : List Nat × List Bool) atom_id =>
          let atom_idx := (mapLookup p.atom_id_to_index atom_id).getD 0
          (adjGet p atom_idx).foldl
            (fun (st : List Nat × List Bool) entry =>
              let nb_idx := (mapLookup p.bond_id_to_index entry.2).getD 0
              if conjugated.contains nb_idx && !(st.2.getD nb_idx false) then
                (st.1 ++ [nb_idx], st.2.set nb_idx true)
              else st)
            st)
        (rest, visited) with hstepdef
      obtain ⟨hslen, hsmono, hsfresh, t, hst, htmem⟩ := hstep
      have hrec := ih step.1 step.2 (accB ++ [(bondGet p bond_idx).id])
        (accA ++ [(bondGet p bond_idx).start_atom_id,
          (bondGet p bond_idx).end_atom_id])
        hslen
        (fun k hk => hsmono k (hmono0 k hk))
        (by
          intro k hk
          rw [hst] at hk
          rcases List.mem_append.mp hk with h1 | h1
          · obtain ⟨h2, h3, h4⟩ := hq k (List.mem_cons_of_mem _ h1)
            exact ⟨h2, hsmono k h3, h4⟩
          · exact htmem k h1)
      have hunfold : groupBFS p conjugated (fuel + 1)
          (bond_idx :: rest) visited accB accA =
          groupBFS p conjugated fuel step.1 step.2
            (accB ++ [(bondGet p bond_idx).id])
            (accA ++ [(bondGet p bond_idx).start_atom_id,
              (bondGet p bond_idx).end_atom_id]) := by
        conv_lhs => rw [groupBFS]
      rw [hunfold]
      obtain ⟨hr1, hr2, hr3, hr4, ⟨tB, htB, htBne⟩, ⟨tA, htA, htAne⟩⟩ := hrec
      refine ⟨hr1, ?_, ?_, ?_, ?_, ?_⟩
      · intro k hk
        exact hr2 k (hsmono k hk)
      · intro k hk
        rcases hr3 k hk with h1 | h1
        · rcases hsfresh k h1 with h2 | h2
          · exact Or.inl h2
          · exact Or.inr h2
        · exact Or.inr h1
      · intro x hx
        rcases hr4 x hx with h1 | h1
        · rcases List.mem_append.mp h1 with h2 | h2
          · exact Or.inl h2
          · have hxid : x = (bondGet p bond_idx).id := by simpa using h2
            refine Or.inr ⟨bond_idx, hbi_lt, hbi_fresh, ?_, hxid⟩
            exact hr2 bond_idx (hsmono bond_idx hbi_mark)
        · exact Or.inr h1
      · refine ⟨(bondGet p bond_idx).id :: tB, ?_, ?_⟩
        · rw [htB, List.append_assoc]
          rfl
        · intro _ _ h
          exact List.cons_ne_nil _ _ h
      · refine ⟨(bondGet p bond_idx).start_atom_id ::
          (bondGet p bond_idx).end_atom_id :: tA, ?_, ?_⟩
        · rw [htA, List.append_assoc]
          rfl
        · intro _ _ h
          exact List.cons_ne_nil _ _ h

theorem mapLookup_getD_lt (p : ChemicalPerception)
    (hmap : ∀ pr ∈ p.bond_id_to_index, pr.2 < p.bonds.length)
    (hpos : 0 < p.bonds.length) (bid : Nat) :
    (mapLookup p.bond_id_to_index bid).getD 0 < p.bonds.length := by
  cases h : mapLookup p.bond_id_to_index bid with
  | none => simpa using hpos
  | some v =>
    simp only [Option.getD_some]
    exact hmap (bid, v) (mapLookup_mem h)

theorem expandLoop_bound (p : ChemicalPerception)
    (hmap : ∀ pr ∈ p.bond_id_to_index, pr.2 < p.bonds.length)
    (hpos : 0 < p.bonds.length) :
    ∀ (fuel : Nat) (frontier conjugated : List Nat),
      (∀ k ∈ conjugated, k < p.bonds.length) →
      ∀ k ∈ expandLoop p fuel frontier conjugated, k < p.bonds.length := by
  intro fuel
  induction fuel with
  | zero => intro frontier conjugated hc; exact hc
  | succ fuel ih =>
    intro frontier conjugated hc
    match frontier with
    | [] => exact hc
    | bond_idx :: rest =>
      rw [expandLoop]
      apply ih
      refine foldl_invariant
        (fun (st : List Nat × List Nat) => ∀ k ∈ st.2, k < p.bonds.length)
        _ _ (rest, conjugated) hc ?_
      intro st aid hP
      simp only
      split
      · exact hP
      · refine foldl_invariant
          (fun (st : List Nat × List Nat) => ∀ k ∈ st.2, k < p.bonds.length)
          _ _ st hP ?_
        intro st2 entry hP2
        split
        · exact hP2
        · split
          · intro k hk
            rcases List.mem_append.mp hk with h1 | h1
            · exact hP2 k h1
            · have hke : k = (mapLookup p.bond_id_to_index entry.2).getD 0 := by
                simpa using h1
              subst hke
              exact mapLookup_getD_lt p hmap hpos entry.2
          · exact hP2

theorem find_and_expand_bound (p : ChemicalPerception)
    (hmap : ∀ pr ∈ p.bond_id_to_index, pr.2 < p.bonds.length)
    (hpos : 0 < p.bonds.length) :
    ∀ k ∈ find_and_expand_conjugated_bonds p, k < p.bonds.length := by
  rw [find_and_expand_conjugated_bonds]
  apply expandLoop_bound p hmap hpos
  refine foldl_invariant_mem
    (fun (st : List Nat × List Nat) => ∀ k ∈ st.2, k < p.bonds.length)
    _ (enumIdx p.bonds) ([], []) (by simp) ?_
  intro st pr hpr hP
  simp only
  split
  · split
    · exact hP
    · intro k hk
      rcases List.mem_append.mp hk with h1 | h1
      · exact hP k h1
      · have hke : k = pr.1 := by simpa using h1
        subst hke
        have := mem_enumFrom_lt 0 p.bonds pr hpr
        simpa using this
  · exact hP

theorem nodup_getD_inj {α : Type} [Inhabited α] :
    ∀ (l : List α), l.Nodup → ∀ (k k' : Nat), k < l.length → k' < l.length →
      l.getD k default = l.getD k' default → k = k'
  | [], _, _, _, hk, _, _ => absurd hk (by simp)
  | x :: xs, _, 0, 0, _, _, _ => rfl
  | x :: xs, hnd, 0, k' + 1, _, hk', heq => by
    rw [List.getD_cons_zero, List.getD_cons_succ] at heq
    have hmem : xs.getD k' default ∈ xs := by
      rw [List.getD_eq_getElem xs default (by simpa using hk')]
      exact List.getElem_mem _
    rw [← heq] at hmem
    exact absurd hmem (List.nodup_cons.mp hnd).1
  | x :: xs, hnd, k + 1, 0, hk, _, heq => by
    rw [List.getD_cons_succ, List.getD_cons_zero] at heq
    have hmem : xs.getD k default ∈ xs := by
      rw [List.getD_eq_getElem xs default (by simpa using hk)]
      exact List.getElem_mem _
    rw [heq] at hmem
    exact absurd hmem (List.nodup_cons.mp hnd).1
  | x :: xs, hnd, k + 1, k' + 1, hk, hk', heq => by
    rw [List.getD_cons_succ, List.getD_cons_succ] at heq
    have := nodup_getD_inj xs (List.nodup_cons.mp hnd).2 k k'
      (by simpa using hk) (by simpa using hk') heq
    omega

theorem bondGet_id_inj (p : ChemicalPerception)
    (hids : (p.bonds.map (fun b => b.id)).Nodup)
    (k k' : Nat) (hk : k < p.bonds.length) (hk' : k' < p.bonds.length)
    (heq : (bondGet p k).id = (bondGet p k').id) : k = k' := by
  refine nodup_getD_inj (p.bonds.map (fun b => b.id)) hids k k'
    (by simpa using hk) (by simpa using hk') ?_
  rw [getD_map_of_lt _ _ _ _ default hk, getD_map_of_lt _ _ _ _ default hk']
  exact heq

/-- Two resonance systems share no bond identifier. -/
def bondsDisjoint (s t : ResonanceSystem) : Prop :=
  ∀ x ∈ s.bonds, x ∉ t.bonds

theorem bondsDisjoint_symm : Symmetric bondsDisjoint :=
  fun _ _ h x hxt hxs => h x hxs hxt

/-- One step of the fold inside `group_systems` (the fold body, written
out with the BFS call repeated in place of the `let`). -/
def groupStep (p : ChemicalPerception) (conjugated : List Nat)
    (st : List ResonanceSystem × List Bool) (start_idx : Nat) :
    List ResonanceSystem × List Bool :=
  if st.2.getD start_idx false then st
  else if (groupBFS p conjugated
      (p.bonds.length + p.bond_id_to_index.length + 1)
      [start_idx] (st.2.set start_idx true) [] []).1.isEmpty then st
  else
    (st.1 ++ [ResonanceSystem.new
      (groupBFS p conjugated (p.bonds.length + p.bond_id_to_index.length + 1)
        [start_idx] (st.2.set start_idx true) [] []).2.1
      (groupBFS p conjugated (p.bonds.length + p.bond_id_to_index.length + 1)
        [start_idx] (st.2.set start_idx true) [] []).1],
     (groupBFS p conjugated (p.bonds.length + p.bond_id_to_index.length + 1)
        [start_idx] (st.2.set start_idx true) [] []).2.2)

theorem group_systems_eq (p : ChemicalPerception) (conjugated : List Nat) :
    group_systems p conjugated =
      sortBy (fun a b => lexLe a.bonds b.bonds)
        (conjugated.foldl (groupStep p conjugated)
          ([], List.replicate p.bonds.length false)).1 := rfl

/-- A well-formed system relative to a visited marking: nonempty,
strictly sorted lists, and every bond id the id of a marked bond. -/
def SysOk (p : ChemicalPerception) (visited : List Bool)
    (s : ResonanceSystem) : Prop :=
  s.atoms ≠ [] ∧ s.bonds ≠ [] ∧
  s.atoms.Pairwise (fun a b => a < b) ∧
  s.bonds.Pairwise (fun a b => a < b) ∧
  (∀ x ∈ s.bonds, ∃ k, k < p.bonds.length ∧ visited.getD k false = true ∧
    x = (bondGet p k).id)

/-- Invariant of the `group_systems` fold. -/
def GroupInv (p : ChemicalPerception)
    (st : List ResonanceSystem × List Bool) : Prop :=
  st.2.length = p.bonds.length ∧
  (∀ s ∈ st.1, SysOk p st.2 s) ∧
  st.1.Pairwise bondsDisjoint

theorem groupStep_inv (p : ChemicalPerception) (conjugated : List Nat)
    (hids : (p.bonds.map (fun b => b.id)).Nodup)
    (hbound : ∀ k, conjugated.contains k = true → k < p.bonds.length)
    (st : List ResonanceSystem × List Bool) (start_idx : Nat)
    (hstart : start_idx ∈ conjugated)
    (hI : GroupInv p st) : GroupInv p (groupStep p conjugated st start_idx) := by
  obtain ⟨hlen, hsys, hdisj⟩ := hI
  have hstart_lt : start_idx < p.bonds.length :=
    hbound start_idx (by simpa using hstart)
  unfold groupStep
  by_cases hv : st.2.getD start_idx false = true
  · rw [if_pos hv]
    exact ⟨hlen, hsys, hdisj⟩
  · rw [if_neg hv]
    have hvfalse : st.2.getD start_idx false = false := by
      cases h : st.2.getD start_idx false with
      | false => rfl
      | true => exact absurd h hv
    have hmono0 : ∀ k, st.2.getD k false = true →
        (st.2.set start_idx true).getD k false = true := by
      intro k hk
      by_cases hks : start_idx = k
      · subst hks
        exact getD_set_self _ _ _ _ (by rw [hlen]; exact hstart_lt)
      · rw [getD_set_ne _ _ _ _ _ hks]
        exact hk
    have hspec := groupBFS_spec p conjugated hbound st.2
      (p.bonds.length + p.bond_id_to_index.length + 1)
      [start_idx] (st.2.set start_idx true) [] []
      (by rw [List.length_set]; exact hlen)
      hmono0
      (by
        intro k hk
        have hke : k = start_idx := by simpa using hk
        subst hke
        exact ⟨hstart_lt,
          getD_set_self _ _ _ _ (by rw [hlen]; exact hstart_lt), hvfalse⟩)
    obtain ⟨hr1, hr2, hr3, hr4, ⟨tB, htB, htBne⟩, ⟨tA, htA, htAne⟩⟩ := hspec
    set r := groupBFS p conjugated
      (p.bonds.length + p.bond_id_to_index.length + 1)
      [start_idx] (st.2.set start_idx true) [] [] with hrdef
    have hrBne : r.1 ≠ [] := by
      rw [htB, List.nil_append]
      exact htBne (by simp) (by omega)
    have hrAne : r.2.1 ≠ [] := by
      rw [htA, List.nil_append]
      exact htAne (by simp) (by omega)
    have hne : ¬ (r.1.isEmpty = true) := by
      intro hemp
      cases hcase : r.1 with
      | nil => exact hrBne hcase
      | cons a l => rw [hcase] at hemp; simp [List.isEmpty] at hemp
    rw [if_neg hne]
    have hmark2 : ∀ k, st.2.getD k false = true → r.2.2.getD k false = true :=
      fun k hk => hr2 k (hmono0 k hk)
    refine ⟨hr1, ?_, ?_⟩
    · intro s hs
      rcases List.mem_append.mp hs with h1 | h1
      · obtain ⟨ha1, ha2, ha3, ha4, ha5⟩ := hsys s h1
        refine ⟨ha1, ha2, ha3, ha4, ?_⟩
        intro x hx
        obtain ⟨k, hk1, hk2, hk3⟩ := ha5 x hx
        exact ⟨k, hk1, hmark2 k hk2, hk3⟩
      · have hse : s = ResonanceSystem.new r.2.1 r.1 := by simpa using h1
        subst hse
        refine ⟨sortDedup_ne_nil _ hrAne, sortDedup_ne_nil _ hrBne,
          sortDedup_strict _, sortDedup_strict _, ?_⟩
        intro x hx
        have hx2 : x ∈ r.1 := mem_sortDedup _ _ hx
        rcases hr4 x hx2 with h2 | h2
        · exact absurd h2 (by simp)
        · obtain ⟨k, hk1, _, hk3, hk4⟩ := h2
          exact ⟨k, hk1, hk3, hk4⟩
    · rw [List.pairwise_append]
      refine ⟨hdisj, List.pairwise_singleton _ _, ?_⟩
      intro s hs t ht
      have hte : t = ResonanceSystem.new r.2.1 r.1 := by simpa using ht
      subst hte
      intro x hxs hxt
      obtain ⟨_, _, _, _, ha5⟩ := hsys s hs
      obtain ⟨k', hk'1, hk'2, hk'3⟩ := ha5 x hxs
      have hxt2 : x ∈ r.1 := mem_sortDedup _ _ hxt
      rcases hr4 x hxt2 with h2 | h2
      · exact absurd h2 (by simp)
      · obtain ⟨k, hk1, hkfresh, _, hk4⟩ := h2
        have hkk : k = k' :=
          bondGet_id_inj p hids k k' hk1 hk'1 (by rw [← hk4, ← hk'3])
        subst hkk
        rw [hk'2] at hkfresh
        exact absurd hkfresh (by simp)

/-- C5. `find_systems` invariants (under well-formedness of the bond
table: distinct bond ids, and an id-to-index map whose values are in
bounds): every returned system has nonempty, strictly increasing atom
and bond id lists; distinct systems share no bond id; and the returned
list is sorted by the lexicographic order on bond-id lists. -/
theorem find_systems_invariants (p : ChemicalPerception)
    (hids : (p.bonds.map (fun b => b.id)).Nodup)
    (hmap : ∀ pr ∈ p.bond_id_to_index, pr.2 < p.bonds.length) :
    (∀ s ∈ find_systems p,
      s.atoms ≠ [] ∧ s.bonds ≠ [] ∧
      s.atoms.Pairwise (fun a b => a < b) ∧
      s.bonds.Pairwise (fun a b => a < b)) ∧
    (find_systems p).Pairwise bondsDisjoint ∧
    (find_systems p).Pairwise (fun s t => lexLe s.bonds t.bonds = true) := by
  cases hb : p.bonds.isEmpty with
  | true =>
    have he : find_systems p = [] := by
      rw [find_systems, if_pos hb]
    rw [he]
    exact ⟨fun s hs => absurd hs (by simp), List.Pairwise.nil, List.Pairwise.nil⟩
  | false =>
    have hpos : 0 < p.bonds.length := by
      cases hbb : p.bonds with
      | nil => rw [hbb] at hb; simp at hb
      | cons a l => simp
    have he : find_systems p =
        group_systems p (find_and_expand_conjugated_bonds p) := by
      rw [find_systems, if_neg (by rw [hb]; simp)]
    have hbound : ∀ k, (find_and_expand_conjugated_bonds p).contains k = true →
        k < p.bonds.length := by
      intro k hk
      exact find_and_expand_bound p hmap hpos k (contains_mem hk)
    have hinv : GroupInv p
        ((find_and_expand_conjugated_bonds p).foldl
          (groupStep p (find_and_expand_conjugated_bonds p))
          ([], List.replicate p.bonds.length false)) := by
      refine foldl_invariant_mem (GroupInv p) _ _ _ ⟨by simp, ?_, ?_⟩ ?_
      · intro s hs
        exact absurd hs (by simp)
      · exact List.Pairwise.nil
      · intro st a ha hI
        exact groupStep_inv p _ hids hbound st a ha hI
    obtain ⟨hlen2, hsysAll, hdisjAll⟩ := hinv
    rw [he, group_systems_eq]
    refine ⟨?_, ?_, ?_⟩
    · intro s hs
      have hs2 := (mem_sortBy _ _ s).mp hs
      obtain ⟨ha1, ha2, ha3, ha4, _⟩ := hsysAll s hs2
      exact ⟨ha1, ha2, ha3, ha4⟩
    · exact ((sortBy_perm _ _).pairwise_iff
        (fun hxy => bondsDisjoint_symm hxy)).mpr hdisjAll
    · exact sortBy_pairwise
        (fun (a b : ResonanceSystem) => lexLe a.bonds b.bonds)
        (fun a b c h1 h2 => lexLe_trans _ _ _ h1 h2)
        (fun a b => lexLe_total _ _) _

/-- Witness for C5 at the benzene ring perception: the hypotheses hold
and the invariants follow. -/
theorem find_systems_invariants_witness :
    ((benzRing.bonds.map (fun b => b.id)).Nodup ∧
      (∀ pr ∈ benzRing.bond_id_to_index, pr.2 < benzRing.bonds.length)) ∧
    ((∀ s ∈ find_systems benzRing,
      s.atoms ≠ [] ∧ s.bonds ≠ [] ∧
      s.atoms.Pairwise (fun a b => a < b) ∧
      s.bonds.Pairwise (fun a b => a < b)) ∧
    (find_systems benzRing).Pairwise bondsDisjoint ∧
    (find_systems benzRing).Pairwise
      (fun s t => lexLe s.bonds t.bonds = true)) :=
  ⟨⟨by decide, by decide⟩,
    find_systems_invariants benzRing (by decide) (by decide)⟩

/-! ## Claim C2: helper lemmas for the Kekulizer -/

theorem updateNth_oob {α : Type} (l : List α) (i : Nat) (f : α → α)
    (h : l.length ≤ i) : updateNth l i f = l := by
  unfold updateNth
  rw [List.get?_eq_none.mpr h]

theorem updateNth_updateNth_same {α : Type} :
    ∀ (l : List α) (i : Nat) (f g : α → α),
      updateNth (updateNth l i f) i g = updateNth l i (fun x => g (f x))
  | [], _, _, _ => rfl
  | x :: xs, 0, f, g => by simp
  | x :: xs, i + 1, f, g => by
    simp only [updateNth_cons_succ]
    rw [updateNth_updateNth_same xs i f g]

theorem setKekule_length (bs : List PerceivedBond) (i : Nat)
    (v : Option BondOrder) : (setKekule bs i v).length = bs.length :=
  updateNth_length _ _ _

theorem getD_setKekule_self (bs : List PerceivedBond) (i : Nat)
    (v : Option BondOrder) (h : i < bs.length) :
    (setKekule bs i v).getD i default =
      { bs.getD i default with kekule_order := v } :=
  getD_updateNth_self _ _ _ _ h

theorem getD_setKekule_ne (bs : List PerceivedBond) (j i : Nat)
    (v : Option BondOrder) (h : j ≠ i) :
    (setKekule bs j v).getD i default = bs.getD i default :=
  getD_updateNth_ne _ _ _ _ _ h

theorem setKekule_setKekule (bs : List PerceivedBond) (i : Nat)
    (v w : Option BondOrder) :
    setKekule (setKekule bs i v) i w = setKekule bs i w := by
  unfold setKekule
  rw [updateNth_updateNth_same]

theorem setKekule_noop :
    ∀ (bs : List PerceivedBond) (i : Nat) (v : Option BondOrder),
      (bs.getD i default).kekule_order = v → setKekule bs i v = bs
  | [], _, _, _ => rfl
  | b :: bs, 0, v, h => by
    unfold setKekule
    rw [updateNth_cons_zero]
    have hb : b.kekule_order = v := by simpa using h
    cases b
    simp only at hb
    simp [hb]
  | b :: bs, i + 1, v, h => by
    unfold setKekule
    rw [updateNth_cons_succ]
    have := setKekule_noop bs i v (by simpa using h)
    unfold setKekule at this
    rw [this]

theorem decr_decr_bump_bump (c : AtomId → Nat) (s e : AtomId) :
    decrCount (decrCount (bumpCount (bumpCount c s) e) s) e = c := by
  funext x
  simp only [decrCount, bumpCount]
  split_ifs <;> omega

/-- Endpoint slots of a bond at atom id `a` (a self-loop counts twice,
exactly as the backtracker bumps its counter twice). -/
def slotContrib (b : PerceivedBond) (a : AtomId) : Nat :=
  (if b.start_atom_id = a then 1 else 0) + (if b.end_atom_id = a then 1 else 0)

/-- Double-kekulé endpoint slots at `a` contributed by the bonds listed
in `todo`. -/
def newSlots (bs : List PerceivedBond) (todo : List Nat) (a : AtomId) : Nat :=
  (todo.map (fun i =>
    if (bs.getD i default).kekule_order = some .Double then
      slotContrib (bs.getD i default) a
    else 0)).sum

/-- Indicator: the bond at index `i` is kekulé-Double and incident to `a`. -/
def dblAt (bs : List PerceivedBond) (a : AtomId) (i : Nat) : Nat :=
  if (bs.getD i default).kekule_order = some .Double ∧
      ((bs.getD i default).start_atom_id = a ∨
        (bs.getD i default).end_atom_id = a) then 1 else 0

/-- Number of double-kekulé bonds among `todo` incident to `a`. -/
def newDbl (bs : List PerceivedBond) (todo : List Nat) (a : AtomId) : Nat :=
  (todo.map (dblAt bs a)).sum

theorem dblAt_le_slot (bs : List PerceivedBond) (a : AtomId) (i : Nat) :
    dblAt bs a i ≤
      (if (bs.getD i default).kekule_order = some .Double then
        slotContrib (bs.getD i default) a else 0) := by
  unfold dblAt slotContrib
  by_cases hd : (bs.getD i default).kekule_order = some .Double
  · rw [if_pos hd]
    by_cases hinc : ((bs.getD i default).start_atom_id = a ∨
        (bs.getD i default).end_atom_id = a)
    · rw [if_pos ⟨hd, hinc⟩]
      rcases hinc with h | h
      · rw [if_pos h]
        omega
      · rw [if_pos h]
        omega
    · rw [if_neg (fun hc => hinc hc.2)]
      omega
  · rw [if_neg (fun hc => hd hc.1), if_neg hd]

theorem newDbl_le_newSlots (bs : List PerceivedBond) (todo : List Nat)
    (a : AtomId) : newDbl bs todo a ≤ newSlots bs todo a := by
  unfold newDbl newSlots
  exact List.sum_le_sum (fun i _ => dblAt_le_slot bs a i)

theorem newSlots_congr (bs bs' : List PerceivedBond) (todo : List Nat)
    (a : AtomId) (h : ∀ i ∈ todo, bs.getD i default = bs'.getD i default) :
    newSlots bs todo a = newSlots bs' todo a := by
  unfold newSlots
  congr 1
  refine List.map_congr_left ?_
  intro i hi
  rw [h i hi]

theorem newDbl_congr (bs bs' : List PerceivedBond) (todo : List Nat)
    (a : AtomId) (h : ∀ i ∈ todo, bs.getD i default = bs'.getD i default) :
    newDbl bs todo a = newDbl bs' todo a := by
  unfold newDbl
  congr 1
  refine List.map_congr_left ?_
  intro i hi
  unfold dblAt
  rw [h i hi]

theorem sum_map_add {α : Type} (f g : α → Nat) :
    ∀ (l : List α), (l.map (fun x => f x + g x)).sum =
      (l.map f).sum + (l.map g).sum
  | [] => rfl
  | x :: xs => by
    simp only [List.map_cons, List.sum_cons, sum_map_add f g xs]
    omega

/-- Number of `false` entries of a visited vector. -/
def countFalse : List Bool → Nat
  | [] => 0
  | b :: l => (if b then 0 else 1) + countFalse l

theorem countFalse_le_length : ∀ (l : List Bool), countFalse l ≤ l.length
  | [] => Nat.le_refl 0
  | b :: l => by
    unfold countFalse
    have := countFalse_le_length l
    cases b <;> simp <;> omega

theorem countFalse_set_true :
    ∀ (l : List Bool) (k : Nat), k < l.length → l.getD k false = false →
      countFalse (l.set k true) + 1 = countFalse l
  | [], k, h, _ => absurd h (by simp)
  | b :: l, 0, _, hb => by
    have hb2 : b = false := by simpa using hb
    subst hb2
    simp only [List.set_cons_zero, countFalse, if_pos, if_neg]
    simp
    omega
  | b :: l, k + 1, h, hb => by
    simp only [List.set_cons_succ, countFalse]
    have := countFalse_set_true l k (by simpa using h) (by simpa using hb)
    omega

/-- Lists of perceived bonds that agree in everything except possibly
the kekulé orders. -/
def sameShape (bs1 bs2 : List PerceivedBond) : Prop :=
  bs1.length = bs2.length ∧
  ∀ j, (bs1.getD j default).start_atom_id = (bs2.getD j default).start_atom_id ∧
    (bs1.getD j default).end_atom_id = (bs2.getD j default).end_atom_id ∧
    (bs1.getD j default).is_aromatic = (bs2.getD j default).is_aromatic ∧
    (bs1.getD j default).id = (bs2.getD j default).id

theorem sameShape_refl (bs : List PerceivedBond) : sameShape bs bs :=
  ⟨rfl, fun _ => ⟨rfl, rfl, rfl, rfl⟩⟩

theorem sameShape_trans {a b c : List PerceivedBond}
    (h1 : sameShape a b) (h2 : sameShape b c) : sameShape a c := by
  obtain ⟨hl1, hf1⟩ := h1
  obtain ⟨hl2, hf2⟩ := h2
  refine ⟨hl1.trans hl2, fun j => ?_⟩
  obtain ⟨x1, x2, x3, x4⟩ := hf1 j
  obtain ⟨y1, y2, y3, y4⟩ := hf2 j
  exact ⟨x1.trans y1, x2.trans y2, x3.trans y3, x4.trans y4⟩

theorem sameShape_setKekule (bs : List PerceivedBond) (i : Nat)
    (v : Option BondOrder) : sameShape bs (setKekule bs i v) := by
  refine ⟨(setKekule_length bs i v).symm, fun j => ?_⟩
  by_cases hij : i = j
  · subst hij
    by_cases hlt : i < bs.length
    · rw [getD_setKekule_self bs i v hlt]
      exact ⟨rfl, rfl, rfl, rfl⟩
    · have : setKekule bs i v = bs := updateNth_oob _ _ _ (by omega)
      rw [this]
      exact ⟨rfl, rfl, rfl, rfl⟩
  · rw [getD_setKekule_ne bs i j v hij]
    exact ⟨rfl, rfl, rfl, rfl⟩

theorem sum_range_single (f : Nat → Nat) :
    ∀ (n i : Nat), i < n →
      ((List.range n).map (fun j => if j = i then f j else 0)).sum = f i := by
  intro n
  induction n with
  | zero => intro i h; omega
  | succ n ih =>
    intro i h
    rw [List.range_succ, List.map_append, List.sum_append]
    by_cases hi : i = n
    · subst hi
      have hz : ((List.range i).map (fun j => if j = i then f j else 0)).sum
          = 0 := by
        refine List.sum_eq_zero ?_
        intro x hx
        obtain ⟨j, hj, hje⟩ := List.mem_map.mp hx
        have : j < i := List.mem_range.mp hj
        rw [if_neg (by omega)] at hje
        omega
      rw [hz]
      simp
    · have hil : i < n := by omega
      rw [ih i hil]
      simp only [List.map_cons, List.map_nil, List.sum_cons, List.sum_nil]
      rw [if_neg (by omega)]
      omega

theorem sum_range_indicator (f : Nat → Nat) :
    ∀ (todo : List Nat) (n : Nat), todo.Nodup → (∀ i ∈ todo, i < n) →
      ((List.range n).map (fun j => if j ∈ todo then f j else 0)).sum =
        (todo.map f).sum
  | [], n, _, _ => by simp
  | i :: rest, n, hnd, hb => by
    have hnotin : i ∉ rest := (List.nodup_cons.mp hnd).1
    have hsplit : ∀ j, (if j ∈ i :: rest then f j else 0) =
        (if j = i then f j else 0) + (if j ∈ rest then f j else 0) := by
      intro j
      by_cases hji : j = i
      · subst hji
        rw [if_pos (List.mem_cons_self _ _), if_pos rfl,
          if_neg hnotin]
        omega
      · by_cases hjr : j ∈ rest
        · rw [if_pos (List.mem_cons_of_mem _ hjr), if_neg hji, if_pos hjr]
          omega
        · rw [if_neg (by simp [hji, hjr]), if_neg hji, if_neg hjr]
    calc ((List.range n).map (fun j => if j ∈ i :: rest then f j else 0)).sum
        = ((List.range n).map (fun j =>
            (if j = i then f j else 0) + (if j ∈ rest then f j else 0))).sum := by
          congr 1
          exact List.map_congr_left (fun j _ => hsplit j)
      _ = ((List.range n).map (fun j => if j = i then f j else 0)).sum +
          ((List.range n).map (fun j => if j ∈ rest then f j else 0)).sum :=
          sum_map_add _ _ _
      _ = f i + (rest.map f).sum := by
          rw [sum_range_single f n i (hb i (List.mem_cons_self _ _)),
            sum_range_indicator f rest n (List.nodup_cons.mp hnd).2
              (fun k hk => hb k (List.mem_cons_of_mem _ hk))]
      _ = ((i :: rest).map f).sum := by simp

theorem length_filter_eq_sum {α : Type} [Inhabited α] (f : α → Bool) :
    ∀ (l : List α), (l.filter f).length =
      ((List.range l.length).map
        (fun j => if f (l.getD j default) = true then 1 else 0)).sum
  | [] => rfl
  | x :: xs => by
    rw [List.length_cons, List.range_succ_eq_map, List.map_cons,
      List.map_map, List.sum_cons]
    have htail : (List.map
        ((fun j => if f ((x :: xs).getD j default) = true then 1 else 0) ∘
          Nat.succ) (List.range xs.length)).sum =
        ((List.range xs.length).map
          (fun j => if f (xs.getD j default) = true then 1 else 0)).sum := by
      congr 1
    rw [htail, ← length_filter_eq_sum f xs]
    simp only [List.getD_cons_zero, List.filter_cons]
    by_cases hf : f x = true
    · rw [if_pos hf, if_pos hf]
      simp [Nat.add_comm]
    · rw [if_neg hf, if_neg hf]
      simp

theorem length_filter_le_of_imp {α : Type} (f g : α → Bool)
    (himp : ∀ x, f x = true → g x = true) :
    ∀ (l : List α), (l.filter f).length ≤ (l.filter g).length
  | [] => Nat.le_refl 0
  | x :: xs => by
    have ih := length_filter_le_of_imp f g himp xs
    simp only [List.filter_cons]
    cases hf : f x with
    | true =>
      rw [himp x hf]
      simpa using ih
    | false =>
      cases hg : g x <;> simp <;> omega

theorem newSlots_cons (bs : List PerceivedBond) (i : Nat) (rest : List Nat)
    (a : AtomId) : newSlots bs (i :: rest) a =
      (if (bs.getD i default).kekule_order = some .Double then
        slotContrib (bs.getD i default) a else 0) + newSlots bs rest a := by
  simp [newSlots]

theorem newDbl_cons (bs : List PerceivedBond) (i : Nat) (rest : List Nat)
    (a : AtomId) : newDbl bs (i :: rest) a = dblAt bs a i + newDbl bs rest a := by
  simp [newDbl]

theorem bump_eval (c : AtomId → Nat) (s a : AtomId) :
    bumpCount c s a = c a + (if s = a then 1 else 0) := by
  unfold bumpCount
  by_cases h : a = s
  · rw [if_pos h, if_pos h.symm]
  · rw [if_neg h, if_neg (fun he => h he.symm)]
    omega

/-- Core soundness of the backtracker: on failure the bonds and counters
are restored exactly; indices outside the worklist are never touched;
and on success every worklist bond is assigned Single or Double, the
counters track the new double-bond endpoint slots, a freshly doubled
atom had a zero counter at entry, and no atom gains two new doubles. -/
theorem kekule_backtrack_sound :
    ∀ (todo : List Nat) (bonds : List PerceivedBond) (counts : AtomId → Nat)
      (att : Nat),
      todo.Nodup →
      (∀ i ∈ todo, i < bonds.length ∧
        (bonds.getD i default).kekule_order = none) →
      ((kekule_backtrack bonds todo counts att).1 = false →
        (kekule_backtrack bonds todo counts att).2.1 = bonds ∧
        (kekule_backtrack bonds todo counts att).2.2.1 = counts) ∧
      (∀ j, j ∉ todo →
        (kekule_backtrack bonds todo counts att).2.1.getD j default =
          bonds.getD j default) ∧
      (kekule_backtrack bonds todo counts att).2.1.length = bonds.length ∧
      ((kekule_backtrack bonds todo counts att).1 = true →
        (∀ i ∈ todo,
          ((kekule_backtrack bonds todo counts att).2.1.getD i
            default).kekule_order = some .Single ∨
          ((kekule_backtrack bonds todo counts att).2.1.getD i
            default).kekule_order = some .Double) ∧
        (∀ a, (kekule_backtrack bonds todo counts att).2.2.1 a =
            counts a +
              newSlots (kekule_backtrack bonds todo counts att).2.1 todo a ∧
          (0 < newSlots (kekule_backtrack bonds todo counts att).2.1 todo a →
            counts a = 0) ∧
          newDbl (kekule_backtrack bonds todo counts att).2.1 todo a ≤ 1))
  | [], bonds, counts, att, _, _ => by
    simp only [kekule_backtrack]
    refine ⟨fun hf => absurd hf (by simp), fun j _ => by trivial, by trivial,
      fun _ => ?_⟩
    refine ⟨fun i hi => absurd hi (by simp), fun a => ?_⟩
    refine ⟨by simp [newSlots], fun hp => absurd hp (by simp [newSlots]),
      by simp [newDbl]⟩
  | idx :: rest, bonds, counts, att, hnd, hall => by
    have hndr : rest.Nodup := (List.nodup_cons.mp hnd).2
    have hni : idx ∉ rest := (List.nodup_cons.mp hnd).1
    have hidx := hall idx (List.mem_cons_self _ _)
    simp only [kekule_backtrack]
    by_cases hlim : KEKULIZATION_ATTEMPT_LIMIT ≤ att
    · rw [if_pos hlim]
      refine ⟨fun _ => ⟨rfl, rfl⟩, fun j _ => rfl, rfl,
        fun ht => absurd ht (by simp)⟩
    · rw [if_neg hlim]
      by_cases hd : (counts (bonds.getD idx default).start_atom_id = 0 ∧
          counts (bonds.getD idx default).end_atom_id = 0)
      · rw [if_pos hd]
        have hallD : ∀ i ∈ rest,
            i < (setKekule bonds idx (some .Double)).length ∧
            ((setKekule bonds idx (some .Double)).getD i
              default).kekule_order = none := by
          intro i hi
          have := hall i (List.mem_cons_of_mem _ hi)
          refine ⟨by rw [setKekule_length]; exact this.1, ?_⟩
          rw [getD_setKekule_ne _ _ _ _
            (fun he => hni (by rw [he]; exact hi))]
          exact this.2
        have ihD := kekule_backtrack_sound rest
          (setKekule bonds idx (some .Double))
          (bumpCount (bumpCount counts (bonds.getD idx default).start_atom_id)
            (bonds.getD idx default).end_atom_id) (att + 1) hndr hallD
        set b0 := bonds.getD idx default with hb0
        set B1 := setKekule bonds idx (some .Double) with hB1
        set c1 := bumpCount (bumpCount counts b0.start_atom_id)
          b0.end_atom_id with hc1
        set rD := kekule_backtrack B1 rest c1 (att + 1) with hrDdef
        obtain ⟨ihDf, ihDu, ihDl, ihDok⟩ := ihD
        have hc1eval : ∀ a, c1 a = counts a +
            ((if b0.start_atom_id = a then 1 else 0) +
              (if b0.end_atom_id = a then 1 else 0)) := by
          intro a
          rw [hc1, bump_eval, bump_eval]
          omega
        by_cases hok : rD.1 = true
        · rw [if_pos hok]
          obtain ⟨ihm, ihc⟩ := ihDok hok
          have hDatIdx : rD.2.1.getD idx default =
              { b0 with kekule_order := some .Double } := by
            rw [ihDu idx hni, hB1]
            exact getD_setKekule_self bonds idx _ hidx.1
          refine ⟨fun hf => absurd hok (by rw [hf]; simp), ?_, ?_, fun _ => ?_⟩
          · intro j hj
            rw [ihDu j (fun hjr => hj (List.mem_cons_of_mem _ hjr)), hB1,
              getD_setKekule_ne _ _ _ _
                (fun he => hj (by rw [he]; exact List.mem_cons_self _ _))]
          · rw [ihDl, hB1, setKekule_length]
          refine ⟨?_, ?_⟩
          · intro i hi
            rcases List.mem_cons.mp hi with hie | hir
            · subst hie
              right
              rw [hDatIdx]
            · exact ihm i hir
          · intro a
            obtain ⟨h1, h2, h3⟩ := ihc a
            have hslot : (if (rD.2.1.getD idx default).kekule_order =
                some BondOrder.Double then
                slotContrib (rD.2.1.getD idx default) a else 0) =
                (if b0.start_atom_id = a then 1 else 0) +
                  (if b0.end_atom_id = a then 1 else 0) := by
              rw [hDatIdx]
              rw [if_pos rfl]
              rfl
            refine ⟨?_, ?_, ?_⟩
            · rw [newSlots_cons, hslot, h1, hc1eval a]
              omega
            · rw [newSlots_cons, hslot]
              intro hp
              by_cases hinc : (b0.start_atom_id = a ∨ b0.end_atom_id = a)
              · rcases hinc with he | he
                · rw [← he]
                  exact hd.1
                · rw [← he]
                  exact hd.2
              · have hz : (if b0.start_atom_id = a then 1 else 0) +
                    (if b0.end_atom_id = a then 1 else 0) = 0 := by
                  rw [if_neg (fun hc => hinc (Or.inl hc)),
                    if_neg (fun hc => hinc (Or.inr hc))]
                rw [hz] at hp
                have hc0 : c1 a = 0 := h2 (by omega)
                have := hc1eval a
                omega
            · rw [newDbl_cons]
              have hdbl : dblAt rD.2.1 a idx =
                  if (b0.start_atom_id = a ∨ b0.end_atom_id = a) then 1
                  else 0 := by
                unfold dblAt
                rw [hDatIdx]
                by_cases hinc : (b0.start_atom_id = a ∨ b0.end_atom_id = a)
                · rw [if_pos ⟨rfl, hinc⟩, if_pos hinc]
                · rw [if_neg (fun hc => hinc hc.2), if_neg hinc]
              rw [hdbl]
              by_cases hinc : (b0.start_atom_id = a ∨ b0.end_atom_id = a)
              · rw [if_pos hinc]
                have hrest0 : newDbl rD.2.1 rest a = 0 := by
                  by_contra hc
                  have hp : 0 < newDbl rD.2.1 rest a := by omega
                  have hsp : 0 < newSlots rD.2.1 rest a :=
                    lt_of_lt_of_le hp (newDbl_le_newSlots _ _ _)
                  have hc0 : c1 a = 0 := h2 hsp
                  have := hc1eval a
                  rcases hinc with he | he <;> rw [he] at this <;>
                    simp at this <;> omega
                omega
              · rw [if_neg hinc]
                omega
        · rw [if_neg hok]
          have hDf := ihDf (Bool.eq_false_iff.mpr hok)
          have hbU : setKekule rD.2.1 idx none = bonds := by
            rw [hDf.1, hB1, setKekule_setKekule]
            exact setKekule_noop bonds idx none hidx.2
          have hcU : decrCount (decrCount rD.2.2.1 b0.start_atom_id)
              b0.end_atom_id = counts := by
            rw [hDf.2, hc1]
            exact decr_decr_bump_bump counts _ _
          rw [hbU, hcU]
          have hallS : ∀ i ∈ rest,
              i < (setKekule bonds idx (some .Single)).length ∧
              ((setKekule bonds idx (some .Single)).getD i
                default).kekule_order = none := by
            intro i hi
            have := hall i (List.mem_cons_of_mem _ hi)
            refine ⟨by rw [setKekule_length]; exact this.1, ?_⟩
            rw [getD_setKekule_ne _ _ _ _
              (fun he => hni (by rw [he]; exact hi))]
            exact this.2
          have ihS := kekule_backtrack_sound rest
            (setKekule bonds idx (some .Single)) counts rD.2.2.2 hndr hallS
          set S1 := setKekule bonds idx (some .Single) with hS1
          set rS := kekule_backtrack S1 rest counts rD.2.2.2 with hrSdef
          obtain ⟨ihSf, ihSu, ihSl, ihSok⟩ := ihS
          have hSatIdx : rS.2.1.getD idx default =
              { b0 with kekule_order := some .Single } := by
            rw [ihSu idx hni, hS1]
            exact getD_setKekule_self bonds idx _ hidx.1
          by_cases hokS : rS.1 = true
          · rw [if_pos hokS]
            obtain ⟨ihm, ihc⟩ := ihSok hokS
            refine ⟨fun hf => absurd hokS (by rw [hf]; simp), ?_, ?_,
              fun _ => ?_⟩
            · intro j hj
              rw [ihSu j (fun hjr => hj (List.mem_cons_of_mem _ hjr)), hS1,
                getD_setKekule_ne _ _ _ _
                  (fun he => hj (by rw [he]; exact List.mem_cons_self _ _))]
            · rw [ihSl, hS1, setKekule_length]
            refine ⟨?_, ?_⟩
            · intro i hi
              rcases List.mem_cons.mp hi with hie | hir
              · subst hie
                left
                rw [hSatIdx]
              · exact ihm i hir
            · intro a
              obtain ⟨h1, h2, h3⟩ := ihc a
              have hslot : (if (rS.2.1.getD idx default).kekule_order =
                  some BondOrder.Double then
                  slotContrib (rS.2.1.getD idx default) a else 0) = 0 := by
                rw [hSatIdx]
                rw [if_neg (by simp)]
              have hdbl : dblAt rS.2.1 a idx = 0 := by
                unfold dblAt
                rw [hSatIdx]
                rw [if_neg (by simp)]
              refine ⟨?_, ?_, ?_⟩
              · rw [newSlots_cons, hslot, h1]
                omega
              · rw [newSlots_cons, hslot]
                intro hp
                exact h2 (by omega)
              · rw [newDbl_cons, hdbl]
                omega
          · rw [if_neg hokS]
            have hSf := ihSf (Bool.eq_false_iff.mpr hokS)
            have hbU2 : setKekule rS.2.1 idx none = bonds := by
              rw [hSf.1, hS1, setKekule_setKekule]
              exact setKekule_noop bonds idx none hidx.2
            rw [hbU2, hSf.2]
            refine ⟨fun _ => ⟨rfl, rfl⟩, fun j _ => rfl, rfl,
              fun ht => absurd ht (by simp)⟩
      · rw [if_neg hd]
        have hallS : ∀ i ∈ rest,
            i < (setKekule bonds idx (some .Single)).length ∧
            ((setKekule bonds idx (some .Single)).getD i
              default).kekule_order = none := by
          intro i hi
          have := hall i (List.mem_cons_of_mem _ hi)
          refine ⟨by rw [setKekule_length]; exact this.1, ?_⟩
          rw [getD_setKekule_ne _ _ _ _
            (fun he => hni (by rw [he]; exact hi))]
          exact this.2
        have ihS := kekule_backtrack_sound rest
          (setKekule bonds idx (some .Single)) counts (att + 1) hndr hallS
        set b0 := bonds.getD idx default with hb0
        set S1 := setKekule bonds idx (some .Single) with hS1
        set rS := kekule_backtrack S1 rest counts (att + 1) with hrSdef
        obtain ⟨ihSf, ihSu, ihSl, ihSok⟩ := ihS
        have hSatIdx : rS.2.1.getD idx default =
            { b0 with kekule_order := some .Single } := by
          rw [ihSu idx hni, hS1]
          exact getD_setKekule_self bonds idx _ hidx.1
        by_cases hokS : rS.1 = true
        · rw [if_pos hokS]
          obtain ⟨ihm, ihc⟩ := ihSok hokS
          refine ⟨fun hf => absurd hokS (by rw [hf]; simp), ?_, ?_,
            fun _ => ?_⟩
          · intro j hj
            rw [ihSu j (fun hjr => hj (List.mem_cons_of_mem _ hjr)), hS1,
              getD_setKekule_ne _ _ _ _
                (fun he => hj (by rw [he]; exact List.mem_cons_self _ _))]
          · rw [ihSl, hS1, setKekule_length]
          refine ⟨?_, ?_⟩
          · intro i hi
            rcases List.mem_cons.mp hi with hie | hir
            · subst hie
              left
              rw [hSatIdx]
            · exact ihm i hir
          · intro a
            obtain ⟨h1, h2, h3⟩ := ihc a
            have hslot : (if (rS.2.1.getD idx default).kekule_order =
                some BondOrder.Double then
                slotContrib (rS.2.1.getD idx default) a else 0) = 0 := by
              rw [hSatIdx]
              rw [if_neg (by simp)]
            have hdbl : dblAt rS.2.1 a idx = 0 := by
              unfold dblAt
              rw [hSatIdx]
              rw [if_neg (by simp)]
            refine ⟨?_, ?_, ?_⟩
            · rw [newSlots_cons, hslot, h1]
              omega
            · rw [newSlots_cons, hslot]
              intro hp
              exact h2 (by omega)
            · rw [newDbl_cons, hdbl]
              omega
        · rw [if_neg hokS]
          have hSf := ihSf (Bool.eq_false_iff.mpr hokS)
          have hbU2 : setKekule rS.2.1 idx none = bonds := by
            rw [hSf.1, hS1, setKekule_setKekule]
            exact setKekule_noop bonds idx none hidx.2
          rw [hbU2, hSf.2]
          refine ⟨fun _ => ⟨rfl, rfl⟩, fun j _ => rfl, rfl,
            fun ht => absurd ht (by simp)⟩

/-- The neighbour-visiting body of the component BFS (the fold body of
`collect_aromatic_component`, written out as a named function). -/
def collectRowBody (p : ChemicalPerception) (st : List Nat × List Bool)
    (entry : Nat × BondId) : List Nat × List Bool :=
  match mapLookup p.bond_id_to_index entry.2 with
  | none => st
  | some nb_idx =>
    if !(bondGet p nb_idx).is_aromatic || st.2.getD nb_idx false then st
    else (st.1 ++ [nb_idx], st.2.set nb_idx true)

/-- One endpoint of the popped bond: resolve the atom and fold over its
adjacency row. -/
def collectEndpointBody (p : ChemicalPerception) (st : List Nat × List Bool)
    (atom_id : AtomId) : List Nat × List Bool :=
  match mapLookup p.atom_id_to_index atom_id with
  | none => st
  | some atom_idx => (adjGet p atom_idx).foldl (collectRowBody p) st

theorem collectAromComp_step_eq (p : ChemicalPerception) (fuel : Nat)
    (bond_idx : Nat) (rest : List Nat) (visited : List Bool)
    (acc : List Nat) :
    collectAromComp p (fuel + 1) (bond_idx :: rest) visited acc =
      collectAromComp p fuel
        (([(bondGet p bond_idx).start_atom_id,
          (bondGet p bond_idx).end_atom_id].foldl (collectEndpointBody p)
            (rest, visited)).1)
        (([(bondGet p bond_idx).start_atom_id,
          (bondGet p bond_idx).end_atom_id].foldl (collectEndpointBody p)
            (rest, visited)).2)
        (acc ++ [bond_idx]) := rfl

theorem getD_set_true_mono :
    ∀ (l : List Bool) (i k : Nat), l.getD k false = true →
      (l.set i true).getD k false = true
  | [], _, _, h => by simpa using h
  | b :: l, 0, 0, _ => by simp
  | b :: l, 0, k + 1, h => by simpa using h
  | b :: l, i + 1, 0, h => by simpa using h
  | b :: l, i + 1, k + 1, h => by
    simp only [List.set_cons_succ, List.getD_cons_succ]
    exact getD_set_true_mono l i k (by simpa using h)

theorem collectRowBody_mono (p : ChemicalPerception)
    (st : List Nat × List Bool) (entry : Nat × BondId) (k : Nat)
    (h : st.2.getD k false = true) :
    ((collectRowBody p st entry).2.getD k false = true) := by
  unfold collectRowBody
  cases hl : mapLookup p.bond_id_to_index entry.2 with
  | none => exact h
  | some nb =>
    simp only
    split
    · exact h
    · exact getD_set_true_mono _ _ _ h

theorem collectRowBody_len (p : ChemicalPerception)
    (st : List Nat × List Bool) (entry : Nat × BondId) :
    (collectRowBody p st entry).2.length = st.2.length := by
  unfold collectRowBody
  cases hl : mapLookup p.bond_id_to_index entry.2 with
  | none => rfl
  | some nb =>
    simp only
    split
    · rfl
    · simp

theorem collectRow_mono (p : ChemicalPerception) :
    ∀ (row : List (Nat × BondId)) (st : List Nat × List Bool) (k : Nat),
      st.2.getD k false = true →
      ((row.foldl (collectRowBody p) st).2.getD k false = true)
  | [], _, _, h => h
  | e :: row, st, k, h =>
    collectRow_mono p row (collectRowBody p st e) k
      (collectRowBody_mono p st e k h)

theorem collectRow_len (p : ChemicalPerception) :
    ∀ (row : List (Nat × BondId)) (st : List Nat × List Bool),
      (row.foldl (collectRowBody p) st).2.length = st.2.length
  | [], _ => rfl
  | e :: row, st => by
    rw [List.foldl_cons, collectRow_len p row, collectRowBody_len]

theorem collectEndpointBody_mono (p : ChemicalPerception)
    (st : List Nat × List Bool) (a : AtomId) (k : Nat)
    (h : st.2.getD k false = true) :
    ((collectEndpointBody p st a).2.getD k false = true) := by
  unfold collectEndpointBody
  cases hl : mapLookup p.atom_id_to_index a with
  | none => exact h
  | some ai => exact collectRow_mono p _ st k h

theorem collectEndpointBody_len (p : ChemicalPerception)
    (st : List Nat × List Bool) (a : AtomId) :
    (collectEndpointBody p st a).2.length = st.2.length := by
  unfold collectEndpointBody
  cases hl : mapLookup p.atom_id_to_index a with
  | none => rfl
  | some ai => exact collectRow_len p _ st

theorem collectRow_marks (p : ChemicalPerception) (k : Nat)
    (harom : (bondGet p k).is_aromatic = true) :
    ∀ (row : List (Nat × BondId)) (st : List Nat × List Bool),
      k < st.2.length →
      (∃ e ∈ row, mapLookup p.bond_id_to_index e.2 = some k) →
      ((row.foldl (collectRowBody p) st).2.getD k false = true)
  | [], _, _, he => absurd he (by simp)
  | e :: row, st, hk, he => by
    rw [List.foldl_cons]
    obtain ⟨e1, he1, hl1⟩ := he
    rcases List.mem_cons.mp he1 with h1 | h1
    · subst h1
      have hmarked : ((collectRowBody p st e1).2.getD k false = true) := by
        unfold collectRowBody
        rw [hl1]
        simp only
        by_cases hv : st.2.getD k false = true
        · split
          · exact hv
          · exact getD_set_true_mono _ _ _ hv
        · have hvf : st.2.getD k false = false := by
            cases hx : st.2.getD k false with
            | true => exact absurd hx hv
            | false => rfl
          rw [if_neg (by rw [harom, hvf]; simp)]
          exact getD_set_self _ _ _ _ hk
      exact collectRow_mono p row _ k hmarked
    · refine collectRow_marks p k harom row (collectRowBody p st e) ?_
        ⟨e1, h1, hl1⟩
      rw [collectRowBody_len]
      exact hk

theorem collectEndpoints_marks (p : ChemicalPerception) (k : Nat)
    (harom : (bondGet p k).is_aromatic = true)
    (s e a ai : Nat) (ha : a = s ∨ a = e)
    (hai : mapLookup p.atom_id_to_index a = some ai)
    (hrow : ∃ en ∈ adjGet p ai, mapLookup p.bond_id_to_index en.2 = some k)
    (st : List Nat × List Bool) (hk : k < st.2.length) :
    (([s, e].foldl (collectEndpointBody p) st).2.getD k false = true) := by
  have hstep : [s, e].foldl (collectEndpointBody p) st =
      collectEndpointBody p (collectEndpointBody p st s) e := rfl
  rw [hstep]
  rcases ha with h1 | h1
  · subst h1
    refine collectEndpointBody_mono p _ e k ?_
    unfold collectEndpointBody
    rw [hai]
    exact collectRow_marks p k harom _ st hk hrow
  · subst h1
    set st1 := collectEndpointBody p st s with hst1
    have hk2 : k < st1.2.length := by
      rw [hst1, collectEndpointBody_len]
      exact hk
    unfold collectEndpointBody
    rw [hai]
    exact collectRow_marks p k harom _ st1 hk2 hrow

/-- Invariant of the neighbour-pushing folds of the component BFS,
relative to the marking `visited0` at the start of the step. -/
def CollectInv (p : ChemicalPerception) (visited0 : List Bool)
    (restPart : List Nat) (st : List Nat × List Bool) : Prop :=
  st.2.length = visited0.length ∧
  (∀ k, visited0.getD k false = true → st.2.getD k false = true) ∧
  (∃ t, st.1 = restPart ++ t ∧ t.Nodup ∧
    (∀ k ∈ t, k < p.bonds.length ∧ st.2.getD k false = true ∧
      visited0.getD k false = false ∧ (bondGet p k).is_aromatic = true) ∧
    (∀ k, st.2.getD k false = true → visited0.getD k false = true ∨ k ∈ t) ∧
    countFalse st.2 + t.length = countFalse visited0)

theorem collectRowBody_inv (p : ChemicalPerception)
    (hmap : ∀ pr ∈ p.bond_id_to_index, pr.2 < p.bonds.length)
    (visited0 : List Bool) (hvl : visited0.length = p.bonds.length)
    (restPart : List Nat) (st : List Nat × List Bool) (entry : Nat × BondId)
    (hP : CollectInv p visited0 restPart st) :
    CollectInv p visited0 restPart (collectRowBody p st entry) := by
  obtain ⟨hlen, hmono, t, ht, htnd, htm, hdec, hcnt⟩ := hP
  unfold collectRowBody
  cases hl : mapLookup p.bond_id_to_index entry.2 with
  | none => exact ⟨hlen, hmono, t, ht, htnd, htm, hdec, hcnt⟩
  | some nb =>
    simp only
    by_cases hc : (!(bondGet p nb).is_aromatic ||
        st.2.getD nb false) = true
    · rw [if_pos hc]
      exact ⟨hlen, hmono, t, ht, htnd, htm, hdec, hcnt⟩
    · rw [if_neg hc]
      rw [Bool.or_eq_true, Bool.not_eq_true'] at hc
      push_neg at hc
      have harom : (bondGet p nb).is_aromatic = true := by
        cases hx : (bondGet p nb).is_aromatic with
        | true => rfl
        | false => exact absurd hx hc.1
      have hfresh : st.2.getD nb false = false := by
        cases hx : st.2.getD nb false with
        | true => exact absurd hx hc.2
        | false => rfl
      have hnb : nb < p.bonds.length := hmap (entry.2, nb) (mapLookup_mem hl)
      have hnbl : nb < st.2.length := by
        rw [hlen, hvl]
        exact hnb
      have hfresh0 : visited0.getD nb false = false := by
        cases hx : visited0.getD nb false with
        | true =>
          have := hmono nb hx
          rw [this] at hfresh
          exact absurd hfresh (by simp)
        | false => rfl
      have hnotint : nb ∉ t := by
        intro hmem
        have := (htm nb hmem).2.1
        rw [this] at hfresh
        exact absurd hfresh (by simp)
      refine ⟨by simpa using hlen, ?_, t ++ [nb], ?_, ?_, ?_, ?_, ?_⟩
      · intro k hk
        exact getD_set_true_mono _ _ _ (hmono k hk)
      · rw [ht, List.append_assoc]
      · rw [List.nodup_append]
        exact ⟨htnd, List.nodup_singleton _,
          fun x hx hx2 => hnotint (by rwa [show x = nb by simpa using hx2]
            at hx)⟩
      · intro k hk
        rcases List.mem_append.mp hk with h1 | h1
        · obtain ⟨h2, h3, h4, h5⟩ := htm k h1
          exact ⟨h2, getD_set_true_mono _ _ _ h3, h4, h5⟩
        · have hke : k = nb := by simpa using h1
          subst hke
          exact ⟨hnb, getD_set_self _ _ _ _ hnbl, hfresh0, harom⟩
      · intro k hk
        by_cases hknb : k = nb
        · subst hknb
          exact Or.inr (List.mem_append.mpr (Or.inr (by simp)))
        · rw [getD_set_ne _ _ _ _ _ (fun he => hknb he.symm)] at hk
          rcases hdec k hk with h1 | h1
          · exact Or.inl h1
          · exact Or.inr (List.mem_append.mpr (Or.inl h1))
      · have hcf := countFalse_set_true st.2 nb hnbl hfresh
        show countFalse (st.2.set nb true) + (t ++ [nb]).length =
          countFalse visited0
        rw [List.length_append, List.length_singleton]
        omega

theorem collectEndpointBody_inv (p : ChemicalPerception)
    (hmap : ∀ pr ∈ p.bond_id_to_index, pr.2 < p.bonds.length)
    (visited0 : List Bool) (hvl : visited0.length = p.bonds.length)
    (restPart : List Nat) (st : List Nat × List Bool) (a : AtomId)
    (hP : CollectInv p visited0 restPart st) :
    CollectInv p visited0 restPart (collectEndpointBody p st a) := by
  unfold collectEndpointBody
  cases hl : mapLookup p.atom_id_to_index a with
  | none => exact hP
  | some ai =>
    exact foldl_invariant (CollectInv p visited0 restPart) _ _ st hP
      (fun b e hb => collectRowBody_inv p hmap visited0 hvl restPart b e hb)

theorem collectStep_inv (p : ChemicalPerception)
    (hmap : ∀ pr ∈ p.bond_id_to_index, pr.2 < p.bonds.length)
    (rest : List Nat) (visited : List Bool)
    (hvl : visited.length = p.bonds.length) (endpoints : List AtomId) :
    CollectInv p visited rest
      (endpoints.foldl (collectEndpointBody p) (rest, visited)) := by
  refine foldl_invariant (CollectInv p visited rest) _ _ (rest, visited)
    ⟨rfl, fun k hk => hk, [], by simp, List.nodup_nil,
      fun k hk => absurd hk (by simp), fun k hk => Or.inl hk, by simp⟩ ?_
  intro st a hP
  exact collectEndpointBody_inv p hmap visited hvl rest st a hP

/-- Full specification of the component BFS: with enough fuel
(one unit per possible pop) the queue drains completely, so the marking
grows exactly by the popped bonds, every popped bond beyond the seed
queue is an in-bounds fresh aromatic bond, and every aromatic bond
reachable through an adjacency row of an endpoint of a popped bond ends
up marked. -/
theorem collectAromComp_spec (p : ChemicalPerception)
    (hmap : ∀ pr ∈ p.bond_id_to_index, pr.2 < p.bonds.length)
    (B : Nat → Prop) :
    ∀ (fuel : Nat) (queue : List Nat) (visited : List Bool) (acc : List Nat),
      visited.length = p.bonds.length →
      queue.Nodup →
      (∀ k ∈ queue, k < p.bonds.length ∧ visited.getD k false = true) →
      (∀ k, visited.getD k false = true → k ∈ queue ∨ k ∈ acc ∨ B k) →
      queue.length + countFalse visited ≤ fuel →
      (collectAromComp p fuel queue visited acc).2.length =
          p.bonds.length ∧
      (∀ k, visited.getD k false = true →
        (collectAromComp p fuel queue visited acc).2.getD k false = true) ∧
      (∀ k, (collectAromComp p fuel queue visited acc).2.getD k false = true →
        k ∈ (collectAromComp p fuel queue visited acc).1 ∨ B k) ∧
      (∃ t, (collectAromComp p fuel queue visited acc).1 = acc ++ t ∧
        t.Nodup ∧
        (∀ k ∈ queue, k ∈ t) ∧
        (∀ k ∈ t, k < p.bonds.length ∧
          (collectAromComp p fuel queue visited acc).2.getD k false = true ∧
          (k ∈ queue ∨ (visited.getD k false = false ∧
            (bondGet p k).is_aromatic = true))) ∧
        (∀ j ∈ t, ∀ (a : AtomId),
          (a = (bondGet p j).start_atom_id ∨ a = (bondGet p j).end_atom_id) →
          ∀ ai, mapLookup p.atom_id_to_index a = some ai →
          ∀ k, k < p.bonds.length → (bondGet p k).is_aromatic = true →
          (∃ en ∈ adjGet p ai, mapLookup p.bond_id_to_index en.2 = some k) →
          (collectAromComp p fuel queue visited acc).2.getD k false = true)) := by
  intro fuel
  induction fuel with
  | zero =>
    intro queue visited acc hvl hnd hq hdec hfuel
    have hqe : queue = [] := by
      cases queue with
      | nil => rfl
      | cons x xs => simp at hfuel
    subst hqe
    have heq : collectAromComp p 0 [] visited acc = (acc, visited) := rfl
    rw [heq]
    refine ⟨hvl, fun k hk => hk, ?_, [], by simp, List.nodup_nil,
      fun k hk => absurd hk (by simp), fun k hk => absurd hk (by simp),
      fun j hj => absurd hj (by simp)⟩
    intro k hk
    rcases hdec k hk with h1 | h1
    · exact absurd h1 (by simp)
    · rcases h1 with h2 | h2
      · exact Or.inl h2
      · exact Or.inr h2
  | succ fuel ih =>
    intro queue visited acc hvl hnd hq hdec hfuel
    match queue with
    | [] =>
      have heq : collectAromComp p (fuel + 1) [] visited acc =
          (acc, visited) := rfl
      rw [heq]
      refine ⟨hvl, fun k hk => hk, ?_, [], by simp, List.nodup_nil,
        fun k hk => absurd hk (by simp), fun k hk => absurd hk (by simp),
        fun j hj => absurd hj (by simp)⟩
      intro k hk
      rcases hdec k hk with h1 | h1
      · exact absurd h1 (by simp)
      · rcases h1 with h2 | h2
        · exact Or.inl h2
        · exact Or.inr h2
    | bond_idx :: rest =>
      obtain ⟨hbi_lt, hbi_mark⟩ := hq bond_idx (List.mem_cons_self _ _)
      have hndr : rest.Nodup := (List.nodup_cons.mp hnd).2
      have hnir : bond_idx ∉ rest := (List.nodup_cons.mp hnd).1
      rw [collectAromComp_step_eq]
      have hstep := collectStep_inv p hmap rest visited hvl
        [(bondGet p bond_idx).start_atom_id,
          (bondGet p bond_idx).end_atom_id]
      set step := [(bondGet p bond_idx).start_atom_id,
        (bondGet p bond_idx).end_atom_id].foldl (collectEndpointBody p)
        (rest, visited) with hstepdef
      obtain ⟨hslen, hsmono, tp, htp, htpnd, htpm, hsdec, hscnt⟩ := hstep
      have hvl2 : step.2.length = p.bonds.length := by rw [hslen, hvl]
      have hnd2 : step.1.Nodup := by
        rw [htp, List.nodup_append]
        refine ⟨hndr, htpnd, ?_⟩
        intro x hx hx2
        have h1 := (hq x (List.mem_cons_of_mem _ hx)).2
        have h2 := (htpm x hx2).2.2.1
        rw [h1] at h2
        exact absurd h2 (by simp)
      have hq2 : ∀ k ∈ step.1, k < p.bonds.length ∧
          step.2.getD k false = true := by
        intro k hk
        rw [htp] at hk
        rcases List.mem_append.mp hk with h1 | h1
        · obtain ⟨h2, h3⟩ := hq k (List.mem_cons_of_mem _ h1)
          exact ⟨h2, hsmono k h3⟩
        · exact ⟨(htpm k h1).1, (htpm k h1).2.1⟩
      have hdec2 : ∀ k, step.2.getD k false = true →
          k ∈ step.1 ∨ k ∈ acc ++ [bond_idx] ∨ B k := by
        intro k hk
        rcases hsdec k hk with h1 | h1
        · rcases hdec k h1 with h2 | h2
          · rcases List.mem_cons.mp h2 with h3 | h3
            · subst h3
              exact Or.inr (Or.inl (List.mem_append.mpr (Or.inr (by simp))))
            · exact Or.inl (by rw [htp]; exact List.mem_append.mpr (Or.inl h3))
          · rcases h2 with h3 | h3
            · exact Or.inr (Or.inl (List.mem_append.mpr (Or.inl h3)))
            · exact Or.inr (Or.inr h3)
        · exact Or.inl (by rw [htp]; exact List.mem_append.mpr (Or.inr h1))
      have hfuel2 : step.1.length + countFalse step.2 ≤ fuel := by
        have h1 : step.1.length = rest.length + tp.length := by
          rw [htp, List.length_append]
        simp only [List.length_cons] at hfuel
        omega
      have hrec := ih step.1 step.2 (acc ++ [bond_idx]) hvl2 hnd2 hq2
        hdec2 hfuel2
      obtain ⟨hr1, hr2, hr3, t', hteq, htnd', hqsub, htm', hclo'⟩ := hrec
      refine ⟨hr1, ?_, hr3, bond_idx :: t', ?_, ?_, ?_, ?_, ?_⟩
      · intro k hk
        exact hr2 k (hsmono k hk)
      · rw [hteq, List.append_assoc]
        rfl
      · rw [List.nodup_cons]
        refine ⟨?_, htnd'⟩
        intro hmem
        rcases (htm' bond_idx hmem).2.2 with h1 | h1
        · rw [htp] at h1
          rcases List.mem_append.mp h1 with h2 | h2
          · exact hnir h2
          · have := (htpm bond_idx h2).2.2.1
            rw [hbi_mark] at this
            exact absurd this (by simp)
        · have := hsmono bond_idx hbi_mark
          rw [h1.1] at this
          exact absurd this (by simp)
      · intro k hk
        rcases List.mem_cons.mp hk with h1 | h1
        · subst h1
          exact List.mem_cons_self _ _
        · refine List.mem_cons_of_mem _ ?_
          refine hqsub k ?_
          rw [htp]
          exact List.mem_append.mpr (Or.inl h1)
      · intro k hk
        rcases List.mem_cons.mp hk with h1 | h1
        · subst h1
          exact ⟨hbi_lt, hr2 k (hsmono k hbi_mark),
            Or.inl (List.mem_cons_self _ _)⟩
        · obtain ⟨h2, h3, h4⟩ := htm' k h1
          refine ⟨h2, h3, ?_⟩
          rcases h4 with h5 | h5
          · rw [htp] at h5
            rcases List.mem_append.mp h5 with h6 | h6
            · exact Or.inl (List.mem_cons_of_mem _ h6)
            · exact Or.inr ⟨(htpm k h6).2.2.1, (htpm k h6).2.2.2⟩
          · refine Or.inr ⟨?_, h5.2⟩
            cases hx : visited.getD k false with
            | false => rfl
            | true =>
              have := hsmono k hx
              rw [h5.1] at this
              exact absurd this (by simp)
      · intro j hj a ha ai hai k hklt hkarom hrow
        rcases List.mem_cons.mp hj with h1 | h1
        · subst h1
          refine hr2 k ?_
          have := collectEndpoints_marks p k hkarom
            (bondGet p j).start_atom_id (bondGet p j).end_atom_id a ai
            ha hai hrow (rest, visited) (by simpa [hvl] using hklt)
          exact this
        · exact hclo' j h1 a ha ai hai k hklt hkarom hrow

/-- The default-fill step of `assign_kekule_orders`. -/
def fillSingle (bs : List PerceivedBond) (idx : Nat) : List PerceivedBond :=
  if (bs.getD idx default).kekule_order == none then
    setKekule bs idx (some .Single)
  else bs

theorem fillFold_length :
    ∀ (comp : List Nat) (bs : List PerceivedBond),
      (comp.foldl fillSingle bs).length = bs.length
  | [], _ => rfl
  | idx :: comp, bs => by
    rw [List.foldl_cons, fillFold_length comp]
    unfold fillSingle
    split
    · rw [setKekule_length]
    · rfl

theorem fillSingle_shape (bs : List PerceivedBond) (idx : Nat) :
    sameShape bs (fillSingle bs idx) := by
  unfold fillSingle
  split
  · exact sameShape_setKekule bs idx _
  · exact sameShape_refl bs

theorem fillFold_shape :
    ∀ (comp : List Nat) (bs : List PerceivedBond),
      sameShape bs (comp.foldl fillSingle bs)
  | [], bs => sameShape_refl bs
  | idx :: comp, bs => by
    rw [List.foldl_cons]
    exact sameShape_trans (fillSingle_shape bs idx)
      (fillFold_shape comp (fillSingle bs idx))

theorem fillSingle_preserve_nonone (bs : List PerceivedBond) (idx j : Nat)
    (h : (bs.getD j default).kekule_order ≠ none) :
    (fillSingle bs idx).getD j default = bs.getD j default := by
  unfold fillSingle
  split
  · rename_i hg
    refine getD_setKekule_ne _ _ _ _ ?_
    intro he
    subst he
    rw [beq_iff_eq] at hg
    exact h hg
  · rfl

theorem fillFold_preserve_nonone :
    ∀ (comp : List Nat) (bs : List PerceivedBond) (j : Nat),
      (bs.getD j default).kekule_order ≠ none →
      (comp.foldl fillSingle bs).getD j default = bs.getD j default
  | [], _, _, _ => rfl
  | idx :: comp, bs, j, h => by
    rw [List.foldl_cons]
    have h1 := fillSingle_preserve_nonone bs idx j h
    rw [fillFold_preserve_nonone comp (fillSingle bs idx) j (by rw [h1]; exact h),
      h1]

theorem fillFold_untouched :
    ∀ (comp : List Nat) (bs : List PerceivedBond) (j : Nat), j ∉ comp →
      (comp.foldl fillSingle bs).getD j default = bs.getD j default
  | [], _, _, _ => rfl
  | idx :: comp, bs, j, h => by
    rw [List.foldl_cons]
    have hj1 : j ∉ comp := fun hc => h (List.mem_cons_of_mem _ hc)
    have hji : idx ≠ j := fun he => h (by rw [he]; exact List.mem_cons_self _ _)
    have h1 : (fillSingle bs idx).getD j default = bs.getD j default := by
      unfold fillSingle
      split
      · exact getD_setKekule_ne _ _ _ _ hji
      · rfl
    rw [fillFold_untouched comp (fillSingle bs idx) j hj1, h1]

theorem fillFold_kekule_cases :
    ∀ (comp : List Nat) (bs : List PerceivedBond) (j : Nat),
      (comp.foldl fillSingle bs).getD j default = bs.getD j default ∨
      ((comp.foldl fillSingle bs).getD j default).kekule_order = some .Single
  | [], _, _ => Or.inl rfl
  | idx :: comp, bs, j => by
    rw [List.foldl_cons]
    rcases fillFold_kekule_cases comp (fillSingle bs idx) j with h1 | h1
    · rw [h1]
      unfold fillSingle
      split
      · by_cases hji : idx = j
        · subst hji
          by_cases hlt : idx < bs.length
          · right
            rw [getD_setKekule_self _ _ _ hlt]
          · left
            have hno : setKekule bs idx (some BondOrder.Single) = bs :=
              updateNth_oob _ _ _ (by omega)
            rw [hno]
        · left
          exact getD_setKekule_ne _ _ _ _ hji
      · left
        rfl
    · right
      exact h1

/-- Shape preservation of the backtracker. -/
theorem kekule_backtrack_shape :
    ∀ (todo : List Nat) (bonds : List PerceivedBond) (counts : AtomId → Nat)
      (att : Nat),
      sameShape bonds (kekule_backtrack bonds todo counts att).2.1
  | [], bonds, counts, att => by
    simp only [kekule_backtrack]
    exact sameShape_refl bonds
  | idx :: rest, bonds, counts, att => by
    simp only [kekule_backtrack]
    by_cases hlim : KEKULIZATION_ATTEMPT_LIMIT ≤ att
    · rw [if_pos hlim]
      exact sameShape_refl bonds
    · rw [if_neg hlim]
      by_cases hd : (counts (bonds.getD idx default).start_atom_id = 0 ∧
          counts (bonds.getD idx default).end_atom_id = 0)
      · rw [if_pos hd]
        set s0 := (bonds.getD idx default).start_atom_id with hs0
        set e0 := (bonds.getD idx default).end_atom_id with he0
        set rD := kekule_backtrack (setKekule bonds idx (some .Double)) rest
          (bumpCount (bumpCount counts s0) e0) (att + 1) with hrD
        have hsD : sameShape bonds rD.2.1 := by
          rw [hrD]
          exact sameShape_trans (sameShape_setKekule bonds idx _)
            (kekule_backtrack_shape rest (setKekule bonds idx (some .Double))
              (bumpCount (bumpCount counts s0) e0) (att + 1))
        split
        · exact hsD
        · set rS := kekule_backtrack
            (setKekule (setKekule rD.2.1 idx none) idx (some .Single)) rest
            (decrCount (decrCount rD.2.2.1 s0) e0) rD.2.2.2 with hrS
          have hS : sameShape bonds rS.2.1 := by
            rw [hrS]
            exact sameShape_trans
              (sameShape_trans
                (sameShape_trans hsD (sameShape_setKekule rD.2.1 idx none))
                (sameShape_setKekule _ idx (some .Single)))
              (kekule_backtrack_shape rest
                (setKekule (setKekule rD.2.1 idx none) idx (some .Single))
                (decrCount (decrCount rD.2.2.1 s0) e0) rD.2.2.2)
          split
          · exact hS
          · exact sameShape_trans hS (sameShape_setKekule _ idx none)
      · rw [if_neg hd]
        set rS := kekule_backtrack (setKekule bonds idx (some .Single)) rest
          counts (att + 1) with hrS
        have hS : sameShape bonds rS.2.1 := by
          rw [hrS]
          exact sameShape_trans (sameShape_setKekule bonds idx (some .Single))
            (kekule_backtrack_shape rest (setKekule bonds idx (some .Single))
              counts (att + 1))
        split
        · exact hS
        · exact sameShape_trans hS (sameShape_setKekule _ idx none)

/-- Number of kekulé-Double bonds incident to atom id `a`. -/
def globalDbl (bs : List PerceivedBond) (a : AtomId) : Nat :=
  ((List.range bs.length).map (dblAt bs a)).sum

theorem dblAt_congr (bs bs' : List PerceivedBond) (a : AtomId) (j : Nat)
    (h : bs.getD j default = bs'.getD j default) :
    dblAt bs a j = dblAt bs' a j := by
  unfold dblAt
  rw [h]

theorem dblAt_none (bs : List PerceivedBond) (a : AtomId) (j : Nat)
    (h : (bs.getD j default).kekule_order = none) : dblAt bs a j = 0 := by
  unfold dblAt
  refine if_neg ?_
  intro hc
  have := hc.1
  rw [h] at this
  exact Option.noConfusion this

/-- Behaviour of `assign_kekule_orders` on success: lengths and shapes
are preserved, already-assigned bonds and bonds outside the component
are untouched, every component bond ends Single or Double, the
Single/Double/none domain is preserved, and per atom at most one new
double appears, necessarily on a previously unassigned component bond
incident to that atom. -/
theorem assign_kekule_orders_spec (bonds : List PerceivedBond)
    (comp : List Nat) (total : Nat) (bonds2 : List PerceivedBond) (t2 : Nat)
    (hcb : ∀ i ∈ comp, i < bonds.length)
    (hcnd : comp.Nodup)
    (hdom : ∀ j, (bonds.getD j default).kekule_order = none ∨
      (bonds.getD j default).kekule_order = some .Single ∨
      (bonds.getD j default).kekule_order = some .Double)
    (hok : assign_kekule_orders bonds comp total = .ok (bonds2, t2)) :
    bonds2.length = bonds.length ∧
    sameShape bonds bonds2 ∧
    (∀ j, (bonds.getD j default).kekule_order ≠ none →
      bonds2.getD j default = bonds.getD j default) ∧
    (∀ j, j ∉ comp → bonds2.getD j default = bonds.getD j default) ∧
    (∀ i ∈ comp, (bonds2.getD i default).kekule_order = some .Single ∨
      (bonds2.getD i default).kekule_order = some .Double) ∧
    (∀ j, (bonds2.getD j default).kekule_order = none ∨
      (bonds2.getD j default).kekule_order = some .Single ∨
      (bonds2.getD j default).kekule_order = some .Double) ∧
    (∀ a, ∃ d, d ≤ 1 ∧ globalDbl bonds2 a = globalDbl bonds a + d ∧
      (0 < d → ∃ j, j < bonds.length ∧ j ∈ comp ∧
        (bonds.getD j default).kekule_order = none ∧
        ((bonds.getD j default).start_atom_id = a ∨
          (bonds.getD j default).end_atom_id = a))) := by
  unfold assign_kekule_orders at hok
  set todo := comp.filter
    (fun idx => (bonds.getD idx default).kekule_order == none) with htodo
  have htodoChar : ∀ j, j ∈ todo ↔ (j ∈ comp ∧
      (bonds.getD j default).kekule_order = none) := by
    intro j
    rw [htodo, List.mem_filter]
    constructor
    · intro ⟨h1, h2⟩
      exact ⟨h1, by rwa [beq_iff_eq] at h2⟩
    · intro ⟨h1, h2⟩
      exact ⟨h1, by rwa [beq_iff_eq]⟩
  by_cases hemp : todo.isEmpty = true
  · rw [if_pos hemp] at hok
    simp only [Except.ok.injEq, Prod.mk.injEq] at hok
    obtain ⟨hb2, _⟩ := hok
    subst hb2
    have htodoe : todo = [] := by
      cases hx : todo with
      | nil => rfl
      | cons y ys =>
        rw [hx] at hemp
        simp [List.isEmpty] at hemp
    refine ⟨rfl, sameShape_refl _, fun j _ => rfl, fun j _ => rfl, ?_,
      hdom, ?_⟩
    · intro i hi
      rcases hdom i with h1 | h1
      · have : i ∈ todo := (htodoChar i).mpr ⟨hi, h1⟩
        rw [htodoe] at this
        exact absurd this (by simp)
      · exact h1
    · intro a
      exact ⟨0, by omega, by omega, fun hp => absurd hp (by omega)⟩
  · rw [if_neg hemp] at hok
    set r := kekule_backtrack bonds todo (fun _ => 0) total with hr
    by_cases hok1 : r.1 = true
    · rw [if_pos hok1] at hok
      have hfold : comp.foldl
          (fun bs idx =>
            if (bs.getD idx default).kekule_order == none then
              setKekule bs idx (some BondOrder.Single)
            else bs) r.2.1 = comp.foldl fillSingle r.2.1 := rfl
      rw [hfold] at hok
      simp only [Except.ok.injEq, Prod.mk.injEq] at hok
      obtain ⟨hb2, _⟩ := hok
      have htodoNd : todo.Nodup := by
        rw [htodo]
        exact hcnd.filter _
      have htodoAll : ∀ i ∈ todo, i < bonds.length ∧
          (bonds.getD i default).kekule_order = none := by
        intro i hi
        obtain ⟨h1, h2⟩ := (htodoChar i).mp hi
        exact ⟨hcb i h1, h2⟩
      have hsound := kekule_backtrack_sound todo bonds (fun _ => 0) total
        htodoNd (fun i hi => htodoAll i hi)
      obtain ⟨_, huntouched, hrlen, hsucc⟩ := hsound
      obtain ⟨hmem, hcnt⟩ := hsucc hok1
      have hshape_bt : sameShape bonds r.2.1 :=
        kekule_backtrack_shape todo bonds (fun _ => 0) total
      have hval_in : ∀ j ∈ todo, bonds2.getD j default =
          r.2.1.getD j default := by
        intro j hj
        rw [← hb2]
        refine fillFold_preserve_nonone comp r.2.1 j ?_
        rcases hmem j hj with h1 | h1 <;> rw [h1] <;> simp
      have hval_out : ∀ j, j ∉ todo →
          bonds2.getD j default = bonds.getD j default := by
        intro j hj
        by_cases hjc : j ∈ comp
        · have hne : (bonds.getD j default).kekule_order ≠ none := by
            intro hn
            exact hj ((htodoChar j).mpr ⟨hjc, hn⟩)
          rw [← hb2, fillFold_preserve_nonone comp r.2.1 j
            (by rw [huntouched j hj]; exact hne), huntouched j hj]
        · rw [← hb2, fillFold_untouched comp r.2.1 j hjc, huntouched j hj]
      refine ⟨?_, ?_, ?_, ?_, ?_, ?_, ?_⟩
      · rw [← hb2, fillFold_length, hrlen]
      · rw [← hb2]
        exact sameShape_trans hshape_bt (fillFold_shape comp r.2.1)
      · intro j hne
        refine hval_out j ?_
        intro hj
        exact hne ((htodoChar j).mp hj).2
      · intro j hjc
        refine hval_out j ?_
        intro hj
        exact hjc ((htodoChar j).mp hj).1
      · intro i hi
        by_cases hit : i ∈ todo
        · rw [hval_in i hit]
          exact hmem i hit
        · rw [hval_out i hit]
          rcases hdom i with h1 | h1
          · exact absurd ((htodoChar i).mpr ⟨hi, h1⟩) hit
          · exact h1
      · intro j
        by_cases hjt : j ∈ todo
        · rw [hval_in j hjt]
          rcases hmem j hjt with h1 | h1
          · exact Or.inr (Or.inl h1)
          · exact Or.inr (Or.inr h1)
        · rw [hval_out j hjt]
          exact hdom j
      · intro a
        refine ⟨newDbl r.2.1 todo a, (hcnt a).2.2, ?_, ?_⟩
        · have hlen2 : bonds2.length = bonds.length := by
            rw [← hb2, fillFold_length, hrlen]
          have hpt : ∀ j ∈ List.range bonds.length,
              dblAt bonds2 a j = dblAt bonds a j +
                (if j ∈ todo then dblAt r.2.1 a j else 0) := by
            intro j _
            by_cases hjt : j ∈ todo
            · rw [if_pos hjt, dblAt_congr bonds2 r.2.1 a j (hval_in j hjt),
                dblAt_none bonds a j (htodoAll j hjt).2]
              omega
            · rw [if_neg hjt, dblAt_congr bonds2 bonds a j (hval_out j hjt)]
              omega
          calc globalDbl bonds2 a
              = ((List.range bonds.length).map (dblAt bonds2 a)).sum := by
                rw [globalDbl, hlen2]
            _ = ((List.range bonds.length).map (fun j => dblAt bonds a j +
                (if j ∈ todo then dblAt r.2.1 a j else 0))).sum := by
                congr 1
                exact List.map_congr_left hpt
            _ = ((List.range bonds.length).map (dblAt bonds a)).sum +
                ((List.range bonds.length).map
                  (fun j => if j ∈ todo then dblAt r.2.1 a j else 0)).sum :=
                sum_map_add _ _ _
            _ = globalDbl bonds a + newDbl r.2.1 todo a := by
                rw [sum_range_indicator (dblAt r.2.1 a) todo bonds.length
                  htodoNd (fun i hi => (htodoAll i hi).1)]
                rfl
        · intro hp
          obtain ⟨j, hjt, hjpos⟩ := map_sum_pos_exists (dblAt r.2.1 a) todo hp
          have hcond : (r.2.1.getD j default).kekule_order =
              some BondOrder.Double ∧
              ((r.2.1.getD j default).start_atom_id = a ∨
                (r.2.1.getD j default).end_atom_id = a) := by
            by_contra hc
            rw [dblAt, if_neg hc] at hjpos
            omega
          obtain ⟨hjlt, hjnone⟩ := htodoAll j hjt
          obtain ⟨hs, he, _, _⟩ := hshape_bt.2 j
          refine ⟨j, hjlt, ((htodoChar j).mp hjt).1, hjnone, ?_⟩
          rcases hcond.2 with h1 | h1
          · exact Or.inl (by rw [hs]; exact h1)
          · exact Or.inr (by rw [he]; exact h1)
    · rw [if_neg hok1] at hok
      simp at hok

/-- One iteration of the outer loop of `kekulize`. -/
def kekStep (p : ChemicalPerception)
    (acc : Except PerceptionError (List PerceivedBond × List Bool × Nat))
    (bond_idx : Nat) :
    Except PerceptionError (List PerceivedBond × List Bool × Nat) :=
  match acc with
  | .error e => .error e
  | .ok st =>
    if (st.1.getD bond_idx default).is_aromatic &&
        !(st.2.1.getD bond_idx false) then
      match assign_kekule_orders st.1
          (collect_aromatic_component { p with bonds := st.1 }
            bond_idx st.2.1).1 st.2.2 with
      | .error e => .error e
      | .ok pr => .ok (pr.1,
          (collect_aromatic_component { p with bonds := st.1 }
            bond_idx st.2.1).2, pr.2)
    else acc

theorem kekulize_eq (p : ChemicalPerception) :
    kekulize p =
      match (List.range p.bonds.length).foldl (kekStep p)
        (.ok (p.bonds, List.replicate p.bonds.length false, 0)) with
      | .error e => .error e
      | .ok st => .ok { p with bonds := st.1 } := rfl

/-- Adjacency completeness of a perception: each endpoint of each bond
resolves through the atom-id map, and its adjacency row reaches every
bond incident to that endpoint through the bond-id map. This is the
structure `GraphBuilder` produces. -/
def adjCompleteP (p : ChemicalPerception) : Prop :=
  ∀ j, j < p.bonds.length →
    ∀ a ∈ [(p.bonds.getD j default).start_atom_id,
        (p.bonds.getD j default).end_atom_id],
      (mapLookup p.atom_id_to_index a).isSome = true ∧
      ∀ k, k < p.bonds.length →
        ((p.bonds.getD k default).start_atom_id = a ∨
          (p.bonds.getD k default).end_atom_id = a) →
        ∃ en ∈ adjGet p ((mapLookup p.atom_id_to_index a).getD 0),
          mapLookup p.bond_id_to_index en.2 = some k

/-- Executable check of `adjCompleteP`. -/
def adjCompleteB (p : ChemicalPerception) : Bool :=
  (List.range p.bonds.length).all (fun j =>
    [(p.bonds.getD j default).start_atom_id,
      (p.bonds.getD j default).end_atom_id].all (fun a =>
      (mapLookup p.atom_id_to_index a).isSome &&
      (List.range p.bonds.length).all (fun k =>
        if ((p.bonds.getD k default).start_atom_id = a ∨
            (p.bonds.getD k default).end_atom_id = a) then
          (adjGet p ((mapLookup p.atom_id_to_index a).getD 0)).any
            (fun en => mapLookup p.bond_id_to_index en.2 == some k)
        else true)))

/-- Adjacency completeness as a decidable proposition. -/
def adjComplete (p : ChemicalPerception) : Prop := adjCompleteB p = true

instance adjCompleteDecidable (p : ChemicalPerception) :
    Decidable (adjComplete p) :=
  inferInstanceAs (Decidable (adjCompleteB p = true))

theorem adjComplete_to_prop (p : ChemicalPerception) (h : adjComplete p) :
    adjCompleteP p := by
  rw [adjComplete, adjCompleteB, List.all_eq_true] at h
  intro j hj a ha
  have hja := h j (List.mem_range.mpr hj)
  rw [List.all_eq_true] at hja
  have hja2 := hja a ha
  rw [Bool.and_eq_true] at hja2
  refine ⟨hja2.1, ?_⟩
  intro k hk hinc
  have h3 := hja2.2
  rw [List.all_eq_true] at h3
  have h4 := h3 k (List.mem_range.mpr hk)
  rw [if_pos hinc, List.any_eq_true] at h4
  obtain ⟨en, hen, he⟩ := h4
  exact ⟨en, hen, by rwa [beq_iff_eq] at he⟩

/-- Two bond indices share an endpoint atom id. -/
def sharesAtomAt (p : ChemicalPerception) (j k : Nat) : Prop :=
  ∃ a, ((p.bonds.getD j default).start_atom_id = a ∨
      (p.bonds.getD j default).end_atom_id = a) ∧
    ((p.bonds.getD k default).start_atom_id = a ∨
      (p.bonds.getD k default).end_atom_id = a)

theorem getD_replicate_false :
    ∀ (n j : Nat), (List.replicate n false).getD j false = false
  | 0, _ => by simp
  | n + 1, 0 => by simp
  | n + 1, j + 1 => by
    rw [List.replicate_succ, List.getD_cons_succ]
    exact getD_replicate_false n j

/-- The running invariant of the `kekulize` fold after the first `m`
iterations: lengths and shapes are preserved, kekulé orders stay in the
Single/Double/none domain, unvisited bonds are unassigned, visited
aromatic bonds are assigned, no atom carries two kekulé doubles, the
visited set is closed under aromatic adjacency, and all aromatic bonds
below the cursor are visited. -/
def KInv (p : ChemicalPerception) (m : Nat)
    (st : List PerceivedBond × List Bool × Nat) : Prop :=
  st.1.length = p.bonds.length ∧
  st.2.1.length = p.bonds.length ∧
  sameShape p.bonds st.1 ∧
  (∀ j, (st.1.getD j default).kekule_order = none ∨
    (st.1.getD j default).kekule_order = some .Single ∨
    (st.1.getD j default).kekule_order = some .Double) ∧
  (∀ j, st.2.1.getD j false = false →
    (st.1.getD j default).kekule_order = none) ∧
  (∀ j, j < p.bonds.length → st.2.1.getD j false = true →
    (p.bonds.getD j default).is_aromatic = true →
    ((st.1.getD j default).kekule_order = some .Single ∨
      (st.1.getD j default).kekule_order = some .Double)) ∧
  (∀ a, globalDbl st.1 a ≤ 1) ∧
  (∀ j, j < p.bonds.length → st.2.1.getD j false = true →
    ∀ k, k < p.bonds.length → (p.bonds.getD k default).is_aromatic = true →
    sharesAtomAt p j k → st.2.1.getD k false = true) ∧
  (∀ j, j < m → (p.bonds.getD j default).is_aromatic = true →
    st.2.1.getD j false = true)

theorem kekStep_inv (p : ChemicalPerception)
    (hmap : ∀ pr ∈ p.bond_id_to_index, pr.2 < p.bonds.length)
    (hadj : adjCompleteP p)
    (m : Nat) (hm : m < p.bonds.length)
    (st : List PerceivedBond × List Bool × Nat)
    (hI : KInv p m st) :
    ∀ st2, kekStep p (.ok st) m = .ok st2 → KInv p (m + 1) st2 := by
  intro st2 hok
  simp only [kekStep] at hok
  obtain ⟨hl1, hl2, hshape, hdom, hN, hA, hB, hC, hprog⟩ := hI
  by_cases hg : ((st.1.getD m default).is_aromatic &&
      !(st.2.1.getD m false)) = true
  · rw [if_pos hg] at hok
    rw [Bool.and_eq_true, Bool.not_eq_true'] at hg
    obtain ⟨hgar, hgvis⟩ := hg
    have hparom : (p.bonds.getD m default).is_aromatic = true := by
      rw [(hshape.2 m).2.2.1]
      exact hgar
    set p' : ChemicalPerception := { p with bonds := st.1 } with hp'
    have hp'len : p'.bonds.length = p.bonds.length := hl1
    have hp'map : ∀ pr ∈ p'.bond_id_to_index, pr.2 < p'.bonds.length := by
      intro pr hpr
      rw [hp'len]
      exact hmap pr hpr
    have hsetlen : (st.2.1.set m true).length = p'.bonds.length := by
      rw [List.length_set, hl2, hp'len]
    have hmset : (st.2.1.set m true).getD m false = true :=
      getD_set_self _ _ _ _ (by rw [hl2]; exact hm)
    have hspec := collectAromComp_spec p' hp'map
      (fun k => st.2.1.getD k false = true)
      (p'.bonds.length + 1) [m] (st.2.1.set m true) []
      hsetlen (List.nodup_singleton m)
      (by
        intro k hk
        have hke : k = m := by simpa using hk
        subst hke
        exact ⟨by rw [hp'len]; exact hm, hmset⟩)
      (by
        intro k hk
        by_cases hkm : k = m
        · subst hkm
          exact Or.inl (List.mem_cons_self _ _)
        · rw [getD_set_ne _ _ _ _ _ (fun he => hkm he.symm)] at hk
          exact Or.inr (Or.inr hk))
      (by
        have h1 := countFalse_le_length (st.2.1.set m true)
        rw [hsetlen] at h1
        simp only [List.length_cons, List.length_nil]
        omega)
    have hceq : collect_aromatic_component p' m st.2.1 =
        collectAromComp p' (p'.bonds.length + 1) [m]
          (st.2.1.set m true) [] := rfl
    rw [← hceq] at hspec
    obtain ⟨hclen, hcmono, hcdec, t, hct, htnd, hqsub, htm, hclo⟩ := hspec
    have hct2 : (collect_aromatic_component p' m st.2.1).1 = t := by
      rw [hct, List.nil_append]
    have holdmono : ∀ k, st.2.1.getD k false = true →
        (collect_aromatic_component p' m st.2.1).2.getD k false = true :=
      fun k hk => hcmono k (getD_set_true_mono _ _ _ hk)
    cases hassign : assign_kekule_orders st.1
        (collect_aromatic_component p' m st.2.1).1 st.2.2 with
    | error e =>
      rw [hassign] at hok
      simp at hok
    | ok pr =>
      rw [hassign] at hok
      simp only [Except.ok.injEq] at hok
      subst hok
      rw [hct2] at hassign
      have hcb : ∀ i ∈ t, i < st.1.length := by
        intro i hi
        exact (htm i hi).1
      have hspec2 := assign_kekule_orders_spec st.1 t st.2.2 pr.1 pr.2
        hcb htnd hdom hassign
      obtain ⟨halen, hashape, hauntA, hauntC, hamem, hadom, hadbl⟩ := hspec2
      have hmint : m ∈ t := hqsub m (List.mem_cons_self _ _)
      have htm_marked : ∀ i ∈ t,
          (collect_aromatic_component p' m st.2.1).2.getD i false = true :=
        fun i hi => (htm i hi).2.1
      have htm_fresh : ∀ i ∈ t, st.2.1.getD i false = false := by
        intro i hi
        rcases (htm i hi).2.2 with h1 | h1
        · have : i = m := by simpa using h1
          subst this
          exact hgvis
        · cases hx : st.2.1.getD i false with
          | false => rfl
          | true =>
            have := getD_set_true_mono st.2.1 m i hx
            rw [h1.1] at this
            exact absurd this (by simp)
      have htm_arom : ∀ i ∈ t, (p.bonds.getD i default).is_aromatic = true := by
        intro i hi
        rcases (htm i hi).2.2 with h1 | h1
        · have : i = m := by simpa using h1
          subst this
          exact hparom
        · rw [(hshape.2 i).2.2.1]
          exact h1.2
      refine ⟨?_, ?_, ?_, hadom, ?_, ?_, ?_, ?_, ?_⟩
      · rw [halen, hl1]
      · show (collect_aromatic_component p' m st.2.1).2.length =
          p.bonds.length
        rw [hclen, hp'len]
      · exact sameShape_trans hshape hashape
      · intro j hjf
        have hjnott : j ∉ t := by
          intro hjt
          rw [htm_marked j hjt] at hjf
          exact absurd hjf (by simp)
        have hjold : st.2.1.getD j false = false := by
          cases hx : st.2.1.getD j false with
          | false => rfl
          | true =>
            rw [holdmono j hx] at hjf
            exact absurd hjf (by simp)
        show (pr.1.getD j default).kekule_order = none
        rw [hauntC j hjnott]
        exact hN j hjold
      · intro j hjlt hjm hjarom
        show (pr.1.getD j default).kekule_order = some .Single ∨
          (pr.1.getD j default).kekule_order = some .Double
        rcases hcdec j hjm with hin | hBold
        · rw [hct2] at hin
          exact hamem j hin
        · have hst1 := hA j hjlt hBold hjarom
          have hne : (st.1.getD j default).kekule_order ≠ none := by
            rcases hst1 with h1 | h1 <;> rw [h1] <;> simp
          rw [hauntA j hne]
          exact hst1
      · intro a
        show globalDbl pr.1 a ≤ 1
        obtain ⟨d, hd1, heq, hwit⟩ := hadbl a
        by_cases hd0 : d = 0
        · rw [heq, hd0]
          have := hB a
          omega
        · obtain ⟨jn, hjn_lt, hjn_t, hjn_none, hjn_inc⟩ :=
            hwit (by omega)
          have hjn_fresh : st.2.1.getD jn false = false := htm_fresh jn hjn_t
          have hjn_arom : (p.bonds.getD jn default).is_aromatic = true :=
            htm_arom jn hjn_t
          have hold0 : globalDbl st.1 a = 0 := by
            by_contra hc
            have hpos : 0 < globalDbl st.1 a := by omega
            obtain ⟨k, hkr, hkpos⟩ := map_sum_pos_exists (dblAt st.1 a) _ hpos
            have hklt : k < st.1.length := List.mem_range.mp hkr
            have hkcond : (st.1.getD k default).kekule_order =
                some BondOrder.Double ∧
                ((st.1.getD k default).start_atom_id = a ∨
                  (st.1.getD k default).end_atom_id = a) := by
              by_contra hc2
              rw [dblAt, if_neg hc2] at hkpos
              omega
            have hkvis : st.2.1.getD k false = true := by
              cases hx : st.2.1.getD k false with
              | true => rfl
              | false =>
                have := hN k hx
                rw [this] at hkcond
                exact Option.noConfusion hkcond.1
            have hshares : sharesAtomAt p k jn := by
              refine ⟨a, ?_, ?_⟩
              · rcases hkcond.2 with h1 | h1
                · exact Or.inl (by rw [(hshape.2 k).1]; exact h1)
                · exact Or.inr (by rw [(hshape.2 k).2.1]; exact h1)
              · rcases hjn_inc with h1 | h1
                · exact Or.inl (by rw [(hshape.2 jn).1]; exact h1)
                · exact Or.inr (by rw [(hshape.2 jn).2.1]; exact h1)
            have := hC k (by omega) hkvis jn (by rw [← hl1]; exact hjn_lt)
              hjn_arom hshares
            rw [hjn_fresh] at this
            exact Bool.noConfusion this
          rw [heq, hold0]
          omega
      · intro j hjlt hjm k hklt hkarom hshares
        show (collect_aromatic_component p' m st.2.1).2.getD k false = true
        rcases hcdec j hjm with hin | hBold
        · rw [hct2] at hin
          obtain ⟨a, hja, hka⟩ := hshares
          have hamem2 : a ∈ [(p.bonds.getD j default).start_atom_id,
              (p.bonds.getD j default).end_atom_id] := by
            rcases hja with h1 | h1
            · rw [← h1]
              exact List.mem_cons_self _ _
            · rw [← h1]
              exact List.mem_cons_of_mem _ (List.mem_cons_self _ _)
          obtain ⟨hsome, hrowall⟩ := hadj j hjlt a hamem2
          cases hx : mapLookup p.atom_id_to_index a with
          | none =>
            rw [hx] at hsome
            exact Bool.noConfusion hsome
          | some v =>
            have hrow := hrowall k hklt hka
            rw [hx] at hrow
            refine hclo j hin a ?_ v ?_ k ?_ ?_ ?_
            · rcases hja with h1 | h1
              · refine Or.inl ?_
                show a = (st.1.getD j default).start_atom_id
                rw [← (hshape.2 j).1]
                exact h1.symm
              · refine Or.inr ?_
                show a = (st.1.getD j default).end_atom_id
                rw [← (hshape.2 j).2.1]
                exact h1.symm
            · exact hx
            · rw [hp'len]
              exact hklt
            · show (st.1.getD k default).is_aromatic = true
              rw [← (hshape.2 k).2.2.1]
              exact hkarom
            · exact hrow
        · have := hC j hjlt hBold k hklt hkarom hshares
          exact holdmono k this
      · intro j hjlt hjarom
        by_cases hjm : j = m
        · subst hjm
          exact htm_marked j hmint
        · have hjlt2 : j < m := by omega
          exact holdmono j (hprog j hjlt2 hjarom)
  · rw [if_neg hg] at hok
    simp only [Except.ok.injEq] at hok
    subst hok
    refine ⟨hl1, hl2, hshape, hdom, hN, hA, hB, hC, ?_⟩
    intro j hjlt hjarom
    by_cases hjm : j = m
    · subst hjm
      by_cases hv : st.2.1.getD j false = true
      · exact hv
      · exfalso
        refine hg ?_
        rw [Bool.and_eq_true, Bool.not_eq_true']
        refine ⟨by rw [← (hshape.2 j).2.2.1]; exact hjarom, ?_⟩
        cases hx : st.2.1.getD j false with
        | false => rfl
        | true => exact absurd hx hv
    · exact hprog j (by omega) hjarom

theorem getD_oob {α : Type} :
    ∀ (l : List α) (j : Nat) (d : α), l.length ≤ j → l.getD j d = d
  | [], _, _, _ => by simp
  | x :: xs, 0, d, h => by simp at h
  | x :: xs, j + 1, d, h => by
    rw [List.getD_cons_succ]
    exact getD_oob xs j d (by simpa using h)

theorem kekulize_fold_inv (p : ChemicalPerception)
    (hmap : ∀ pr ∈ p.bond_id_to_index, pr.2 < p.bonds.length)
    (hadj : adjCompleteP p)
    (hn0 : ∀ j, j < p.bonds.length →
      (p.bonds.getD j default).kekule_order = none) :
    ∀ m, m ≤ p.bonds.length → ∀ st,
      (List.range m).foldl (kekStep p)
        (.ok (p.bonds, List.replicate p.bonds.length false, 0)) = .ok st →
      KInv p m st := by
  have hn0' : ∀ j, (p.bonds.getD j default).kekule_order = none := by
    intro j
    by_cases hj : j < p.bonds.length
    · exact hn0 j hj
    · rw [getD_oob p.bonds j default (by omega)]
      rfl
  intro m
  induction m with
  | zero =>
    intro _ st hst
    simp only [List.range_zero, List.foldl_nil, Except.ok.injEq] at hst
    subst hst
    refine ⟨rfl, by simp, sameShape_refl _, fun j => Or.inl (hn0' j),
      fun j _ => hn0' j, ?_, ?_, ?_, ?_⟩
    · intro j _ hj _
      rw [getD_replicate_false] at hj
      exact Bool.noConfusion hj
    · intro a
      have hz : globalDbl p.bonds a = 0 := by
        unfold globalDbl
        refine List.sum_eq_zero ?_
        intro x hx
        obtain ⟨j, _, hje⟩ := List.mem_map.mp hx
        rw [← hje, dblAt_none p.bonds a j (hn0' j)]
      show globalDbl p.bonds a ≤ 1
      omega
    · intro j _ hj
      rw [getD_replicate_false] at hj
      exact Bool.noConfusion hj
    · intro j hj
      omega
  | succ m ih =>
    intro hle st hst
    rw [List.range_succ, List.foldl_append, List.foldl_cons,
      List.foldl_nil] at hst
    cases hFm : (List.range m).foldl (kekStep p)
        (.ok (p.bonds, List.replicate p.bonds.length false, 0)) with
    | error e =>
      rw [hFm] at hst
      have hbad : (Except.error e :
          Except PerceptionError (List PerceivedBond × List Bool × Nat)) =
          .ok st := hst
      exact absurd hbad (by simp)
    | ok st0 =>
      rw [hFm] at hst
      exact kekStep_inv p hmap hadj m (by omega) st0
        (ih (by omega) st0 hFm) st hst

/-- C2. For every perception whose bond table is well-formed the way
`GraphBuilder` builds it (all kekulé orders initially unset, bond-index
map in bounds, and adjacency rows complete for every bond endpoint),
when `kekulize` returns `Ok` every bond flagged aromatic carries
`kekule_order = some Single` or `some Double`, and no atom is incident
to more than one aromatic bond whose kekulé order is `some Double`. -/
theorem kekulize_ok_invariants (p p2 : ChemicalPerception)
    (hnone : ∀ j, j < p.bonds.length →
      (p.bonds.getD j default).kekule_order = none)
    (hmap : ∀ pr ∈ p.bond_id_to_index, pr.2 < p.bonds.length)
    (hadj : adjComplete p)
    (hok : kekulize p = .ok p2) :
    (∀ b ∈ p2.bonds, b.is_aromatic = true →
      b.kekule_order = some BondOrder.Single ∨
      b.kekule_order = some BondOrder.Double) ∧
    (∀ a : AtomId,
      (p2.bonds.filter (fun b => b.is_aromatic &&
        (b.kekule_order == some BondOrder.Double) &&
        (b.start_atom_id == a || b.end_atom_id == a))).length ≤ 1) := by
  rw [kekulize_eq] at hok
  cases hF : (List.range p.bonds.length).foldl (kekStep p)
      (.ok (p.bonds, List.replicate p.bonds.length false, 0)) with
  | error e =>
    rw [hF] at hok
    have hbad : (Except.error e :
        Except PerceptionError ChemicalPerception) = .ok p2 := hok
    exact absurd hbad (by simp)
  | ok st =>
    rw [hF] at hok
    have hok2 : Except.ok { p with bonds := st.1 } = Except.ok p2 := hok
    simp only [Except.ok.injEq] at hok2
    have hKI := kekulize_fold_inv p hmap (adjComplete_to_prop p hadj) hnone
      p.bonds.length (Nat.le_refl _) st hF
    obtain ⟨hl1, _, hshape, _, _, hA, hB, _, hprog⟩ := hKI
    have hp2 : p2.bonds = st.1 := by
      rw [← hok2]
    constructor
    · intro b hb hbar
      rw [hp2] at hb
      obtain ⟨j, hjlt, hbj⟩ := List.mem_iff_getElem.mp hb
      have hbj2 : st.1.getD j default = b := by
        rw [List.getD_eq_getElem st.1 default hjlt]
        exact hbj
      have hjlt2 : j < p.bonds.length := by
        rw [← hl1]
        exact hjlt
      have hparomj : (p.bonds.getD j default).is_aromatic = true := by
        rw [(hshape.2 j).2.2.1, hbj2]
        exact hbar
      have hvis := hprog j hjlt2 hparomj
      have := hA j hjlt2 hvis hparomj
      rw [hbj2] at this
      exact this
    · intro a
      have hflen := length_filter_eq_sum
        (fun b => b.is_aromatic && (b.kekule_order == some BondOrder.Double)
          && (b.start_atom_id == a || b.end_atom_id == a)) p2.bonds
      rw [hflen]
      have hpt : ∀ j ∈ List.range p2.bonds.length,
          (if ((p2.bonds.getD j default).is_aromatic &&
            ((p2.bonds.getD j default).kekule_order ==
              some BondOrder.Double) &&
            ((p2.bonds.getD j default).start_atom_id == a ||
              (p2.bonds.getD j default).end_atom_id == a)) = true
          then 1 else 0) ≤ dblAt st.1 a j := by
        intro j _
        by_cases hc : ((p2.bonds.getD j default).is_aromatic &&
            ((p2.bonds.getD j default).kekule_order ==
              some BondOrder.Double) &&
            ((p2.bonds.getD j default).start_atom_id == a ||
              (p2.bonds.getD j default).end_atom_id == a)) = true
        · rw [if_pos hc]
          rw [Bool.and_eq_true, Bool.and_eq_true] at hc
          obtain ⟨⟨_, hdbl⟩, hinc⟩ := hc
          rw [beq_iff_eq] at hdbl
          rw [Bool.or_eq_true] at hinc
          have hcond : (st.1.getD j default).kekule_order =
              some BondOrder.Double ∧
              ((st.1.getD j default).start_atom_id = a ∨
                (st.1.getD j default).end_atom_id = a) := by
            rw [← hp2]
            refine ⟨hdbl, ?_⟩
            rcases hinc with h1 | h1
            · exact Or.inl (by rwa [beq_iff_eq] at h1)
            · exact Or.inr (by rwa [beq_iff_eq] at h1)
          rw [dblAt, if_pos hcond]
        · rw [if_neg hc]
          omega
      calc ((List.range p2.bonds.length).map
            (fun j => if ((p2.bonds.getD j default).is_aromatic &&
              ((p2.bonds.getD j default).kekule_order ==
                some BondOrder.Double) &&
              ((p2.bonds.getD j default).start_atom_id == a ||
                (p2.bonds.getD j default).end_atom_id == a)) = true
            then 1 else 0)).sum
          ≤ ((List.range p2.bonds.length).map (dblAt st.1 a)).sum :=
            List.sum_le_sum hpt
        _ = globalDbl st.1 a := by
            rw [globalDbl, hp2]
        _ ≤ 1 := hB a

/-- The benzene-ring perception after aromaticity perception, the state
the Kekulizer receives. -/
def kekWitnessPerception : ChemicalPerception := aromaticity_perceive benzRing

/-- The kekulized benzene perception. -/
def kekWitnessResult : ChemicalPerception :=
  match kekulize kekWitnessPerception with
  | .ok q => q
  | .error _ => default

/-- Witness for C2: the aromatized benzene ring satisfies all
well-formedness hypotheses, kekulization succeeds, and the invariants
follow. -/
theorem kekulize_ok_invariants_witness :
    ((∀ j, j < kekWitnessPerception.bonds.length →
        (kekWitnessPerception.bonds.getD j default).kekule_order = none) ∧
      (∀ pr ∈ kekWitnessPerception.bond_id_to_index,
        pr.2 < kekWitnessPerception.bonds.length) ∧
      adjComplete kekWitnessPerception ∧
      kekulize kekWitnessPerception = .ok kekWitnessResult) ∧
    ((∀ b ∈ kekWitnessResult.bonds, b.is_aromatic = true →
      b.kekule_order = some BondOrder.Single ∨
      b.kekule_order = some BondOrder.Double) ∧
    (∀ a : AtomId,
      (kekWitnessResult.bonds.filter (fun b => b.is_aromatic &&
        (b.kekule_order == some BondOrder.Double) &&
        (b.start_atom_id == a || b.end_atom_id == a))).length ≤ 1)) :=
  ⟨⟨by decide, by decide, by decide, by rfl⟩,
    kekulize_ok_invariants kekWitnessPerception kekWitnessResult
      (by decide) (by decide) (by decide) (by rfl)⟩

end Pauling
